import Mathlib

/-!
# Horizon tracking utilities (LPMP): a verification development

Shallow embedding of `include/horizon_tracking/horizon_tracking_util.hxx`:
the Pareto frontier `Marginals`, the pair combiner `max_potential_on_two_nodes`,
the chain engine `shortest_distance_calculator`, the grid topology `ChainsInfo`
and the rounding procedure `GreedyRoundingChains`.

Numeric conventions.
* The index type `INDEX` (an unsigned machine word) is `Nat`; `INDEX_MAX` is the value of
  `std::numeric_limits<INDEX>::max()`, which the code uses as an "unset" marker. Index
  arithmetic is written so that it agrees with the machine arithmetic on indices that fit
  the word (`a == b - 1` as `a + 1 = b`, an unsigned difference `b - a == 1` as the
  truncated difference).
* `REAL` is the exact-arithmetic reading of the floating-point type: a finite value is an
  integer, added and compared without rounding, and `std::numeric_limits<REAL>::max()` is
  the top element `REAL_MAX`. As in floating point, where `max() + x` is again `max()` (or
  `inf`) for every cost `x` of ordinary magnitude, `REAL_MAX` absorbs addition and is
  above every finite value: it is the "+infinity / unreachable" marker of the code.
  A sum of two `REAL_MAX` values overflows in floating point to `+inf`, which lies strictly
  above `REAL_MAX`. This matters where such a sum is compared: the scan of
  `ComputeBestIndexAndCost` starts from the total cost `REAL_MAX + REAL_MAX`. The totals
  compared there are `overflowSum`, with values in `WithTop REAL`, whose top is `+inf`.
* A vector or table access outside its range is undefined in the source; the functions that
  can perform one return `Option`/`Except` and report it. Debug-only assertions are not
  modelled unless stated.
-/

namespace LPMP

/-- The value of `std::numeric_limits<INDEX>::max()`. -/
def INDEX_MAX : Nat := 2 ^ 64 - 1

/-- The cost type of the source, read in exact arithmetic with a top element. -/
abbrev REAL := WithTop Int

/-- The value of `std::numeric_limits<REAL>::max()`, the "+infinity" sentinel. -/
def REAL_MAX : REAL := ⊤

/-! ## Marginals -/

/-- The struct `max_linear_costs`. -/
structure max_linear_costs where
  MaxCost : REAL
  LinearCost : REAL
deriving DecidableEq

/-- The floating-point sum `a + b` of two costs, either of which can be `REAL_MAX`:
`REAL_MAX + REAL_MAX` overflows to `+inf`, the top element of `WithTop REAL`, which lies
strictly above `REAL_MAX`; every other sum is the sum in `REAL`. -/
def overflowSum (a b : REAL) : WithTop REAL :=
  if a = REAL_MAX ∧ b = REAL_MAX then ⊤ else ((a + b : REAL) : WithTop REAL)

/-- The method `max_linear_costs::TotalCost`, the sum `MaxCost + LinearCost`. -/
def max_linear_costs.TotalCost (m : max_linear_costs) : WithTop REAL :=
  overflowSum m.MaxCost m.LinearCost

/-- The class `Marginals`: the vector `M`, the replay cursor `i` and the phase flag. -/
structure Marginals where
  M : List max_linear_costs
  i : Nat
  populated : Bool
deriving DecidableEq

/-- A default-constructed `Marginals`. -/
def Marginals.empty : Marginals := { M := [], i := 0, populated := false }

/-- The final `else` branch of the replaying phase of `insert`:
`M[i++].LinearCost = m.LinearCost`; `none` when `i` is outside the vector. -/
def Marginals.replayWrite (m : max_linear_costs) (s : Marginals) : Option Marginals :=
  match s.M[s.i]? with
  | none => none
  | some q => some { s with M := s.M.set s.i { q with LinearCost := m.LinearCost }, i := s.i + 1 }

/-- The method `Marginals::insert<storeRestricted>`. The result is `none` when the
source reads or writes `M` outside its range (in the replaying phase, `M[i - 1]` with
`i = 0` or `M[i]` with `i ≥ M.size()`). The debug-only assertions are not modelled. -/
def Marginals.insert (storeRestricted : Bool) (m : max_linear_costs) (s : Marginals) :
    Option Marginals :=
  if s.populated = false then
    match s.M.getLast? with
    | none => some { s with M := s.M ++ [m] }
    | some b =>
      if b.MaxCost = m.MaxCost then
        some { s with M := s.M.set (s.M.length - 1)
                        { b with LinearCost := min b.LinearCost m.LinearCost } }
      else if storeRestricted = true ∧ m.LinearCost ≥ b.LinearCost then some s
      else some { s with M := s.M ++ [m] }
  else if 0 < s.i then
    match s.M[s.i - 1]? with
    | none => none
    | some p =>
      if p.MaxCost = m.MaxCost then
        some { s with M := s.M.set (s.i - 1)
                        { p with LinearCost := min p.LinearCost m.LinearCost } }
      else if storeRestricted = true ∧ m.LinearCost ≥ p.MaxCost then some s
      else s.replayWrite m
  else if storeRestricted = true then none
  else s.replayWrite m

/-- The method `Marginals::Populated`. -/
def Marginals.Populated (s : Marginals) : Marginals := { s with i := 0, populated := true }

/-- Inserting a sequence of points one after the other, in order. -/
def Marginals.insertAll (storeRestricted : Bool) :
    List max_linear_costs → Marginals → Option Marginals
  | [], s => some s
  | p :: ps, s => (s.insert storeRestricted p).bind (Marginals.insertAll storeRestricted ps)

/-! ## shortest_distance_calculator -/

/-- Modelled from the spec: the ragged table `three_dimensional_variable_array<REAL>`
(its header is not among the sources), given by the interface the engine consumes:
indexed access `(position, labelA, labelB) → cost` with bounds `dim1()`, `dim2(pos)`,
`dim3(pos)`. -/
structure three_dimensional_variable_array where
  dim1 : Nat
  dim2 : Nat → Nat
  dim3 : Nat → Nat
  get : Nat → Nat → Nat → REAL

/-- A table given by its nested rows (used for concrete instances). -/
def three_dimensional_variable_array.ofLists (A : List (List (List REAL))) :
    three_dimensional_variable_array :=
  { dim1 := A.length
    dim2 := fun n => (A.getD n []).length
    dim3 := fun n => ((A.getD n []).getD 0 []).length
    get := fun n a b => ((A.getD n []).getD a []).getD b 0 }

/-- Reading `distance[n][l]` of a `two_dim_variable_array<REAL>`. -/
def tableGet (d : List (List REAL)) (n l : Nat) : REAL := (d.getD n []).getD l REAL_MAX

/-- Writing `distance[n][l] = v`. -/
def tableSet (d : List (List REAL)) (n l : Nat) (v : REAL) : List (List REAL) :=
  d.set n ((d.getD n []).set l v)

/-- The value `*std::min_element(row.begin(), row.end())`. For an empty row the source
dereferences `end()`; the model then yields `REAL_MAX`. -/
def minElement (row : List REAL) : REAL := row.foldl min REAL_MAX

/-- The index `std::min_element(row.begin(), row.end()) - row.begin()`: the first
position holding the smallest value. -/
def minElementIndex (row : List REAL) : Nat := row.indexOf (minElement row)

/-- The struct `edge` (and `chain_edge`). -/
structure edge where
  n1 : Nat
  l1 : Nat
  l2 : Nat
deriving DecidableEq

/-- The class `shortest_distance_calculator<DoForward, useStartingNode, useFixedLabel>`;
the three template arguments are the first three fields. -/
structure shortest_distance_calculator where
  DoForward : Bool
  useStartingNode : Bool
  useFixedLabel : Bool
  LinearPairwisePotentials : three_dimensional_variable_array
  MaxPairwisePotentials : three_dimensional_variable_array
  NumLabels : List Nat
  distance : List (List REAL)
  shortestPathDistance : REAL
  EndingNodeIndex : Nat
  FixedNode : Nat
  FixedNodeLabel : Nat

namespace shortest_distance_calculator

/-- The method `init`: the best distance becomes `REAL_MAX` and the source row (first
row when forward, last row when backward) is filled with `0`. No other row is written. -/
def init (s : shortest_distance_calculator) : shortest_distance_calculator :=
  let r := if s.DoForward = true then 0 else s.distance.length - 1
  { s with
    shortestPathDistance := REAL_MAX
    distance := s.distance.set r (List.replicate (s.distance.getD r []).length 0) }

/-- The constructor: `distance` is resized to one row per node, every entry `REAL_MAX`,
and `init` is called. -/
def new (DoForward useStartingNode useFixedLabel : Bool)
    (linearPairwisePotentials maxPairwisePotentials : three_dimensional_variable_array)
    (numLabels : List Nat) (endingNode fixedNode fixedNodeLabel : Nat) :
    shortest_distance_calculator :=
  init
    { DoForward := DoForward
      useStartingNode := useStartingNode
      useFixedLabel := useFixedLabel
      LinearPairwisePotentials := linearPairwisePotentials
      MaxPairwisePotentials := maxPairwisePotentials
      NumLabels := numLabels
      distance := numLabels.map (fun k => List.replicate k REAL_MAX)
      shortestPathDistance := REAL_MAX
      EndingNodeIndex := endingNode
      FixedNode := fixedNode
      FixedNodeLabel := fixedNodeLabel }

/-- The method `GetDistance`. -/
def GetDistance (s : shortest_distance_calculator) (n l : Nat) : REAL :=
  tableGet s.distance n l

/-- Assignment to `distance[n][l]`. -/
def setDistance (s : shortest_distance_calculator) (n l : Nat) (v : REAL) :
    shortest_distance_calculator :=
  { s with distance := tableSet s.distance n l v }

/-- The method `ShortestDistance`. -/
def ShortestDistance (s : shortest_distance_calculator) : REAL := s.shortestPathDistance

/-- The method `ToAddEdge`. -/
def ToAddEdge (s : shortest_distance_calculator) (n1 l1 l2 : Nat) : Bool :=
  if s.useStartingNode = false ∧ s.useFixedLabel = false then true
  else if s.useStartingNode = true then
    if s.DoForward = true ∧ n1 ≥ s.EndingNodeIndex then false
    else if s.DoForward = false ∧ n1 < s.EndingNodeIndex then false
    else true
  else if s.useFixedLabel = true then
    if (n1 = s.FixedNode ∧ l1 ≠ s.FixedNodeLabel) ∨ (n1 + 1 = s.FixedNode ∧ l2 ≠ s.FixedNodeLabel)
    then false
    else true
  else true

/-- The body of the innermost loop of the forward sweep of `CalculateDistances`. -/
def forwardStep (t : REAL) (n1 l1 l2 : Nat) (s : shortest_distance_calculator) :
    shortest_distance_calculator :=
  if s.MaxPairwisePotentials.get n1 l1 l2 > t ∨ s.ToAddEdge n1 l1 l2 = false then s
  else if s.GetDistance (n1 + 1) l2 > s.GetDistance n1 l1 + s.LinearPairwisePotentials.get n1 l1 l2
  then s.setDistance (n1 + 1) l2 (s.GetDistance n1 l1 + s.LinearPairwisePotentials.get n1 l1 l2)
  else s

/-- The body of the innermost loop of the backward sweep of `CalculateDistances`
(it does not consult `ToAddEdge`). -/
def backwardStep (t : REAL) (n1 l1 l2 : Nat) (s : shortest_distance_calculator) :
    shortest_distance_calculator :=
  if s.MaxPairwisePotentials.get n1 l1 l2 > t then s
  else if s.GetDistance n1 l1 > s.GetDistance (n1 + 1) l2 + s.LinearPairwisePotentials.get n1 l1 l2
  then s.setDistance n1 l1 (s.GetDistance (n1 + 1) l2 + s.LinearPairwisePotentials.get n1 l1 l2)
  else s

/-- The labels visited by a loop `for (l = start; l < count; l++) { ...; if (brk) break; }`
whose `break` sits at the end of the body. -/
def labelLoop (brk : Bool) (start count : Nat) : List Nat :=
  if brk = true then (List.range' start (count - start)).take 1
  else List.range' start (count - start)

/-- The method `CalculateDistances<specificNode>(bottleneckThreshold, startNode, startLabel)`. -/
def CalculateDistances (specificNode : Bool) (t : REAL) (startNode startLabel : Nat)
    (s0 : shortest_distance_calculator) : shortest_distance_calculator :=
  let NL := s0.NumLabels
  let numNodes := NL.length
  if s0.DoForward = true then
    let s1 := (List.range' startNode (numNodes - 1 - startNode)).foldl
      (fun s n1 =>
        (labelLoop (specificNode && n1 == startNode) startLabel (NL.getD n1 0)).foldl
          (fun s l1 =>
            (List.range (NL.getD (n1 + 1) 0)).foldl (fun s l2 => forwardStep t n1 l1 l2 s) s)
          s)
      s0.init
    { s1 with shortestPathDistance := minElement (s1.distance.getD (numNodes - 1) []) }
  else
    let startNode := if specificNode = true then startNode else numNodes - 1
    let s1 := (List.range startNode).reverse.foldl
      (fun s n1 =>
        (labelLoop (specificNode && n1 + 1 == startNode) 0 (NL.getD n1 0)).foldl
          (fun s l1 =>
            (List.range' startLabel (NL.getD (n1 + 1) 0 - startLabel)).foldl
              (fun s l2 => backwardStep t n1 l1 l2 s) s)
          s)
      s0.init
    { s1 with shortestPathDistance := minElement (s1.distance.getD 0 []) }

/-- The loop over `childLabel` at the end of an iteration of the worklist loop of
`AddEdgeWithUpdate`: the edges pushed on the queue, in order. -/
def pushChildren (t : REAL) (nextNode nextLabel : Nat) (s : shortest_distance_calculator) :
    List edge :=
  let childNode := if s.DoForward = true then nextNode + 1 else nextNode - 1
  (List.range (s.NumLabels.getD childNode 0)).filterMap (fun childLabel =>
    if s.DoForward = true ∧ s.MaxPairwisePotentials.get nextNode nextLabel childLabel ≤ t ∧
        s.ToAddEdge nextNode nextLabel childLabel = true then
      some (edge.mk nextNode nextLabel childLabel)
    else if s.DoForward = false ∧
        s.MaxPairwisePotentials.get childNode childLabel nextLabel ≤ t ∧
        s.ToAddEdge childNode childLabel nextLabel = true then
      some (edge.mk childNode childLabel nextLabel)
    else none)

/-- One iteration of the worklist loop of `AddEdgeWithUpdate` on the popped edge `e`:
the new state, the entries appended to `updatedNodes`, and the edges pushed on the queue.
The sink test `currentNode == dim1() - 1` is written `currentNode + 1 = dim1()`. -/
def processEdge (computeUpdatedNodes : Bool) (t : REAL) (e : edge)
    (s : shortest_distance_calculator) :
    shortest_distance_calculator × List (Nat × Nat) × List edge :=
  let currentLinearPot := s.LinearPairwisePotentials.get e.n1 e.l1 e.l2
  let currentNode := if s.DoForward = true then e.n1 else e.n1 + 1
  let nextNode := if s.DoForward = true then e.n1 + 1 else e.n1
  let currentLabel := if s.DoForward = true then e.l1 else e.l2
  let nextLabel := if s.DoForward = true then e.l2 else e.l1
  let offeredDistance := s.GetDistance currentNode currentLabel + currentLinearPot
  if s.GetDistance nextNode nextLabel ≤ offeredDistance then (s, [], [])
  else
    let s1 := s.setDistance nextNode nextLabel offeredDistance
    if (s.DoForward = true ∧ currentNode + 1 = s.LinearPairwisePotentials.dim1) ∨
        (s.DoForward = false ∧ nextNode = 0) then
      ({ s1 with shortestPathDistance := min s1.shortestPathDistance offeredDistance }, [], [])
    else
      (s1, if computeUpdatedNodes = true then [(nextNode, nextLabel)] else [],
        pushChildren t nextNode nextLabel s)

/-- The worklist loop `while (!queue.empty())` of `AddEdgeWithUpdate`, run for at most
`fuel` iterations; `none` when the fuel runs out before the queue is empty. -/
def worklist (computeUpdatedNodes : Bool) (t : REAL) :
    Nat → List edge → shortest_distance_calculator → List (Nat × Nat) →
      Option (shortest_distance_calculator × List (Nat × Nat))
  | _, [], s, updatedNodes => some (s, updatedNodes)
  | 0, _ :: _, _, _ => none
  | fuel + 1, e :: queue, s, updatedNodes =>
    let r := processEdge computeUpdatedNodes t e s
    worklist computeUpdatedNodes t fuel (queue ++ r.2.2) r.1 (updatedNodes ++ r.2.1)

/-- An iteration budget that the worklist loop started on an edge with left node `n1`
never exhausts (see `addEdgeWithUpdate_total`). -/
def worklistBudget (s : shortest_distance_calculator) (n1 : Nat) : Nat :=
  (s.NumLabels.sum + 1) ^ (s.NumLabels.length + n1 + 1)

/-- The method `AddEdgeWithUpdate<computeUpdatedNodes>(n1, l1, l2, bottleneckThreshold)`:
the new state and the returned `updatedNodes`. -/
def AddEdgeWithUpdate (computeUpdatedNodes : Bool) (n1 l1 l2 : Nat) (t : REAL)
    (s : shortest_distance_calculator) :
    Option (shortest_distance_calculator × List (Nat × Nat)) :=
  if s.ToAddEdge n1 l1 l2 = false then some (s, [])
  else worklist computeUpdatedNodes t (worklistBudget s n1) [edge.mk n1 l1 l2] s []

/-- The ways `ShortestPath` can go wrong: a table is indexed with a label outside the
node's label range, or the final check finds an unset position and exits. -/
inductive PathFailure where
  | outOfRange
  | notFound
deriving DecidableEq

/-- One round of the backtracking loop of the forward `ShortestPath`, for the pair
`n1 = n2 - 1`, `n2`: the labels `l1` are scanned in increasing order and the first one
whose edge to `path[n2]` is admissible and tight is stored in `path[n1]`. -/
def backtrackStep (s : shortest_distance_calculator) (t : REAL) (n1 : Nat)
    (path : List Nat) : Except PathFailure (List Nat) :=
  let l2 := path.getD (n1 + 1) INDEX_MAX
  if 0 < s.NumLabels.getD n1 0 ∧ ¬ l2 < s.NumLabels.getD (n1 + 1) 0 then
    Except.error PathFailure.outOfRange
  else
    match (List.range (s.NumLabels.getD n1 0)).find? (fun l1 =>
        decide (¬ s.MaxPairwisePotentials.get n1 l1 l2 > t) &&
        decide (s.GetDistance n1 l1 + s.LinearPairwisePotentials.get n1 l1 l2
                  = s.GetDistance (n1 + 1) l2)) with
    | some l1 => Except.ok (path.set n1 l1)
    | none => Except.ok path

/-- The backtracking loop `while (n2 > 0)` of the forward `ShortestPath`, entered with
`n2 = k`. -/
def backtrack (s : shortest_distance_calculator) (t : REAL) :
    Nat → List Nat → Except PathFailure (List Nat)
  | 0, path => Except.ok path
  | k + 1, path =>
    match backtrackStep s t k path with
    | Except.error f => Except.error f
    | Except.ok path1 => backtrack s t k path1

/-- The method `ShortestPath<ToSpecificNode>(bottleneckThreshold, endingNode, endingLabel)`
of a forward engine (`DoForward = true`). -/
def ShortestPath (ToSpecificNode : Bool) (t : REAL) (endingNode endingLabel : Nat)
    (s : shortest_distance_calculator) : Except PathFailure (List Nat) :=
  let endingNode := if ToSpecificNode = true then endingNode else s.NumLabels.length - 1
  let numNodes := endingNode + 1
  let path0 := List.replicate numNodes INDEX_MAX
  let last := if ToSpecificNode = true then endingLabel
    else minElementIndex (s.distance.getD endingNode [])
  match backtrack s t endingNode (path0.set endingNode last) with
  | Except.error f => Except.error f
  | Except.ok path =>
    if path.foldl max 0 = INDEX_MAX then Except.error PathFailure.notFound
    else Except.ok path

end shortest_distance_calculator

/-! ## max_potential_on_two_nodes -/

/-- The body of the scan loop of `ComputeBestIndexAndCost` at index `i`; the accumulator
is the pair `(bestCost, bestIndex)`. -/
def scanStep (M : List max_linear_costs) (node2Marginal : max_linear_costs)
    (acc : max_linear_costs × Nat) (i : Nat) : max_linear_costs × Nat :=
  match M[i]? with
  | none => acc
  | some e =>
    if acc.1.TotalCost > overflowSum e.MaxCost e.LinearCost then
      ({ MaxCost := max e.MaxCost node2Marginal.MaxCost, LinearCost := e.LinearCost }, i)
    else acc

/-- The scan loop `for (i = start; i < size; i++)` of `ComputeBestIndexAndCost`, started
from `bestCost = (REAL_MAX, REAL_MAX)`, whose total cost is `+inf`, and `bestIndex = 0`. -/
def scanFrom (M : List max_linear_costs) (node2Marginal : max_linear_costs) (start : Nat) :
    max_linear_costs × Nat :=
  (List.range' start (M.length - start)).foldl (scanStep M node2Marginal)
    ({ MaxCost := REAL_MAX, LinearCost := REAL_MAX }, 0)

/-- The method `max_potential_on_two_nodes::ComputeBestIndexAndCost(node2Marginal,
prevBestIndex)` over the frontier `Node1AllMarginals`; `none` when `Get(prevBestIndex)`
is outside the frontier. The closing debug assertion is not modelled. -/
def ComputeBestIndexAndCost (Node1AllMarginals : Marginals) (node2Marginal : max_linear_costs)
    (prevBestIndex : Nat) : Option (Nat × max_linear_costs) :=
  if Node1AllMarginals.M.length = 0 then some (0, node2Marginal)
  else if prevBestIndex < INDEX_MAX then
    match Node1AllMarginals.M[prevBestIndex]? with
    | none => none
    | some e =>
      if e.MaxCost ≥ node2Marginal.MaxCost then
        some (prevBestIndex,
          { MaxCost := e.MaxCost, LinearCost := e.LinearCost + node2Marginal.LinearCost })
      else
        let r := scanFrom Node1AllMarginals.M node2Marginal prevBestIndex
        some (r.2, { r.1 with LinearCost := r.1.LinearCost + node2Marginal.LinearCost })
  else
    let r := scanFrom Node1AllMarginals.M node2Marginal 0
    some (r.2, { r.1 with LinearCost := r.1.LinearCost + node2Marginal.LinearCost })

/-- The objective of the two-node problem at a frontier entry `e` for the single-node
cost `c`: `max(e.MaxCost, c.MaxCost) + e.LinearCost + c.LinearCost`. -/
def pairObjective (e c : max_linear_costs) : REAL :=
  max e.MaxCost c.MaxCost + e.LinearCost + c.LinearCost

/-- The struct `EdgeIndex`. -/
structure EdgeIndex where
  chainIndex : Nat
  n1 : Nat
deriving DecidableEq

/-- The class `ChainsInfo`. -/
structure ChainsInfo where
  ChainNodeToOriginalNode : List (List Nat)
  NumChains : Nat
  IsHorizontalChain : List Bool
  HChainIndices : List Nat
  VChainIndices : List Nat
  NumHorizontalChains : Nat
  NumVerticalChains : Nat
  SizeH : Nat
  SizeV : Nat
deriving DecidableEq

namespace ChainsInfo

/-- The first loop of the constructor, over the chains not yet visited: a chain whose
first two nodes differ by `1` is horizontal (the unsigned difference `[c][1] - [c][0]` is
`1` exactly when the truncated one is). `IsHorizontalChain[c]` is written for
`c = 0, 1, ...` in turn, which the model renders by appending. The result is `none` when
a chain has fewer than two nodes (`[c][1]` is then outside the chain). -/
def classifyLoop : List (List Nat) → ChainsInfo → Option ChainsInfo
  | [], info => some info
  | ch :: rest, info =>
    match ch[0]?, ch[1]? with
    | some a, some b =>
      if b - a = 1 then
        classifyLoop rest { info with
          IsHorizontalChain := info.IsHorizontalChain ++ [true]
          NumHorizontalChains := info.NumHorizontalChains + 1
          SizeH := ch.length }
      else
        classifyLoop rest { info with
          IsHorizontalChain := info.IsHorizontalChain ++ [false]
          NumVerticalChains := info.NumVerticalChains + 1
          SizeV := ch.length }
    | _, _ => none

/-- The second loop of the constructor (the case `NumVerticalChains > 0`), over the chains
from index `c` on; `none` when a lookup table is written outside its range. -/
def fillLoop : Nat → List (List Nat) → ChainsInfo → Option ChainsInfo
  | _, [], info => some info
  | c, ch :: rest, info =>
    match info.IsHorizontalChain[c]?, ch[0]? with
    | some true, some a =>
      let yOffset := a / info.NumVerticalChains
      if yOffset < info.HChainIndices.length then
        fillLoop (c + 1) rest { info with HChainIndices := info.HChainIndices.set yOffset c }
      else none
    | some false, some a =>
      let xOffset := a % info.NumVerticalChains
      if xOffset < info.VChainIndices.length then
        fillLoop (c + 1) rest { info with VChainIndices := info.VChainIndices.set xOffset c }
      else none
    | _, _ => none

/-- The constructor `ChainsInfo(chainNodeToOriginalNode)`. -/
def new (chainNodeToOriginalNode : List (List Nat)) : Option ChainsInfo :=
  match classifyLoop chainNodeToOriginalNode
      { ChainNodeToOriginalNode := chainNodeToOriginalNode
        NumChains := chainNodeToOriginalNode.length
        IsHorizontalChain := []
        HChainIndices := []
        VChainIndices := []
        NumHorizontalChains := 0
        NumVerticalChains := 0
        SizeH := 1
        SizeV := 1 } with
  | none => none
  | some info =>
    let info1 := { info with
      HChainIndices := List.replicate info.NumHorizontalChains 0
      VChainIndices := List.replicate info.NumVerticalChains 0 }
    if 0 < info1.NumVerticalChains then fillLoop 0 chainNodeToOriginalNode info1
    else if 0 < info1.HChainIndices.length then
      some { info1 with HChainIndices := info1.HChainIndices.set 0 0 }
    else none

/-- The method `GetVerticalChainIndexAtGridLoc`; `none` on a division by zero or a
lookup outside the table. -/
def GetVerticalChainIndexAtGridLoc (info : ChainsInfo) (gridLoc : Nat) : Option Nat :=
  if info.NumVerticalChains = 0 then none
  else info.VChainIndices[gridLoc % info.NumVerticalChains]?

/-- The method `GetHorizontalChainIndexAtGridLoc`; `none` on a division by zero or a
lookup outside the table. -/
def GetHorizontalChainIndexAtGridLoc (info : ChainsInfo) (gridLoc : Nat) : Option Nat :=
  if info.NumVerticalChains = 0 then none
  else info.HChainIndices[gridLoc / info.NumVerticalChains]?

/-- The method `GetHorizontalChainAtOffset`; `none` on a lookup outside the table. -/
def GetHorizontalChainAtOffset (info : ChainsInfo) (hOffset : Nat) : Option Nat :=
  info.HChainIndices[hOffset]?

/-- The method `GetVerticalChainAtOffset`; `none` on a lookup outside the table. -/
def GetVerticalChainAtOffset (info : ChainsInfo) (vOffset : Nat) : Option Nat :=
  info.VChainIndices[vOffset]?

/-- The method `GetEdgeIndexFromGridEdge(n1GridLoc, n2GridLoc)`; `none` on a division by
zero or a lookup outside a table. The two debug assertions are not modelled. -/
def GetEdgeIndexFromGridEdge (info : ChainsInfo) (n1GridLoc n2GridLoc : Nat) :
    Option EdgeIndex :=
  if info.SizeH = 0 then none
  else if n2GridLoc - n1GridLoc = 1 then
    match info.GetHorizontalChainIndexAtGridLoc n1GridLoc with
    | none => none
    | some chainIndex => some { chainIndex := chainIndex, n1 := n1GridLoc % info.SizeH }
  else
    match info.GetVerticalChainAtOffset n1GridLoc with
    | none => none
    | some chainIndex =>
      some { chainIndex := chainIndex, n1 := n1GridLoc - info.SizeH * (n1GridLoc / info.SizeH) }

end ChainsInfo

/-- The horizontal chains of the row-major `H x W` grid, one per row. -/
def gridRows (H W : Nat) : List (List Nat) :=
  (List.range H).map (fun r => (List.range W).map (fun c => r * W + c))

/-- The vertical chains of the row-major `H x W` grid, one per column. -/
def gridCols (H W : Nat) : List (List Nat) :=
  (List.range W).map (fun c => (List.range H).map (fun r => r * W + c))

/-! ## GreedyRoundingChains -/

/-- The struct `NodeWithPriority`. -/
structure NodeWithPriority where
  N : Nat
  Label : Nat
  Cost : REAL
deriving DecidableEq

/-- The class `GreedyRoundingChains`. -/
structure GreedyRoundingChains where
  LinearPotentials : List three_dimensional_variable_array
  ChainNodeToOriginalNode : List (List Nat)
  NumNodes : Nat
  nodeNeighbours : List (List Nat)
  nodeNeighboursPotIndex : List (List (Nat × Nat))
  SeedNode : Nat

namespace GreedyRoundingChains

/-- The body of the inner constructor loop for the edge of chain `c` at position `n1`:
both endpoints get each other as neighbour together with the back-pointer `(c, n1)`, and
the left endpoint becomes the seed when the edge table has `dim2(n1) == 1`. -/
def addChainEdge (c n1 : Nat) (g : GreedyRoundingChains) : Option GreedyRoundingChains :=
  match g.ChainNodeToOriginalNode[c]?, g.LinearPotentials[c]? with
  | some ch, some pot =>
    match ch[n1]?, ch[n1 + 1]? with
    | some n1Orig, some n2Orig =>
      if n1Orig < g.NumNodes ∧ n2Orig < g.NumNodes then
        let nb1 := g.nodeNeighbours.set n1Orig (g.nodeNeighbours.getD n1Orig [] ++ [n2Orig])
        let pi1 := g.nodeNeighboursPotIndex.set n1Orig
          (g.nodeNeighboursPotIndex.getD n1Orig [] ++ [(c, n1)])
        let nb2 := nb1.set n2Orig (nb1.getD n2Orig [] ++ [n1Orig])
        let pi2 := pi1.set n2Orig (pi1.getD n2Orig [] ++ [(c, n1)])
        some { g with
          nodeNeighbours := nb2
          nodeNeighboursPotIndex := pi2
          SeedNode := if pot.dim2 n1 = 1 then n1Orig else g.SeedNode }
      else none
    | _, _ => none
  | _, _ => none

/-- Running `addChainEdge` over a list of `(chain, position)` pairs in order. -/
def addChainEdges : List (Nat × Nat) → GreedyRoundingChains → Option GreedyRoundingChains
  | [], g => some g
  | (c, n1) :: rest, g =>
    match addChainEdge c n1 g with
    | none => none
    | some g1 => addChainEdges rest g1

/-- The constructor `GreedyRoundingChains(linearPotentials, chainNodeToOriginalNode)`;
`none` when a chain is empty, a container is indexed outside its range, or the closing
assertion `SeedNode < INDEX_MAX` fails. -/
def new (linearPotentials : List three_dimensional_variable_array)
    (chainNodeToOriginalNode : List (List Nat)) : Option GreedyRoundingChains :=
  if chainNodeToOriginalNode.length ≠ linearPotentials.length then none
  else if chainNodeToOriginalNode.any (fun ch => ch.isEmpty) then none
  else
    let numNodes := chainNodeToOriginalNode.foldl (fun acc ch => max acc (ch.foldl max 0 + 1)) 0
    let g0 : GreedyRoundingChains :=
      { LinearPotentials := linearPotentials
        ChainNodeToOriginalNode := chainNodeToOriginalNode
        NumNodes := numNodes
        nodeNeighbours := List.replicate numNodes []
        nodeNeighboursPotIndex := List.replicate numNodes []
        SeedNode := INDEX_MAX }
    let positions := (List.range chainNodeToOriginalNode.length).flatMap (fun c =>
      (List.range ((chainNodeToOriginalNode.getD c []).length - 1)).map (fun n1 => (c, n1)))
    match addChainEdges positions g0 with
    | none => none
    | some g => if g.SeedNode < INDEX_MAX then some g else none

/-- The first loop of `ComputeNeighbourBestLabel`: position `i` runs over the neighbours
of `root`, and at every hit the back-pointer is read from entry `i` of the list of
`n1Orig = min(root, neighbour)`. The accumulator is the pair `(c, n1)`. -/
def findPotIndex (g : GreedyRoundingChains) (n1Orig neighbour : Nat) :
    List Nat → Nat → Nat × Nat → Option (Nat × Nat)
  | [], _, acc => some acc
  | allN :: rest, i, acc =>
    if allN = neighbour then
      match (g.nodeNeighboursPotIndex.getD n1Orig [])[i]? with
      | none => none
      | some pi => findPotIndex g n1Orig neighbour rest (i + 1) pi
    else findPotIndex g n1Orig neighbour rest (i + 1) acc

/-- The second loop of `ComputeNeighbourBestLabel`, over the labels `ln` not yet visited;
the accumulator is `(bestLabel, bestCost)`, with `bestLabel` unset at first. -/
def bestLabelLoop (pot : three_dimensional_variable_array) (n1 rootLabel : Nat) :
    List Nat → Option Nat × REAL → Option Nat × REAL
  | [], acc => acc
  | ln :: rest, acc =>
    if acc.2 > pot.get n1 rootLabel ln then
      bestLabelLoop pot n1 rootLabel rest (some ln, pot.get n1 rootLabel ln)
    else bestLabelLoop pot n1 rootLabel rest acc

/-- The method `ComputeNeighbourBestLabel(root, rootLabel, neighbour)`; `none` when a
container is indexed outside its range (this includes reading the table row `rootLabel`
when `rootLabel ≥ dim2(n1)`), when the assertion `c < INDEX_MAX` fails, or when
`bestLabel` is returned without having been set. -/
def ComputeNeighbourBestLabel (g : GreedyRoundingChains) (root rootLabel neighbour : Nat) :
    Option (Nat × REAL) :=
  match g.nodeNeighbours[root]? with
  | none => none
  | some nbs =>
    match findPotIndex g (min root neighbour) neighbour nbs 0 (INDEX_MAX, INDEX_MAX) with
    | none => none
    | some (c, n1) =>
      match g.LinearPotentials[c]? with
      | none => none
      | some pot =>
        if 0 < pot.dim3 n1 ∧ ¬ rootLabel < pot.dim2 n1 then none
        else
          match bestLabelLoop pot n1 rootLabel (List.range (pot.dim3 n1)) (none, REAL_MAX) with
          | (some bestLabel, bestCost) => some (bestLabel, bestCost)
          | (none, _) => none

/-! The queue `pQ` of `ComputeSolution` is a `std::priority_queue` over a `std::vector` with
the comparison `left.Cost > right.Cost`. It is modelled as the vector it keeps, handled by
the binary-heap algorithms `std::push_heap` and `std::pop_heap` of libstdc++
(`bits/stl_heap.h`), so that entries of equal cost leave the queue in the order in which they
leave it in the compiled program; the C++ standard does not fix that order. -/

/-- The loop of `std::__push_heap`, entered with the hole at `holeIndex`: while the hole is
below `topIndex` and the entry of its parent has a larger cost than `value`, the parent's
entry moves into the hole and the hole moves to the parent; `value` is stored in the last
hole. The first argument bounds the number of iterations and is passed as `holeIndex`. -/
def siftUp (value : NodeWithPriority) (topIndex : Nat) :
    Nat → Nat → List NodeWithPriority → List NodeWithPriority
  | 0, holeIndex, vec => vec.set holeIndex value
  | fuel + 1, holeIndex, vec =>
    match vec[(holeIndex - 1) / 2]? with
    | none => vec.set holeIndex value
    | some parent =>
      if holeIndex > topIndex ∧ parent.Cost > value.Cost then
        siftUp value topIndex fuel ((holeIndex - 1) / 2) (vec.set holeIndex parent)
      else vec.set holeIndex value

/-- The method `std::priority_queue::push`: `c.push_back(x)` followed by `std::push_heap`. -/
def pqPush (vec : List NodeWithPriority) (x : NodeWithPriority) : List NodeWithPriority :=
  siftUp x 0 vec.length vec.length (vec ++ [x])

/-- The first loop of `std::__adjust_heap` on the heap of the first `len` entries of `c`,
entered with the hole at `secondChild`: while the hole has a right child, the child of
smaller cost (the right one when the costs are equal) moves into the hole and the hole moves
to that child. The result is the final hole and the vector. The first argument bounds the
number of iterations and is passed as `len`. -/
def siftDown (len : Nat) : Nat → Nat → List NodeWithPriority → Nat × List NodeWithPriority
  | 0, secondChild, vec => (secondChild, vec)
  | fuel + 1, secondChild, vec =>
    if secondChild < (len - 1) / 2 then
      match vec[2 * (secondChild + 1)]?, vec[2 * (secondChild + 1) - 1]? with
      | some right, some left =>
        if right.Cost > left.Cost then
          siftDown len fuel (2 * (secondChild + 1) - 1) (vec.set secondChild left)
        else siftDown len fuel (2 * (secondChild + 1)) (vec.set secondChild right)
      | _, _ => (secondChild, vec)
    else (secondChild, vec)

/-- The function `std::__adjust_heap(first, 0, len, value, comp)`: the hole opened at the
top moves down to a leaf (`siftDown`, then one more step when the last inner node has a left
child only, which needs an even `len ≥ 2`), and `value` is pushed up from there. -/
def adjustHeap (vec : List NodeWithPriority) (len : Nat) (value : NodeWithPriority) :
    List NodeWithPriority :=
  let r := siftDown len len 0 vec
  if len % 2 = 0 ∧ 2 ≤ len ∧ r.1 = (len - 2) / 2 then
    match r.2[2 * (r.1 + 1) - 1]? with
    | some left =>
      siftUp value 0 (2 * (r.1 + 1) - 1) (2 * (r.1 + 1) - 1) (r.2.set r.1 left)
    | none => siftUp value 0 r.1 r.1 r.2
  else siftUp value 0 r.1 r.1 r.2

/-- The method `std::priority_queue::top`: `c.front()`. -/
def pqTop (vec : List NodeWithPriority) : Option NodeWithPriority := vec.head?

/-- The method `std::priority_queue::pop`: `std::pop_heap` (with more than one entry, the
last entry is taken out as `value`, the top is stored in its place, and the heap of the
other entries is repaired by `adjustHeap`) followed by `c.pop_back()`. -/
def pqPop (vec : List NodeWithPriority) : List NodeWithPriority :=
  match vec.head?, vec.getLast? with
  | some top, some value =>
    if vec.length > 1 then
      (adjustHeap (vec.set (vec.length - 1) top) (vec.length - 1) value).dropLast
    else vec.dropLast
  | _, _ => vec

/-- The loop over the neighbours of the node just fixed in `ComputeSolution`: the entries
pushed on the queue, in order. -/
def pushNeighbours (g : GreedyRoundingChains) (solution : List Nat) (root : Nat) :
    List Nat → Option (List NodeWithPriority)
  | [] => some []
  | neighbourNode :: rest =>
    match solution[neighbourNode]? with
    | none => none
    | some l =>
      if l < INDEX_MAX then pushNeighbours g solution root rest
      else
        match ComputeNeighbourBestLabel g root (solution.getD root INDEX_MAX) neighbourNode,
            pushNeighbours g solution root rest with
        | some r, some more => some ({ N := neighbourNode, Label := r.1, Cost := r.2 } :: more)
        | _, _ => none

/-- The loop `while (!pQ.empty())` of `ComputeSolution`, run for at most `fuel` rounds. -/
def expand (g : GreedyRoundingChains) :
    Nat → List NodeWithPriority → List Nat → Option (List Nat)
  | 0, [], solution => some solution
  | 0, _ :: _, _ => none
  | fuel + 1, pQ, solution =>
    match pqTop pQ with
    | none => some solution
    | some bestN =>
      let pQ1 := pqPop pQ
      match solution[bestN.N]? with
      | none => none
      | some l =>
        if l < INDEX_MAX then expand g fuel pQ1 solution
        else
          let solution1 := solution.set bestN.N bestN.Label
          match pushNeighbours g solution1 bestN.N (g.nodeNeighbours.getD bestN.N []) with
          | none => none
          | some pushed => expand g fuel (pushed.foldl pqPush pQ1) solution1

/-- The method `ComputeSolution`; `none` when a container is indexed outside its range
or the assertion after the loop fails. Every round of the loop pops one queue entry and
at most one entry is pushed per neighbour-list slot, so the budget given to `expand`
exceeds the number of rounds. -/
def ComputeSolution (g : GreedyRoundingChains) : Option (List (List Nat)) :=
  let budget := 2 + (g.nodeNeighbours.map List.length).sum
  match expand g budget (pqPush [] { N := g.SeedNode, Label := 0, Cost := 0 })
      (List.replicate g.NumNodes INDEX_MAX) with
  | none => none
  | some solution =>
    if solution.foldl min INDEX_MAX < INDEX_MAX then
      some (g.ChainNodeToOriginalNode.map (fun ch => ch.map (fun n => solution.getD n INDEX_MAX)))
    else none

end GreedyRoundingChains


/-! ### The example chain of the specification -/

/-- Linear costs of the three-node example: `(0,0,0) = 2`, `(0,0,1) = 5`, `(1,0,0) = 1`,
`(1,1,0) = 3`. -/
def exampleLinear : three_dimensional_variable_array :=
  three_dimensional_variable_array.ofLists [[[2, 5]], [[1], [3]]]

/-- Max costs of the three-node example: all `0`. -/
def exampleMax : three_dimensional_variable_array :=
  three_dimensional_variable_array.ofLists [[[0, 0]], [[0], [0]]]

/-- A fresh unrestricted engine on the three-node example, label counts `[1, 2, 1]`. -/
def exampleEngine (DoForward : Bool) : shortest_distance_calculator :=
  shortest_distance_calculator.new DoForward false false exampleLinear exampleMax [1, 2, 1] 0 0 0


/-! ## Reference notions used by the statements and proofs -/

/-- The invariant of the unrestricted building phase, relative to the points `seen`
so far: strictly increasing `MaxCost`, the same `MaxCost` values as `seen`, each entry
the cheapest of its group, and the last entry carrying the largest `MaxCost` seen. -/
def BuildInv (M seen : List max_linear_costs) : Prop :=
  (M.map max_linear_costs.MaxCost).Pairwise (· < ·) ∧
  (∀ c, c ∈ M.map max_linear_costs.MaxCost ↔ c ∈ seen.map max_linear_costs.MaxCost) ∧
  (∀ e ∈ M, (∃ p ∈ seen, p.MaxCost = e.MaxCost ∧ p.LinearCost = e.LinearCost) ∧
      ∀ p ∈ seen, p.MaxCost = e.MaxCost → e.LinearCost ≤ p.LinearCost) ∧
  (∀ b, M.getLast? = some b → ∀ p ∈ seen, p.MaxCost ≤ b.MaxCost)

/-- An edge `(n1, l1, l2)` of the chain with label counts `NL`: both endpoints are nodes
of the chain and both labels are within their node's label count. -/
def validEdge (NL : List Nat) (e : edge) : Prop :=
  e.n1 + 1 < NL.length ∧ e.l1 < NL.getD e.n1 0 ∧ e.l2 < NL.getD (e.n1 + 1) 0

instance (NL : List Nat) (e : edge) : Decidable (validEdge NL e) := by
  unfold validEdge; infer_instance

/-- The table entry an edge is relaxed from (`currentNode`, `currentLabel`). -/
def edgeSrc (fwd : Bool) (e : edge) : Nat × Nat :=
  if fwd = true then (e.n1, e.l1) else (e.n1 + 1, e.l2)

/-- The table entry an edge is relaxed into (`nextNode`, `nextLabel`). -/
def edgeDst (fwd : Bool) (e : edge) : Nat × Nat :=
  if fwd = true then (e.n1 + 1, e.l2) else (e.n1, e.l1)

/-- Reading a table at a `(node, label)` pair. -/
def tableAt (d : List (List REAL)) (x : Nat × Nat) : REAL := tableGet d x.1 x.2

/-- Relaxing one edge in a distance table. -/
def relaxTable (fwd : Bool) (lin : three_dimensional_variable_array) (e : edge)
    (d : List (List REAL)) : List (List REAL) :=
  if tableAt d (edgeDst fwd e) ≤ tableAt d (edgeSrc fwd e) + lin.get e.n1 e.l1 e.l2 then d
  else tableSet d (edgeDst fwd e).1 (edgeDst fwd e).2
      (tableAt d (edgeSrc fwd e) + lin.get e.n1 e.l1 e.l2)

/-- Relaxing one edge if its max cost is within the threshold. -/
def relaxTableIf (fwd : Bool) (lin mx : three_dimensional_variable_array) (t : REAL) (e : edge)
    (d : List (List REAL)) : List (List REAL) :=
  if mx.get e.n1 e.l1 e.l2 ≤ t then relaxTable fwd lin e d else d

/-- The row of the source node. -/
def sourceRow (fwd : Bool) (N : Nat) : Nat := if fwd = true then 0 else N - 1

/-- The row of the sink node. -/
def sinkRow (fwd : Bool) (N : Nat) : Nat := if fwd = true then N - 1 else 0

/-- The distance of a node from the source along the sweep direction. -/
def level (fwd : Bool) (N : Nat) (n : Nat) : Nat := if fwd = true then n else N - 1 - n

/-- An edge is relaxed in the table `d`. -/
def Relaxed (fwd : Bool) (lin : three_dimensional_variable_array) (d : List (List REAL))
    (e : edge) : Prop :=
  tableAt d (edgeDst fwd e) ≤ tableAt d (edgeSrc fwd e) + lin.get e.n1 e.l1 e.l2

/-- The entry `x` of the table `d` is `REAL_MAX` or attained along an admissible edge
that satisfies `P`. -/
def Attained (fwd : Bool) (lin mx : three_dimensional_variable_array) (NL : List Nat)
    (t : REAL) (P : edge → Prop) (d : List (List REAL)) (x : Nat × Nat) : Prop :=
  tableAt d x = REAL_MAX ∨
  ∃ e, P e ∧ validEdge NL e ∧ mx.get e.n1 e.l1 e.l2 ≤ t ∧ edgeDst fwd e = x ∧
    tableAt d x = tableAt d (edgeSrc fwd e) + lin.get e.n1 e.l1 e.l2

/-- The Bellman conditions on a distance table: the right shape, a zero source row, every
admissible edge relaxed, and every other entry either `REAL_MAX` or attained along an
admissible edge. -/
def IsBellman (fwd : Bool) (lin mx : three_dimensional_variable_array) (NL : List Nat)
    (t : REAL) (d : List (List REAL)) : Prop :=
  d.map List.length = NL ∧
  (∀ l, l < NL.getD (sourceRow fwd NL.length) 0 → tableAt d (sourceRow fwd NL.length, l) = 0) ∧
  (∀ e, validEdge NL e → mx.get e.n1 e.l1 e.l2 ≤ t → Relaxed fwd lin d e) ∧
  (∀ n l, n < NL.length → l < NL.getD n 0 → n ≠ sourceRow fwd NL.length →
    Attained fwd lin mx NL t (fun _ => True) d (n, l))

/-- The invariant of a sweep of `CalculateDistances` after the edges `P` have been
visited. -/
def SweepInv (fwd : Bool) (lin mx : three_dimensional_variable_array) (NL : List Nat)
    (t : REAL) (P : List edge) (d : List (List REAL)) : Prop :=
  d.map List.length = NL ∧
  (∀ l, l < NL.getD (sourceRow fwd NL.length) 0 → tableAt d (sourceRow fwd NL.length, l) = 0) ∧
  (∀ e ∈ P, mx.get e.n1 e.l1 e.l2 ≤ t → Relaxed fwd lin d e) ∧
  (∀ n l, n < NL.length → l < NL.getD n 0 → n ≠ sourceRow fwd NL.length →
    Attained fwd lin mx NL t (fun e => e ∈ P) d (n, l))

/-- The order in which a sweep visits edges: by left node, increasing when forward and
decreasing when backward. -/
def sweepOrder (fwd : Bool) (e e' : edge) : Prop :=
  if fwd = true then e.n1 ≤ e'.n1 else e'.n1 ≤ e.n1

/-- The distance table of a freshly constructed engine. -/
def freshTable (fwd : Bool) (NL : List Nat) : List (List REAL) :=
  (NL.map (fun k => List.replicate k REAL_MAX)).set (sourceRow fwd NL.length)
    (List.replicate (NL.getD (sourceRow fwd NL.length) 0) 0)

/-- The edges visited by `CalculateDistances<false>(t, 0, 0)`, in the order of the visit. -/
def sweepEdges (fwd : Bool) (NL : List Nat) : List edge :=
  if fwd = true then
    (List.range' 0 (NL.length - 1 - 0)).flatMap (fun n1 =>
      (shortest_distance_calculator.labelLoop false 0 (NL.getD n1 0)).flatMap (fun l1 =>
        (List.range (NL.getD (n1 + 1) 0)).map (fun l2 => edge.mk n1 l1 l2)))
  else
    (List.range (NL.length - 1)).reverse.flatMap (fun n1 =>
      (shortest_distance_calculator.labelLoop false 0 (NL.getD n1 0)).flatMap (fun l1 =>
        (List.range' 0 (NL.getD (n1 + 1) 0 - 0)).map (fun l2 => edge.mk n1 l1 l2)))

/-- The engine runs in unrestricted mode. -/
def Unrestricted (s : shortest_distance_calculator) : Prop :=
  s.useStartingNode = false ∧ s.useFixedLabel = false

/-- The sum of the Linear costs of the edges of a label sequence whose first label sits on
node `n`. -/
def pathCost (lin : three_dimensional_variable_array) : Nat → List Nat → REAL
  | n, a :: b :: rest => lin.get n a b + pathCost lin (n + 1) (b :: rest)
  | _, _ => 0

/-- A label sequence starting on node `n`: every label is within its node's label count
and every edge between consecutive labels has Max cost at most `t`. -/
def pathOK (mx : three_dimensional_variable_array) (NL : List Nat) (t : REAL) :
    Nat → List Nat → Prop
  | _, [] => True
  | n, [a] => a < NL.getD n 0
  | n, a :: b :: rest => a < NL.getD n 0 ∧ mx.get n a b ≤ t ∧ pathOK mx NL t (n + 1) (b :: rest)

/-- An admissible label sequence `l_0 .. l_n` ending in `l`. -/
def IsLabelPath (mx : three_dimensional_variable_array) (NL : List Nat) (t : REAL)
    (n l : Nat) (p : List Nat) : Prop :=
  p.length = n + 1 ∧ p.getLast? = some l ∧ pathOK mx NL t 0 p

/-- The value `v` is the minimum of the Linear cost over the admissible label sequences
`l_0 .. l_n` ending in `l`, read as `REAL_MAX` when there is no such sequence. -/
def IsLeastPathCost (lin mx : three_dimensional_variable_array) (NL : List Nat) (t : REAL)
    (n l : Nat) (v : REAL) : Prop :=
  (∀ p, IsLabelPath mx NL t n l p → v ≤ pathCost lin 0 p) ∧
  ((∃ p, IsLabelPath mx NL t n l p ∧ pathCost lin 0 p = v) ∨
    (v = REAL_MAX ∧ ∀ p, ¬ IsLabelPath mx NL t n l p))

/-- The sink test of `AddEdgeWithUpdate` for the edge `e`. -/
def reachesSink (s : shortest_distance_calculator) (e : edge) : Prop :=
  (s.DoForward = true ∧ e.n1 + 1 = s.LinearPairwisePotentials.dim1) ∨
  (s.DoForward = false ∧ e.n1 = 0)

/-- The number of worklist iterations charged to an edge: a bound on the size of the tree
of edges its processing can push. -/
def edgeWeight (fwd : Bool) (NL : List Nat) (e : edge) : Nat :=
  (NL.sum + 1) ^ (if fwd = true then NL.length - e.n1 else e.n1 + 1)

/-- The weight of a queue. -/
def queueWeight (fwd : Bool) (NL : List Nat) (q : List edge) : Nat :=
  (q.map (edgeWeight fwd NL)).sum

/-- The invariant of the worklist loop of `AddEdgeWithUpdate` on an unrestricted engine:
`Bref` is the table of the Bellman conditions, `A` the edges handed to the engine so far,
`q` the queue. Every entry is bounded below by `Bref`, every edge of `A` is relaxed or
queued, the queue holds admissible edges of the chain, and the best distance is the least
entry of the sink row. -/
structure WorklistInv (fwd : Bool) (lin mx : three_dimensional_variable_array)
    (NL : List Nat) (t : REAL) (Bref : List (List REAL)) (A q : List edge)
    (s : shortest_distance_calculator) : Prop where
  dir : s.DoForward = fwd
  linEq : s.LinearPairwisePotentials = lin
  maxEq : s.MaxPairwisePotentials = mx
  labels : s.NumLabels = NL
  mode : Unrestricted s
  shape : s.distance.map List.length = NL
  source : ∀ l, l < NL.getD (sourceRow fwd NL.length) 0 →
    tableAt s.distance (sourceRow fwd NL.length, l) = 0
  lower : ∀ n l, n < NL.length → l < NL.getD n 0 →
    tableAt Bref (n, l) ≤ tableAt s.distance (n, l)
  relaxed : ∀ e ∈ A, Relaxed fwd lin s.distance e ∨ e ∈ q
  queued : ∀ e ∈ q, validEdge NL e ∧ mx.get e.n1 e.l1 e.l2 ≤ t
  best : s.shortestPathDistance = minElement (s.distance.getD (sinkRow fwd NL.length) [])

/-- Calling `AddEdgeWithUpdate<computeUpdatedNodes>(n1, l1, l2, t)` once per edge of a
list, in order. -/
def addEdgesWithUpdate (computeUpdatedNodes : Bool) (t : REAL) :
    List edge → shortest_distance_calculator → Option shortest_distance_calculator
  | [], s => some s
  | e :: es, s =>
    match shortest_distance_calculator.AddEdgeWithUpdate computeUpdatedNodes e.n1 e.l1 e.l2 t s with
    | none => none
    | some r => addEdgesWithUpdate computeUpdatedNodes t es r.1

/-- The edges `(n1, l1, l2)` of the chain with `Max(n1, l1, l2) ≤ t`, each listed once. -/
def admissibleEdges (mx : three_dimensional_variable_array) (NL : List Nat) (t : REAL) :
    List edge :=
  (sweepEdges true NL).filter (fun e => decide (mx.get e.n1 e.l1 e.l2 ≤ t))

/-- The part of the two-node objective that depends on the frontier entry:
`max(e.MaxCost, c.MaxCost) + e.LinearCost`. -/
def pairGain (e c : max_linear_costs) : REAL := max e.MaxCost c.MaxCost + e.LinearCost

/-- The test of the first constructor loop of `ChainsInfo` on a chain: its first two
nodes differ by `1`. -/
def isHorizontal (ch : List Nat) : Bool := decide (ch.getD 1 0 - ch.getD 0 0 = 1)

/-- The value of `SizeH` (or `SizeV`) after the first constructor loop: the size of the
last chain that satisfies `p`, or the start value when there is none. -/
def sizeAfter (p : List Nat → Bool) (s0 : Nat) (L : List (List Nat)) : Nat :=
  L.foldl (fun s ch => if p ch = true then ch.length else s) s0

/-- The Linear tables of a single chain over the nodes `0, 1, 2, 3` with label counts
`2, 3, 1, 2`: the edge `(0,1)` has the costs `[[5,1,7],[9,9,0]]`, the other two edges cost
`0` throughout. -/
def roundingExample : List three_dimensional_variable_array :=
  [three_dimensional_variable_array.ofLists [[[5, 1, 7], [9, 9, 0]], [[0], [0], [0]], [[0, 0]]]]

/-- The invariant of the restricted building phase: `MaxCost` strictly increasing,
`LinearCost` strictly decreasing, and no stored `MaxCost` above a point still to come. -/
def RestrictedInv (M rest : List max_linear_costs) : Prop :=
  (M.map max_linear_costs.MaxCost).Pairwise (· < ·) ∧
  (M.map max_linear_costs.LinearCost).Pairwise (· > ·) ∧
  ∀ e ∈ M, ∀ q ∈ rest, e.MaxCost ≤ q.MaxCost

/-! ### Seed chains -/

/-- The value `*std::min_element(row.begin(), row.end())` of a non-empty vector of
indices. -/
def minLabels (row : List Nat) : Nat := row.foldl min (row.headD 0)

/-- The local variables of `ChainsInfo::GetSeedChains`; the two indices are declared
without an initial value, which the model renders as `none`. -/
structure SeedState where
  minIndexH : Option Nat
  minIndexV : Option Nat
  minValueH : Nat
  minValueV : Nat
deriving DecidableEq

/-- The method `ChainsInfo::IsHorizontal`; `none` outside the table. -/
def ChainsInfo.IsHorizontal (info : ChainsInfo) (c : Nat) : Option Bool :=
  info.IsHorizontalChain[c]?

/-- The method `ChainsInfo::IsVertical`. -/
def ChainsInfo.IsVertical (info : ChainsInfo) (c : Nat) : Option Bool :=
  (info.IsHorizontal c).map (fun b => !b)

/-- The body of the loop of `GetSeedChains` for the chain `c`; `none` once `numLabels` or
the orientation table has been indexed outside its range or the minimum of an empty vector
has been taken. -/
def ChainsInfo.seedStep (info : ChainsInfo) (numLabels : List (List Nat))
    (acc : Option SeedState) (c : Nat) : Option SeedState :=
  match acc with
  | none => none
  | some st =>
    match numLabels[c]?, info.IsVertical c with
    | some row, some v =>
      if row.isEmpty = true then none
      else if v = true then
        if st.minValueV > minLabels row then
          some { st with minValueV := minLabels row, minIndexV := some c }
        else some st
      else
        if st.minValueH > minLabels row then
          some { st with minValueH := minLabels row, minIndexH := some c }
        else some st
    | _, _ => none

/-- The method `ChainsInfo::GetSeedChains(numLabels)`; `none` when a container is indexed
outside its range, the minimum of an empty vector is taken, or an index is returned without
ever having been assigned. -/
def ChainsInfo.GetSeedChains (info : ChainsInfo) (numLabels : List (List Nat)) :
    Option (Nat × Nat) :=
  match (List.range info.NumChains).foldl (info.seedStep numLabels)
      (some { minIndexH := none, minIndexV := none,
              minValueH := INDEX_MAX, minValueV := INDEX_MAX }) with
  | none => none
  | some st =>
    match st.minIndexH, st.minIndexV with
    | some h, some v => some (h, v)
    | _, _ => none

/-- The state of one of the two running minima of `GetSeedChains` after the chains
`0 .. k-1`, for the chains selected by `sel` with key `m`: unset with the start value when
no selected chain has a key below `INDEX_MAX`, and otherwise the first selected chain of
least key. -/
def SeedInv (sel : Nat → Prop) (m : Nat → Nat) (k : Nat) (idx : Option Nat) (val : Nat) :
    Prop :=
  match idx with
  | none => val = INDEX_MAX ∧ ∀ c, c < k → sel c → INDEX_MAX ≤ m c
  | some h => h < k ∧ sel h ∧ val = m h ∧ (∀ c, c < k → sel c → m h ≤ m c) ∧
      ∀ c, c < h → sel c → m h < m c

/-- The `ChainsInfo` of the `2 x 2` grid with the chains `[0,1]`, `[2,3]` (rows) and `[0,2]`,
`[1,3]` (columns), as the constructor builds it. -/
def exampleGridInfo : ChainsInfo :=
  { ChainNodeToOriginalNode := [[0, 1], [2, 3], [0, 2], [1, 3]]
    NumChains := 4
    IsHorizontalChain := [true, true, false, false]
    HChainIndices := [0, 1]
    VChainIndices := [2, 3]
    NumHorizontalChains := 2
    NumVerticalChains := 2
    SizeH := 2
    SizeV := 2 }

/-- A forward engine on the three-node example after `CalculateDistances(0)`. -/
def sweptExample : shortest_distance_calculator :=
  shortest_distance_calculator.CalculateDistances false 0 0 0 (exampleEngine true)

/-- The Linear tables of two chains over the nodes `0, 1` and `2, 3` that share no node:
node `0` has one label, the nodes `1, 2, 3` have two; all costs are `0`. -/
def disconnectedExample : List three_dimensional_variable_array :=
  [three_dimensional_variable_array.ofLists [[[0, 0]]],
   three_dimensional_variable_array.ofLists [[[0, 0], [0, 0]]]]

/-- The Linear table of the single chain `0, 1` in which node `0` has two labels and node
`1` has one. -/
def lastNodeSeedExample : List three_dimensional_variable_array :=
  [three_dimensional_variable_array.ofLists [[[0], [0]]]]

/-- A fresh engine on the three-node example in fixed-label mode, node `1` pinned to
label `1`. -/
def pinnedExample (DoForward : Bool) : shortest_distance_calculator :=
  shortest_distance_calculator.new DoForward false true exampleLinear exampleMax [1, 2, 1] 0 1 1

/-- The minimum over the stored entries of `max(entry.MaxCost, c.MaxCost) + entry.LinearCost`,
read as `REAL_MAX` when nothing is stored. -/
def bestGain (M : List max_linear_costs) (c : max_linear_costs) : REAL :=
  minElement (M.map (fun e => pairGain e c))

/-- The stored vector `M` covers the points `seen`: every stored entry is one of the points,
and every point has a stored entry that is no worse in both costs. -/
def Covers (M seen : List max_linear_costs) : Prop :=
  (∀ e ∈ M, ∃ p ∈ seen, p.MaxCost = e.MaxCost ∧ p.LinearCost = e.LinearCost) ∧
  (∀ p ∈ seen, ∃ e ∈ M, e.MaxCost ≤ p.MaxCost ∧ e.LinearCost ≤ p.LinearCost)

/-- The potential table of the reversed chain of `N` nodes: position `n` of the reversed chain
is position `N - 2 - n` of the chain, with the two label arguments swapped. -/
def reverseTable (N : Nat) (A : three_dimensional_variable_array) :
    three_dimensional_variable_array :=
  { dim1 := A.dim1
    dim2 := fun n => A.dim3 (N - 2 - n)
    dim3 := fun n => A.dim2 (N - 2 - n)
    get := fun n a b => A.get (N - 2 - n) b a }

/-- The edge of the reversed chain of `N` nodes that corresponds to an edge of the chain. -/
def reverseEdge (N : Nat) (e : edge) : edge :=
  { n1 := N - 2 - e.n1, l1 := e.l2, l2 := e.l1 }

/-- The invariant of the worklist loop of `AddEdgeWithUpdate<true>` relative to the state
`s0` at the call: the configuration and the shape of the table are unchanged, the queue
holds edges of the chain, no entry has grown, every listed pair lies outside the sink row
and has a smaller entry than at the call, and every pair outside the sink row with a smaller
entry is listed. -/
structure UpdatedInv (s0 s : shortest_distance_calculator) (q : List edge)
    (upd : List (Nat × Nat)) : Prop where
  dir : s.DoForward = s0.DoForward
  linEq : s.LinearPairwisePotentials = s0.LinearPairwisePotentials
  labels : s.NumLabels = s0.NumLabels
  shape : s.distance.map List.length = s0.NumLabels
  queued : ∀ e ∈ q, validEdge s0.NumLabels e
  below : ∀ x, tableAt s.distance x ≤ tableAt s0.distance x
  listed : ∀ x ∈ upd, x.1 ≠ sinkRow s0.DoForward s0.NumLabels.length ∧
    tableAt s.distance x < tableAt s0.distance x
  complete : ∀ x, x.1 ≠ sinkRow s0.DoForward s0.NumLabels.length →
    tableAt s.distance x < tableAt s0.distance x → x ∈ upd

/-! # Theorems -/

/-! ### Frontier compression -/

theorem set_last_eq {α : Type} (M : List α) (b x : α) (h : M.getLast? = some b) :
    M.set (M.length - 1) x = M.dropLast ++ [x] ∧ M = M.dropLast ++ [b] := by
  rcases List.eq_nil_or_concat M with rfl | ⟨L, c, rfl⟩
  · simp at h
  · simp at h
    subst h
    simp [List.set_append]

theorem buildInv_nil : BuildInv [] [] := by
  simp [BuildInv]

theorem insert_building_step (M seen : List max_linear_costs) (m : max_linear_costs)
    (i : Nat) (hinv : BuildInv M seen) (hm : ∀ p ∈ seen, p.MaxCost ≤ m.MaxCost) :
    ∃ M', Marginals.insert false m { M := M, i := i, populated := false }
        = some { M := M', i := i, populated := false } ∧ BuildInv M' (seen ++ [m]) := by
  obtain ⟨hsort, hmem, hmin, hlast⟩ := hinv
  unfold Marginals.insert
  rw [if_pos rfl]
  simp only []
  cases hb : M.getLast? with
  | none =>
    have hM : M = [] := by simpa using hb
    subst hM
    have hseen : seen = [] := by
      cases seen with
      | nil => rfl
      | cons a t =>
        have := (hmem a.MaxCost).2 (by simp)
        simp at this
    subst hseen
    refine ⟨[m], by simp, ?_⟩
    simp [BuildInv]
  | some b =>
    obtain ⟨hset, hMeq⟩ := set_last_eq M b { b with LinearCost := min b.LinearCost m.LinearCost } hb
    have hbM : b ∈ M := by rw [hMeq]; simp
    have hbmax := hlast b hb
    by_cases heq : b.MaxCost = m.MaxCost
    · simp only [if_pos heq]
      refine ⟨_, rfl, ?_⟩
      rw [hset]
      have hsort' : (M.dropLast.map max_linear_costs.MaxCost).Pairwise (· < ·) ∧
          ∀ e ∈ M.dropLast, e.MaxCost < b.MaxCost := by
        rw [hMeq] at hsort
        simp only [List.map_append, List.pairwise_append, List.map_cons, List.map_nil,
          List.mem_map, List.mem_singleton, forall_exists_index, and_imp,
          forall_apply_eq_imp_iff₂] at hsort
        exact ⟨hsort.1, fun e he => hsort.2.2 e he _ rfl⟩
      have hmin' : ∀ e ∈ M.dropLast, e ∈ M := fun e he => by
        rw [hMeq]; exact List.mem_append_left _ he
      refine ⟨?_, ?_, ?_, ?_⟩
      · simp only [List.map_append, List.pairwise_append, List.map_cons, List.map_nil,
          List.mem_map, List.mem_singleton, forall_exists_index, and_imp,
          forall_apply_eq_imp_iff₂]
        refine ⟨hsort'.1, by simp, ?_⟩
        intro e he c hc
        subst hc
        exact hsort'.2 e he
      · intro c
        have h1 := hmem c
        rw [hMeq] at h1
        simp only [List.map_append, List.mem_append, List.map_cons, List.map_nil,
          List.mem_singleton] at h1 ⊢
        constructor
        · rintro (h | h)
          · exact Or.inl (h1.1 (Or.inl h))
          · exact Or.inr (by rw [h, heq])
        · rintro (h | h)
          · exact h1.2 h
          · exact Or.inr (by rw [h, heq])
      · intro e he
        simp only [List.mem_append, List.mem_singleton] at he
        rcases he with he | he
        · obtain ⟨⟨p, hp, hpe⟩, hle⟩ := hmin e (hmin' e he)
          refine ⟨⟨p, List.mem_append_left _ hp, hpe⟩, ?_⟩
          intro p hp hpe
          simp only [List.mem_append, List.mem_singleton] at hp
          rcases hp with hp | hp
          · exact hle p hp hpe
          · subst hp
            have := hsort'.2 e he
            rw [heq, hpe] at this
            exact absurd this (lt_irrefl _)
        · subst he
          obtain ⟨⟨p, hp, hpe⟩, hle⟩ := hmin b hbM
          constructor
          · rcases le_total b.LinearCost m.LinearCost with h | h
            · exact ⟨p, List.mem_append_left _ hp, by simpa using hpe.1,
                by simpa [min_eq_left h] using hpe.2⟩
            · exact ⟨m, by simp, by simp [heq], by simp [min_eq_right h]⟩
          · intro q hq hqe
            simp only [List.mem_append, List.mem_singleton] at hq
            simp only at hqe ⊢
            rcases hq with hq | hq
            · exact le_trans (min_le_left _ _) (hle q hq hqe)
            · subst hq
              exact min_le_right _ _
      · intro b' hb' q hq
        rw [List.getLast?_concat] at hb'
        cases hb'
        simp only [List.mem_append, List.mem_singleton] at hq
        rcases hq with hq | hq
        · exact hbmax q hq
        · subst hq
          exact le_of_eq heq.symm
    · simp only [if_neg heq, Bool.false_eq_true, false_and, if_false]
      refine ⟨_, rfl, ?_⟩
      have hblt : b.MaxCost < m.MaxCost := by
        obtain ⟨⟨p, hp, hpe⟩, _⟩ := hmin b hbM
        exact lt_of_le_of_ne (hpe.1 ▸ hm p hp) heq
      have hall : ∀ e ∈ M, e.MaxCost < m.MaxCost := by
        intro e he
        obtain ⟨⟨p, hp, hpe⟩, _⟩ := hmin e he
        exact lt_of_le_of_lt (hpe.1 ▸ hbmax p hp) hblt
      refine ⟨?_, ?_, ?_, ?_⟩
      · simp only [List.map_append, List.pairwise_append, List.map_cons, List.map_nil,
          List.mem_map, List.mem_singleton, forall_exists_index, and_imp,
          forall_apply_eq_imp_iff₂]
        refine ⟨hsort, by simp, ?_⟩
        intro e he c hc
        subst hc
        exact hall e he
      · intro c
        have h1 := hmem c
        simp only [List.map_append, List.mem_append, List.map_cons, List.map_nil,
          List.mem_singleton]
        rw [h1]
      · intro e he
        simp only [List.mem_append, List.mem_singleton] at he
        rcases he with he | he
        · obtain ⟨⟨p, hp, hpe⟩, hle⟩ := hmin e he
          refine ⟨⟨p, List.mem_append_left _ hp, hpe⟩, ?_⟩
          intro q hq hqe
          simp only [List.mem_append, List.mem_singleton] at hq
          rcases hq with hq | hq
          · exact hle q hq hqe
          · subst hq
            exact absurd (hall e he) (by rw [hqe]; exact lt_irrefl _)
        · subst he
          refine ⟨⟨e, by simp, rfl, rfl⟩, ?_⟩
          intro q hq hqe
          simp only [List.mem_append, List.mem_singleton] at hq
          rcases hq with hq | hq
          · obtain ⟨e', he', hee'⟩ : ∃ e' ∈ M, e'.MaxCost = q.MaxCost := by
              have := (hmem q.MaxCost).2 (List.mem_map_of_mem _ hq)
              simpa using this
            exact absurd (hall e' he') (by rw [hee', hqe]; exact lt_irrefl _)
          · subst hq
            exact le_refl _
      · intro b' hb' q hq
        rw [List.getLast?_concat] at hb'
        cases hb'
        simp only [List.mem_append, List.mem_singleton] at hq
        rcases hq with hq | hq
        · exact hm q hq
        · subst hq
          exact le_refl _

theorem insertAll_building (rest : List max_linear_costs) :
    ∀ (M seen : List max_linear_costs) (i : Nat), BuildInv M seen →
      (seen ++ rest).Pairwise (fun a b => a.MaxCost ≤ b.MaxCost) →
      ∃ M', Marginals.insertAll false rest { M := M, i := i, populated := false }
          = some { M := M', i := i, populated := false } ∧ BuildInv M' (seen ++ rest) := by
  induction rest with
  | nil =>
    intro M seen i hinv _
    exact ⟨M, rfl, by simpa using hinv⟩
  | cons m rest ih =>
    intro M seen i hinv hsorted
    have hm : ∀ p ∈ seen, p.MaxCost ≤ m.MaxCost := by
      intro p hp
      rw [List.pairwise_append] at hsorted
      exact hsorted.2.2 p hp m (by simp)
    obtain ⟨M1, h1, hinv1⟩ := insert_building_step M seen m i hinv hm
    have hs : (seen ++ [m] ++ rest).Pairwise (fun a b => a.MaxCost ≤ b.MaxCost) := by
      simpa using hsorted
    obtain ⟨M2, h2, hinv2⟩ := ih M1 (seen ++ [m]) i hinv1 hs
    refine ⟨M2, ?_, by simpa using hinv2⟩
    simp [Marginals.insertAll, h1, h2]

/-- C1: inserting points sorted by non-decreasing `MaxCost` into an empty `Marginals`
in the building phase with `storeRestricted = false` succeeds and yields a vector with
strictly increasing `MaxCost`, whose `MaxCost` values are exactly those of the input
(so one entry per distinct value), each entry holding the minimum `LinearCost` of the
input points with its `MaxCost` (attained by one of them). -/
theorem C1_frontier_compression (pts : List max_linear_costs)
    (hsorted : pts.Pairwise (fun a b => a.MaxCost ≤ b.MaxCost)) :
    ∃ s, Marginals.insertAll false pts Marginals.empty = some s ∧
      (s.M.map max_linear_costs.MaxCost).Pairwise (· < ·) ∧
      (∀ c, c ∈ s.M.map max_linear_costs.MaxCost ↔ c ∈ pts.map max_linear_costs.MaxCost) ∧
      (∀ e ∈ s.M, (∃ p ∈ pts, p.MaxCost = e.MaxCost ∧ p.LinearCost = e.LinearCost) ∧
        ∀ p ∈ pts, p.MaxCost = e.MaxCost → e.LinearCost ≤ p.LinearCost) := by
  obtain ⟨M', h, hinv⟩ := insertAll_building pts [] [] 0 buildInv_nil (by simpa using hsorted)
  exact ⟨_, h, by simpa using hinv.1, by simpa using hinv.2.1, by simpa using hinv.2.2.1⟩

/-- Witness for C1 on the input `(1,5), (1,3), (2,7), (4,6), (4,9)`. -/
theorem C1_frontier_compression_witness :
    ([⟨1, 5⟩, ⟨1, 3⟩, ⟨2, 7⟩, ⟨4, 6⟩, ⟨4, 9⟩] : List max_linear_costs).Pairwise
        (fun a b => a.MaxCost ≤ b.MaxCost) ∧
    ∃ s, Marginals.insertAll false [⟨1, 5⟩, ⟨1, 3⟩, ⟨2, 7⟩, ⟨4, 6⟩, ⟨4, 9⟩] Marginals.empty
        = some s ∧
      (s.M.map max_linear_costs.MaxCost).Pairwise (· < ·) ∧
      (∀ c, c ∈ s.M.map max_linear_costs.MaxCost ↔
        c ∈ ([⟨1, 5⟩, ⟨1, 3⟩, ⟨2, 7⟩, ⟨4, 6⟩, ⟨4, 9⟩] : List max_linear_costs).map
          max_linear_costs.MaxCost) ∧
      (∀ e ∈ s.M, (∃ p ∈ ([⟨1, 5⟩, ⟨1, 3⟩, ⟨2, 7⟩, ⟨4, 6⟩, ⟨4, 9⟩] : List max_linear_costs),
          p.MaxCost = e.MaxCost ∧ p.LinearCost = e.LinearCost) ∧
        ∀ p ∈ ([⟨1, 5⟩, ⟨1, 3⟩, ⟨2, 7⟩, ⟨4, 6⟩, ⟨4, 9⟩] : List max_linear_costs),
          p.MaxCost = e.MaxCost → e.LinearCost ≤ p.LinearCost) :=
  ⟨by decide, C1_frontier_compression _ (by decide)⟩

/-! ### Distance tables -/

theorem tableGet_tableSet_ne (d : List (List REAL)) (n l n' l' : Nat) (v : REAL)
    (h : ¬ (n' = n ∧ l' = l)) : tableGet (tableSet d n l v) n' l' = tableGet d n' l' := by
  unfold tableGet tableSet
  by_cases hn : n' = n
  · subst hn
    have hl : l' ≠ l := fun hl => h ⟨rfl, hl⟩
    by_cases hlen : n' < d.length
    · simp [List.getD_eq_getElem?_getD, List.getElem?_set, hlen, Ne.symm hl]
    · have hnone : d[n']? = none := List.getElem?_eq_none (by omega)
      simp [List.getD_eq_getElem?_getD, List.getElem?_set, hlen, hnone]
  · simp [List.getD_eq_getElem?_getD, List.getElem?_set, Ne.symm hn]

theorem tableGet_tableSet_eq (d : List (List REAL)) (n l : Nat) (v : REAL)
    (hn : n < d.length) (hl : l < (d.getD n []).length) :
    tableGet (tableSet d n l v) n l = v := by
  unfold tableGet tableSet
  simp [List.getD_eq_getElem?_getD, List.getElem?_set, hn] at hl ⊢
  simp [hl]

theorem shape_tableSet (d : List (List REAL)) (n l : Nat) (v : REAL) :
    (tableSet d n l v).map List.length = d.map List.length := by
  unfold tableSet
  apply List.ext_getElem?
  intro i
  by_cases hi : i = n
  · subst hi
    by_cases hlen : i < d.length
    · simp [List.getElem?_set, hlen, List.getD_eq_getElem?_getD]
    · have hnone : d[i]? = none := List.getElem?_eq_none (by omega)
      simp [List.getElem?_set, hlen, hnone]
  · simp [List.getElem?_set, Ne.symm hi]

theorem shape_row {d : List (List REAL)} {NL : List Nat} (h : d.map List.length = NL)
    (n : Nat) : (d.getD n []).length = NL.getD n 0 := by
  subst h
  simp only [List.getD_eq_getElem?_getD, List.getElem?_map]
  cases d[n]? <;> simp

theorem shape_length {d : List (List REAL)} {NL : List Nat} (h : d.map List.length = NL) :
    d.length = NL.length := by
  subst h; simp

theorem table_ext (d1 d2 : List (List REAL)) (NL : List Nat)
    (h1 : d1.map List.length = NL) (h2 : d2.map List.length = NL)
    (h : ∀ n l, n < NL.length → l < NL.getD n 0 → tableGet d1 n l = tableGet d2 n l) :
    d1 = d2 := by
  have hl1 := shape_length h1
  have hl2 := shape_length h2
  apply List.ext_getElem (by omega)
  intro n hn1 hn2
  have hr1 := shape_row h1 n
  have hr2 := shape_row h2 n
  have e1 : d1.getD n [] = d1[n] := by simp [List.getD_eq_getElem?_getD, hn1]
  have e2 : d2.getD n [] = d2[n] := by simp [List.getD_eq_getElem?_getD, hn2]
  rw [e1] at hr1
  rw [e2] at hr2
  apply List.ext_getElem (by omega)
  intro l hl1' hl2'
  have := h n l (by omega) (by rw [← hr1]; exact hl1')
  unfold tableGet at this
  rw [e1, e2] at this
  simpa [List.getD_eq_getElem?_getD, hl1', hl2'] using this

theorem minElement_le (row : List REAL) : ∀ x ∈ row, minElement row ≤ x := by
  unfold minElement
  suffices h : ∀ (acc : REAL),
      (List.foldl min acc row ≤ acc) ∧ ∀ x ∈ row, List.foldl min acc row ≤ x from
    (h REAL_MAX).2
  induction row with
  | nil => intro acc; simp
  | cons a t ih =>
    intro acc
    simp only [List.foldl_cons, List.mem_cons]
    refine ⟨le_trans (ih _).1 (min_le_left _ _), ?_⟩
    rintro x (rfl | hx)
    · exact le_trans (ih _).1 (min_le_right _ _)
    · exact (ih _).2 x hx

theorem minElement_mem (row : List REAL) :
    minElement row = REAL_MAX ∨ minElement row ∈ row := by
  unfold minElement
  suffices h : ∀ (acc : REAL),
      List.foldl min acc row = acc ∨ List.foldl min acc row ∈ row from h REAL_MAX
  induction row with
  | nil => intro acc; simp
  | cons a t ih =>
    intro acc
    simp only [List.foldl_cons, List.mem_cons]
    rcases ih (min acc a) with h | h
    · rw [h]
      rcases min_choice acc a with h2 | h2
      · exact Or.inl h2
      · exact Or.inr (Or.inl h2)
    · exact Or.inr (Or.inr h)

/-! ### The Bellman conditions determine the table -/

theorem level_source (fwd : Bool) (N n : Nat) (hn : n < N) (h : level fwd N n = 0) :
    n = sourceRow fwd N := by
  unfold level at h
  unfold sourceRow
  cases fwd <;> simp at h ⊢ <;> omega

theorem level_edge (fwd : Bool) (NL : List Nat) (e : edge) (he : validEdge NL e) :
    level fwd NL.length (edgeDst fwd e).1 = level fwd NL.length (edgeSrc fwd e).1 + 1 ∧
    (edgeSrc fwd e).1 < NL.length ∧ (edgeSrc fwd e).2 < NL.getD (edgeSrc fwd e).1 0 ∧
    (edgeDst fwd e).1 < NL.length ∧ (edgeDst fwd e).2 < NL.getD (edgeDst fwd e).1 0 := by
  obtain ⟨h1, h2, h3⟩ := he
  unfold level edgeDst edgeSrc
  cases fwd
  · simp only [Bool.false_eq_true, if_false]
    refine ⟨?_, ?_, ?_, ?_, ?_⟩ <;> dsimp only <;> omega
  · simp only [if_true]
    refine ⟨?_, ?_, ?_, ?_, ?_⟩ <;> dsimp only <;> omega

theorem bellman_mono (fwd : Bool) (lin mx : three_dimensional_variable_array)
    (NL : List Nat) (t1 t2 : REAL) (d1 d2 : List (List REAL)) (ht : t1 ≤ t2)
    (h1 : IsBellman fwd lin mx NL t1 d1) (h2 : IsBellman fwd lin mx NL t2 d2) :
    ∀ k n l, level fwd NL.length n = k → n < NL.length → l < NL.getD n 0 →
      tableGet d2 n l ≤ tableGet d1 n l := by
  intro k
  induction k with
  | zero =>
    intro n l hk hn hl
    have hs := level_source fwd NL.length n hn hk
    rw [hs] at hl ⊢
    have e1 := h1.2.1 l hl
    have e2 := h2.2.1 l hl
    unfold tableAt at e1 e2
    rw [e1, e2]
  | succ k ih =>
    intro n l hk hn hl
    have hns : n ≠ sourceRow fwd NL.length := by
      intro hs
      rw [hs] at hk
      unfold level sourceRow at hk
      cases fwd <;> simp at hk
    rcases h1.2.2.2 n l hn hl hns with htop | ⟨e, _, hv, hadm, hdst, hval⟩
    · unfold tableAt at htop
      rw [htop]; exact le_top
    · obtain ⟨hlev, hsn, hsl, _, _⟩ := level_edge fwd NL e hv
      have hcons := h2.2.2.1 e hv (le_trans hadm ht)
      unfold Relaxed at hcons
      rw [hdst] at hcons hlev
      simp only at hlev
      have hsrc := ih (edgeSrc fwd e).1 (edgeSrc fwd e).2 (by omega) hsn hsl
      unfold tableAt at hval hcons
      simp only at hval hcons
      rw [hval]
      exact le_trans hcons (add_le_add_right hsrc _)

theorem bellman_unique (fwd : Bool) (lin mx : three_dimensional_variable_array)
    (NL : List Nat) (t : REAL) (d1 d2 : List (List REAL))
    (h1 : IsBellman fwd lin mx NL t d1) (h2 : IsBellman fwd lin mx NL t d2) : d1 = d2 := by
  apply table_ext d1 d2 NL h1.1 h2.1
  intro n l hn hl
  exact le_antisymm
    (bellman_mono fwd lin mx NL t t d2 d1 le_rfl h2 h1 _ n l rfl hn hl)
    (bellman_mono fwd lin mx NL t t d1 d2 le_rfl h1 h2 _ n l rfl hn hl)


/-! ### A sweep in topological order establishes the Bellman conditions -/

theorem relaxTable_at (fwd : Bool) (lin : three_dimensional_variable_array) (NL : List Nat)
    (e : edge) (d : List (List REAL)) (he : validEdge NL e) (hd : d.map List.length = NL)
    (x : Nat × Nat) :
    tableAt (relaxTable fwd lin e d) x =
      if x = edgeDst fwd e then
        min (tableAt d (edgeDst fwd e)) (tableAt d (edgeSrc fwd e) + lin.get e.n1 e.l1 e.l2)
      else tableAt d x := by
  obtain ⟨_, _, _, hdn, hdl⟩ := level_edge fwd NL e he
  unfold relaxTable
  by_cases hc : tableAt d (edgeDst fwd e) ≤ tableAt d (edgeSrc fwd e) + lin.get e.n1 e.l1 e.l2
  · rw [if_pos hc]
    split_ifs with hx
    · rw [hx, min_eq_left hc]
    · rfl
  · rw [if_neg hc]
    split_ifs with hx
    · rw [hx, min_eq_right (le_of_lt (not_le.mp hc))]
      unfold tableAt
      apply tableGet_tableSet_eq
      · rw [shape_length hd]; exact hdn
      · rw [shape_row hd]; exact hdl
    · unfold tableAt
      apply tableGet_tableSet_ne
      rintro ⟨h1, h2⟩
      exact hx (Prod.ext h1 h2)

theorem shape_relaxTable (fwd : Bool) (lin : three_dimensional_variable_array) (e : edge)
    (d : List (List REAL)) : (relaxTable fwd lin e d).map List.length = d.map List.length := by
  unfold relaxTable
  split_ifs
  · rfl
  · exact shape_tableSet _ _ _ _

theorem shape_relaxTableIf (fwd : Bool) (lin mx : three_dimensional_variable_array) (t : REAL)
    (e : edge) (d : List (List REAL)) :
    (relaxTableIf fwd lin mx t e d).map List.length = d.map List.length := by
  unfold relaxTableIf
  split_ifs
  · exact shape_relaxTable _ _ _ _
  · rfl

theorem sweepOrder_src_ne (fwd : Bool) (e' e : edge) (h : sweepOrder fwd e' e) :
    edgeSrc fwd e' ≠ edgeDst fwd e := by
  unfold sweepOrder at h
  unfold edgeSrc edgeDst
  cases fwd
  · simp only [Bool.false_eq_true, if_false] at h ⊢
    intro hh
    have := congrArg Prod.fst hh
    simp only at this
    omega
  · simp only [if_true] at h ⊢
    intro hh
    have := congrArg Prod.fst hh
    simp only at this
    omega

theorem sweepOrder_refl (fwd : Bool) (e : edge) : sweepOrder fwd e e := by
  unfold sweepOrder
  split_ifs <;> exact le_refl _

theorem edgeDst_ne_source (fwd : Bool) (NL : List Nat) (e : edge) (he : validEdge NL e) :
    (edgeDst fwd e).1 ≠ sourceRow fwd NL.length := by
  obtain ⟨h1, _, _⟩ := he
  unfold edgeDst sourceRow
  cases fwd
  · simp only [Bool.false_eq_true, if_false]
    omega
  · simp only [if_true]
    omega

theorem sweep_step (fwd : Bool) (lin mx : three_dimensional_variable_array) (NL : List Nat)
    (t : REAL) (P : List edge) (e : edge) (d : List (List REAL))
    (hinv : SweepInv fwd lin mx NL t P d) (he : validEdge NL e)
    (hord : ∀ e' ∈ P, sweepOrder fwd e' e) :
    SweepInv fwd lin mx NL t (P ++ [e]) (relaxTableIf fwd lin mx t e d) := by
  obtain ⟨hshape, hsrc, hrel, hatt⟩ := hinv
  unfold relaxTableIf
  by_cases hadm : mx.get e.n1 e.l1 e.l2 ≤ t
  · rw [if_pos hadm]
    have hat := relaxTable_at fwd lin NL e d he hshape
    have hne : ∀ e', e' ∈ P ++ [e] → edgeSrc fwd e' ≠ edgeDst fwd e := by
      intro e' he'
      rcases List.mem_append.1 he' with h | h
      · exact sweepOrder_src_ne fwd e' e (hord e' h)
      · rw [List.mem_singleton] at h
        subst h
        exact sweepOrder_src_ne fwd e' e' (sweepOrder_refl fwd e')
    have hsrcval : ∀ e', e' ∈ P ++ [e] →
        tableAt (relaxTable fwd lin e d) (edgeSrc fwd e') = tableAt d (edgeSrc fwd e') := by
      intro e' he'
      rw [hat, if_neg (hne e' he')]
    have hdns := edgeDst_ne_source fwd NL e he
    refine ⟨by rw [shape_relaxTable]; exact hshape, ?_, ?_, ?_⟩
    · intro l hl
      rw [hat, if_neg]
      · exact hsrc l hl
      · intro h
        exact hdns (by rw [← h])
    · intro e' he' hadm'
      unfold Relaxed
      rw [hsrcval e' he', hat]
      rcases List.mem_append.1 he' with h | h
      · have hr := hrel e' h hadm'
        unfold Relaxed at hr
        split_ifs with hx
        · rw [← hx]
          exact le_trans (min_le_left _ _) hr
        · exact hr
      · rw [List.mem_singleton] at h
        subst h
        rw [if_pos rfl]
        exact min_le_right _ _
    · intro n l hn hl hns
      have hold := hatt n l hn hl hns
      have keep : Attained fwd lin mx NL t (fun e => e ∈ P) d (n, l) →
          tableAt (relaxTable fwd lin e d) (n, l) = tableAt d (n, l) →
          Attained fwd lin mx NL t (fun e' => e' ∈ P ++ [e]) (relaxTable fwd lin e d) (n, l) := by
        intro ho heq
        rcases ho with htop | ⟨e', hP, hv, ha, hd, hval⟩
        · exact Or.inl (by rw [heq, htop])
        · refine Or.inr ⟨e', List.mem_append_left _ hP, hv, ha, hd, ?_⟩
          rw [heq, hsrcval e' (List.mem_append_left _ hP)]
          exact hval
      by_cases hx : (n, l) = edgeDst fwd e
      · have hval := hat (n, l)
        rw [if_pos hx] at hval
        rcases min_choice (tableAt d (edgeDst fwd e))
            (tableAt d (edgeSrc fwd e) + lin.get e.n1 e.l1 e.l2) with h | h
        · apply keep hold
          rw [hval, h, hx]
        · refine Or.inr ⟨e, by simp, he, hadm, hx.symm, ?_⟩
          rw [hval, h, hsrcval e (by simp)]
      · apply keep hold
        rw [hat, if_neg hx]
  · rw [if_neg hadm]
    refine ⟨hshape, hsrc, ?_, ?_⟩
    · intro e' he' hadm'
      rcases List.mem_append.1 he' with h | h
      · exact hrel e' h hadm'
      · rw [List.mem_singleton] at h
        subst h
        exact absurd hadm' hadm
    · intro n l hn hl hns
      rcases hatt n l hn hl hns with htop | ⟨e', hP, hrest⟩
      · exact Or.inl htop
      · exact Or.inr ⟨e', List.mem_append_left _ hP, hrest⟩

theorem sweep_all (fwd : Bool) (lin mx : three_dimensional_variable_array) (NL : List Nat)
    (t : REAL) (R : List edge) :
    ∀ (P : List edge) (d : List (List REAL)), SweepInv fwd lin mx NL t P d →
      (∀ e ∈ R, validEdge NL e) → (P ++ R).Pairwise (sweepOrder fwd) →
      SweepInv fwd lin mx NL t (P ++ R)
        (R.foldl (fun d e => relaxTableIf fwd lin mx t e d) d) := by
  induction R with
  | nil =>
    intro P d hinv _ _
    simpa using hinv
  | cons e R ih =>
    intro P d hinv hvalid hsorted
    have hord : ∀ e' ∈ P, sweepOrder fwd e' e := by
      intro e' he'
      rw [List.pairwise_append] at hsorted
      exact hsorted.2.2 e' he' e (by simp)
    have h1 := sweep_step fwd lin mx NL t P e d hinv (hvalid e (by simp)) hord
    have h2 := ih (P ++ [e]) _ h1 (fun e' he' => hvalid e' (by simp [he']))
      (by simpa using hsorted)
    simpa using h2

theorem shape_freshTable (fwd : Bool) (NL : List Nat) :
    (freshTable fwd NL).map List.length = NL := by
  unfold freshTable
  apply List.ext_getElem?
  intro i
  by_cases hi : i = sourceRow fwd NL.length
  · subst hi
    by_cases hlen : sourceRow fwd NL.length < NL.length
    · simp [List.getElem?_set, hlen, List.getD_eq_getElem?_getD]
    · have hnone : NL[sourceRow fwd NL.length]? = none := List.getElem?_eq_none (by omega)
      simp [List.getElem?_set, hlen, hnone]
  · simp only [List.map_set, List.length_replicate]
    rw [List.getElem?_set_ne (Ne.symm hi)]
    simp only [List.map_map, List.getElem?_map]
    cases NL[i]? <;> simp

theorem freshTable_at (fwd : Bool) (NL : List Nat) (n l : Nat) (hn : n < NL.length)
    (hl : l < NL.getD n 0) :
    tableAt (freshTable fwd NL) (n, l) = if n = sourceRow fwd NL.length then 0 else REAL_MAX := by
  unfold tableAt tableGet freshTable
  simp only [List.getD_eq_getElem?_getD, hn, List.getElem?_eq_getElem, Option.getD_some] at hl
  split_ifs with h
  · subst h
    simp [List.getD_eq_getElem?_getD, List.getElem?_set, hn, hl]
  · simp only [List.getD_eq_getElem?_getD]
    rw [List.getElem?_set_ne (Ne.symm h)]
    simp [hn, hl]

theorem sweepInv_fresh (fwd : Bool) (lin mx : three_dimensional_variable_array)
    (NL : List Nat) (t : REAL) : SweepInv fwd lin mx NL t [] (freshTable fwd NL) := by
  refine ⟨shape_freshTable fwd NL, ?_, ?_, ?_⟩
  · intro l hl
    by_cases hn : sourceRow fwd NL.length < NL.length
    · rw [freshTable_at fwd NL _ l hn hl, if_pos rfl]
    · have : NL.getD (sourceRow fwd NL.length) 0 = 0 := by
        simp [List.getD_eq_getElem?_getD, List.getElem?_eq_none (not_lt.mp hn)]
      omega
  · intro e he
    simp at he
  · intro n l hn hl hns
    exact Or.inl (by rw [freshTable_at fwd NL n l hn hl, if_neg hns])

/-- A sweep over all edges of the chain in topological order, started from the table of a
fresh engine, produces the table that satisfies the Bellman conditions. -/
theorem sweep_bellman (fwd : Bool) (lin mx : three_dimensional_variable_array) (NL : List Nat)
    (t : REAL) (E : List edge) (hvalid : ∀ e ∈ E, validEdge NL e)
    (hcomplete : ∀ e, validEdge NL e → e ∈ E) (hsorted : E.Pairwise (sweepOrder fwd)) :
    IsBellman fwd lin mx NL t
      (E.foldl (fun d e => relaxTableIf fwd lin mx t e d) (freshTable fwd NL)) := by
  have h := sweep_all fwd lin mx NL t E [] _ (sweepInv_fresh fwd lin mx NL t) hvalid
    (by simpa using hsorted)
  simp only [List.nil_append] at h
  obtain ⟨h1, h2, h3, h4⟩ := h
  refine ⟨h1, h2, fun e he ha => h3 e (hcomplete e he) ha, ?_⟩
  intro n l hn hl hns
  rcases h4 n l hn hl hns with htop | ⟨e, _, hrest⟩
  · exact Or.inl htop
  · exact Or.inr ⟨e, trivial, hrest⟩


/-! ### `CalculateDistances` as a sweep -/

theorem foldl_flatMap_eq {α β γ : Type} (f : γ → β → γ) (g : α → List β) (L : List α) :
    ∀ s : γ, (L.flatMap g).foldl f s = L.foldl (fun s x => (g x).foldl f s) s := by
  induction L with
  | nil => intro s; rfl
  | cons a L ih =>
    intro s
    simp only [List.flatMap_cons, List.foldl_append, List.foldl_cons]
    exact ih _

theorem toAddEdge_unrestricted (s : shortest_distance_calculator) (h : Unrestricted s)
    (n1 l1 l2 : Nat) : s.ToAddEdge n1 l1 l2 = true := by
  unfold shortest_distance_calculator.ToAddEdge
  rw [if_pos (show s.useStartingNode = false ∧ s.useFixedLabel = false from h)]

theorem forwardStep_eq (t : REAL) (n1 l1 l2 : Nat) (s : shortest_distance_calculator)
    (h : Unrestricted s) :
    shortest_distance_calculator.forwardStep t n1 l1 l2 s =
      { s with distance := (relaxTableIf true s.LinearPairwisePotentials
          s.MaxPairwisePotentials t (edge.mk n1 l1 l2) s.distance) } := by
  unfold shortest_distance_calculator.forwardStep relaxTableIf relaxTable
  rw [toAddEdge_unrestricted s h]
  simp only [edgeDst, edgeSrc, tableAt, shortest_distance_calculator.GetDistance,
    shortest_distance_calculator.setDistance, if_true]
  by_cases hm : s.MaxPairwisePotentials.get n1 l1 l2 ≤ t
  · simp only [hm, if_true, gt_iff_lt, not_lt.mpr hm, Bool.true_eq_false, or_self, if_false]
    split_ifs with h1 h2 h2
    · exact absurd h2 (not_le.mpr h1)
    · rfl
    · rfl
    · exact absurd (not_lt.mp h1) h2
  · simp [hm, not_le.mp hm]

theorem backwardStep_eq (t : REAL) (n1 l1 l2 : Nat) (s : shortest_distance_calculator) :
    shortest_distance_calculator.backwardStep t n1 l1 l2 s =
      { s with distance := (relaxTableIf false s.LinearPairwisePotentials
          s.MaxPairwisePotentials t (edge.mk n1 l1 l2) s.distance) } := by
  unfold shortest_distance_calculator.backwardStep relaxTableIf relaxTable
  simp only [edgeDst, edgeSrc, tableAt, shortest_distance_calculator.GetDistance,
    shortest_distance_calculator.setDistance, Bool.false_eq_true, if_false]
  by_cases hm : s.MaxPairwisePotentials.get n1 l1 l2 ≤ t
  · simp only [hm, if_true, gt_iff_lt, not_lt.mpr hm, if_false]
    split_ifs with h1 h2 h2
    · exact absurd h2 (not_le.mpr h1)
    · rfl
    · rfl
    · exact absurd (not_lt.mp h1) h2
  · simp [hm, not_le.mp hm]

theorem fold_forwardStep (t : REAL) (L : List edge) :
    ∀ s : shortest_distance_calculator, Unrestricted s →
      L.foldl (fun s e => shortest_distance_calculator.forwardStep t e.n1 e.l1 e.l2 s) s =
        { s with distance := (L.foldl (fun d e => relaxTableIf true s.LinearPairwisePotentials
            s.MaxPairwisePotentials t e d) s.distance) } := by
  induction L with
  | nil => intro s _; rfl
  | cons e L ih =>
    intro s h
    simp only [List.foldl_cons]
    rw [forwardStep_eq t e.n1 e.l1 e.l2 s h]
    exact ih _ (by exact h)

theorem fold_backwardStep (t : REAL) (L : List edge) :
    ∀ s : shortest_distance_calculator,
      L.foldl (fun s e => shortest_distance_calculator.backwardStep t e.n1 e.l1 e.l2 s) s =
        { s with distance := (L.foldl (fun d e => relaxTableIf false s.LinearPairwisePotentials
            s.MaxPairwisePotentials t e d) s.distance) } := by
  induction L with
  | nil => intro s; rfl
  | cons e L ih =>
    intro s
    simp only [List.foldl_cons]
    rw [backwardStep_eq t e.n1 e.l1 e.l2 s]
    exact ih _

theorem calculateDistances_eq (t : REAL) (s0 : shortest_distance_calculator)
    (h : Unrestricted s0) :
    shortest_distance_calculator.CalculateDistances false t 0 0 s0 =
      { s0 with
        distance := ((sweepEdges s0.DoForward s0.NumLabels).foldl
          (fun d e => relaxTableIf s0.DoForward s0.LinearPairwisePotentials
            s0.MaxPairwisePotentials t e d) s0.init.distance)
        shortestPathDistance := (minElement
          (((sweepEdges s0.DoForward s0.NumLabels).foldl
            (fun d e => relaxTableIf s0.DoForward s0.LinearPairwisePotentials
              s0.MaxPairwisePotentials t e d) s0.init.distance).getD
            (sinkRow s0.DoForward s0.NumLabels.length) [])) } := by
  have hinit : Unrestricted s0.init := h
  unfold shortest_distance_calculator.CalculateDistances sweepEdges sinkRow
  cases hf : s0.DoForward
  · simp only [Bool.false_eq_true, if_false, Bool.false_and]
    have key := fold_backwardStep t
      ((List.range (s0.NumLabels.length - 1)).reverse.flatMap (fun n1 =>
        (shortest_distance_calculator.labelLoop false 0 (s0.NumLabels.getD n1 0)).flatMap
          (fun l1 => (List.range' 0 (s0.NumLabels.getD (n1 + 1) 0 - 0)).map
            (fun l2 => edge.mk n1 l1 l2)))) s0.init
    rw [foldl_flatMap_eq] at key
    simp only [foldl_flatMap_eq, List.foldl_map] at key
    rw [key]
    simp only [shortest_distance_calculator.init, foldl_flatMap_eq, List.foldl_map, hf]
  · simp only [if_true, Bool.false_and]
    have key := fold_forwardStep t
      ((List.range' 0 (s0.NumLabels.length - 1 - 0)).flatMap (fun n1 =>
        (shortest_distance_calculator.labelLoop false 0 (s0.NumLabels.getD n1 0)).flatMap
          (fun l1 => (List.range (s0.NumLabels.getD (n1 + 1) 0)).map
            (fun l2 => edge.mk n1 l1 l2)))) s0.init hinit
    rw [foldl_flatMap_eq] at key
    simp only [foldl_flatMap_eq, List.foldl_map] at key
    rw [key]
    simp only [shortest_distance_calculator.init, foldl_flatMap_eq, List.foldl_map, hf]


theorem mem_sweepEdges (fwd : Bool) (NL : List Nat) (e : edge) :
    e ∈ sweepEdges fwd NL ↔ validEdge NL e := by
  unfold sweepEdges validEdge shortest_distance_calculator.labelLoop
  cases fwd
  · simp only [Bool.false_eq_true, if_false, List.mem_flatMap, List.mem_reverse, List.mem_range,
      List.mem_range'_1, List.mem_map, Nat.sub_zero, Nat.zero_add, Nat.zero_le, true_and]
    constructor
    · rintro ⟨n1, hn1, l1, hl1, l2, hl2, rfl⟩
      exact ⟨by dsimp only; omega, hl1, hl2⟩
    · rintro ⟨h1, h2, h3⟩
      exact ⟨e.n1, by omega, e.l1, h2, e.l2, h3, rfl⟩
  · simp only [if_true, Bool.false_eq_true, if_false, List.mem_flatMap, List.mem_range,
      List.mem_range'_1, List.mem_map, Nat.sub_zero, Nat.zero_add, Nat.zero_le, true_and]
    constructor
    · rintro ⟨n1, hn1, l1, hl1, l2, hl2, rfl⟩
      exact ⟨by dsimp only; omega, hl1, hl2⟩
    · rintro ⟨h1, h2, h3⟩
      exact ⟨e.n1, by omega, e.l1, h2, e.l2, h3, rfl⟩

theorem pairwise_flatMap_key (R : Nat → Nat → Prop) (hrefl : ∀ a, R a a) (f : Nat → List edge)
    (hkey : ∀ a, ∀ e ∈ f a, e.n1 = a) (L : List Nat) (hL : L.Pairwise R) :
    (L.flatMap f).Pairwise (fun e e' => R e.n1 e'.n1) := by
  rw [List.pairwise_flatMap]
  constructor
  · intro a _
    apply List.pairwise_of_forall_mem_list
    intro x hx y hy
    rw [hkey a x hx, hkey a y hy]
    exact hrefl a
  · apply hL.imp
    intro a b hab x hx y hy
    rw [hkey a x hx, hkey b y hy]
    exact hab

theorem sorted_sweepEdges (fwd : Bool) (NL : List Nat) :
    (sweepEdges fwd NL).Pairwise (sweepOrder fwd) := by
  unfold sweepEdges
  cases fwd
  · simp only [Bool.false_eq_true, if_false]
    have h := pairwise_flatMap_key (fun a b => b ≤ a) (fun a => le_refl a)
      (fun n1 => (shortest_distance_calculator.labelLoop false 0 (NL.getD n1 0)).flatMap
        (fun l1 => (List.range' 0 (NL.getD (n1 + 1) 0 - 0)).map (fun l2 => edge.mk n1 l1 l2)))
      (by
        intro a e he
        simp only [List.mem_flatMap, List.mem_map] at he
        obtain ⟨_, _, _, _, rfl⟩ := he
        rfl)
      (List.range (NL.length - 1)).reverse
      (by rw [List.pairwise_reverse]; exact List.pairwise_le_range _)
    apply h.imp
    intro a b hab
    simpa [sweepOrder] using hab
  · simp only [if_true]
    have h := pairwise_flatMap_key (fun a b => a ≤ b) (fun a => le_refl a)
      (fun n1 => (shortest_distance_calculator.labelLoop false 0 (NL.getD n1 0)).flatMap
        (fun l1 => (List.range (NL.getD (n1 + 1) 0)).map (fun l2 => edge.mk n1 l1 l2)))
      (by
        intro a e he
        simp only [List.mem_flatMap, List.mem_map] at he
        obtain ⟨_, _, _, _, rfl⟩ := he
        rfl)
      (List.range' 0 (NL.length - 1 - 0))
      (List.pairwise_le_range' _ _)
    apply h.imp
    intro a b hab
    simpa [sweepOrder] using hab

theorem new_distance (fwd us uf : Bool) (lin mx : three_dimensional_variable_array)
    (NL : List Nat) (a b c : Nat) :
    (shortest_distance_calculator.new fwd us uf lin mx NL a b c).distance = freshTable fwd NL := by
  unfold shortest_distance_calculator.new shortest_distance_calculator.init freshTable sourceRow
  simp only [List.length_map]
  congr 2
  simp only [List.getD_eq_getElem?_getD, List.getElem?_map]
  cases NL[if fwd = true then 0 else NL.length - 1]? <;> simp

theorem init_freshTable (s : shortest_distance_calculator)
    (h : s.distance = freshTable s.DoForward s.NumLabels) :
    s.init.distance = freshTable s.DoForward s.NumLabels := by
  unfold shortest_distance_calculator.init
  simp only [h]
  have hlen : (freshTable s.DoForward s.NumLabels).length = s.NumLabels.length :=
    shape_length (shape_freshTable _ _)
  rw [hlen]
  have hrow := shape_row (shape_freshTable s.DoForward s.NumLabels)
    (sourceRow s.DoForward s.NumLabels.length)
  unfold sourceRow at hrow
  rw [hrow]
  unfold freshTable sourceRow
  rw [List.set_set]

/-- On a freshly constructed unrestricted engine, `CalculateDistances<false>(t, 0, 0)` leaves
the table that satisfies the Bellman conditions for threshold `t`, and the best distance is
the least entry of the sink row. -/
theorem calculateDistances_bellman (fwd : Bool) (lin mx : three_dimensional_variable_array)
    (NL : List Nat) (t : REAL) (a b c : Nat) :
    IsBellman fwd lin mx NL t
      (shortest_distance_calculator.CalculateDistances false t 0 0
        (shortest_distance_calculator.new fwd false false lin mx NL a b c)).distance ∧
    (shortest_distance_calculator.CalculateDistances false t 0 0
        (shortest_distance_calculator.new fwd false false lin mx NL a b c)).shortestPathDistance
      = minElement ((shortest_distance_calculator.CalculateDistances false t 0 0
          (shortest_distance_calculator.new fwd false false lin mx NL a b c)).distance.getD
          (sinkRow fwd NL.length) []) := by
  have hu : Unrestricted (shortest_distance_calculator.new fwd false false lin mx NL a b c) :=
    ⟨rfl, rfl⟩
  rw [calculateDistances_eq t _ hu]
  have hinit := init_freshTable (shortest_distance_calculator.new fwd false false lin mx NL a b c)
    (new_distance fwd false false lin mx NL a b c)
  refine ⟨?_, rfl⟩
  simp only [hinit]
  exact sweep_bellman fwd lin mx NL t (sweepEdges fwd NL)
    (fun e he => (mem_sweepEdges fwd NL e).1 he)
    (fun e he => (mem_sweepEdges fwd NL e).2 he) (sorted_sweepEdges fwd NL)


/-! ### Label sequences -/

theorem pathCost_snoc (lin : three_dimensional_variable_array) (p : List Nat) :
    ∀ (n a b : Nat), pathCost lin n (p ++ [a, b])
      = pathCost lin n (p ++ [a]) + lin.get (n + p.length) a b := by
  induction p with
  | nil =>
    intro n a b
    simp [pathCost]
  | cons c p ih =>
    intro n a b
    cases p with
    | nil => simp [pathCost]
    | cons c' p' =>
      have h := ih (n + 1) a b
      simp only [List.cons_append, List.length_cons] at h ⊢
      simp only [pathCost]
      have e1 : n + 1 + (p'.length + 1) = n + (p'.length + 1 + 1) := by omega
      rw [h, e1]
      exact (add_assoc _ _ _).symm

theorem pathOK_snoc (mx : three_dimensional_variable_array) (NL : List Nat) (t : REAL)
    (p : List Nat) :
    ∀ (n a b : Nat), pathOK mx NL t n (p ++ [a, b]) ↔
      (pathOK mx NL t n (p ++ [a]) ∧ mx.get (n + p.length) a b ≤ t ∧
        b < NL.getD (n + p.length + 1) 0) := by
  induction p with
  | nil =>
    intro n a b
    simp [pathOK]
  | cons c p ih =>
    intro n a b
    cases p with
    | nil =>
      simp only [List.cons_append, List.nil_append, pathOK, List.length_cons, List.length_nil,
        Nat.zero_add]
      tauto
    | cons c' p' =>
      have h := ih (n + 1) a b
      simp only [List.cons_append, List.length_cons] at h ⊢
      simp only [pathOK]
      rw [h]
      have e1 : n + 1 + (p'.length + 1) = n + (p'.length + 1 + 1) := by omega
      rw [e1]
      tauto

theorem pathOK_last (mx : three_dimensional_variable_array) (NL : List Nat) (t : REAL)
    (p : List Nat) :
    ∀ (n a : Nat), pathOK mx NL t n (p ++ [a]) → a < NL.getD (n + p.length) 0 := by
  induction p with
  | nil =>
    intro n a h
    simpa [pathOK] using h
  | cons c p ih =>
    intro n a h
    cases p with
    | nil =>
      simp only [List.cons_append, List.nil_append, pathOK] at h
      simpa using h.2.2
    | cons c' p' =>
      simp only [List.cons_append, pathOK] at h
      have := ih (n + 1) a (by simpa using h.2.2)
      simp only [List.length_cons] at this ⊢
      have e1 : n + 1 + (p'.length + 1) = n + (p'.length + 1 + 1) := by omega
      rw [← e1]
      exact this

theorem eq_nil_or_snoc {α : Type} (l : List α) : l = [] ∨ ∃ l0 a, l = l0 ++ [a] := by
  rcases List.eq_nil_or_concat l with h | ⟨l0, a, h⟩
  · exact Or.inl h
  · exact Or.inr ⟨l0, a, by rw [h, List.concat_eq_append]⟩

theorem isLabelPath_snoc (mx : three_dimensional_variable_array) (NL : List Nat) (t : REAL)
    (n l : Nat) (p : List Nat) (h : IsLabelPath mx NL t n l p) :
    ∃ p0, p = p0 ++ [l] ∧ p0.length = n := by
  obtain ⟨hlen, hlast, _⟩ := h
  rcases eq_nil_or_snoc p with rfl | ⟨p0, c, rfl⟩
  · simp at hlen
  · rw [List.getLast?_concat] at hlast
    cases hlast
    exact ⟨p0, rfl, by simpa using hlen⟩

theorem isLabelPath_extend (mx : three_dimensional_variable_array) (NL : List Nat) (t : REAL)
    (n a l : Nat) (p : List Nat) (h : IsLabelPath mx NL t n a p)
    (hadm : mx.get n a l ≤ t) (hl : l < NL.getD (n + 1) 0) :
    IsLabelPath mx NL t (n + 1) l (p ++ [l]) := by
  obtain ⟨p0, rfl, hp0⟩ := isLabelPath_snoc mx NL t n a p h
  refine ⟨by simp [hp0], by rw [List.getLast?_concat], ?_⟩
  have := (pathOK_snoc mx NL t p0 0 a l).2 ⟨h.2.2, by simpa [hp0] using hadm,
    by simpa [hp0] using hl⟩
  simpa using this

theorem pathCost_extend (lin mx : three_dimensional_variable_array) (NL : List Nat) (t : REAL)
    (n a l : Nat) (p : List Nat) (h : IsLabelPath mx NL t n a p) :
    pathCost lin 0 (p ++ [l]) = pathCost lin 0 p + lin.get n a l := by
  obtain ⟨p0, rfl, hp0⟩ := isLabelPath_snoc mx NL t n a p h
  have := pathCost_snoc lin p0 0 a l
  simpa [hp0] using this

theorem isLabelPath_split (mx : three_dimensional_variable_array) (NL : List Nat) (t : REAL)
    (n l : Nat) (q : List Nat) (h : IsLabelPath mx NL t (n + 1) l q) :
    ∃ p a, q = p ++ [l] ∧ IsLabelPath mx NL t n a p ∧ a < NL.getD n 0 ∧
      mx.get n a l ≤ t ∧ l < NL.getD (n + 1) 0 := by
  obtain ⟨q0, rfl, hq0⟩ := isLabelPath_snoc mx NL t (n + 1) l q h
  rcases eq_nil_or_snoc q0 with rfl | ⟨p0, a, rfl⟩
  · simp at hq0
  · have hp0 : p0.length = n := by simpa using hq0
    have hok := h.2.2
    rw [List.append_assoc] at hok
    have hsplit := (pathOK_snoc mx NL t p0 0 a l).1 (by simpa using hok)
    refine ⟨p0 ++ [a], a, rfl, ⟨by simp [hp0], by rw [List.getLast?_concat], hsplit.1⟩, ?_,
      by simpa [hp0] using hsplit.2.1, by simpa [hp0] using hsplit.2.2⟩
    have := pathOK_last mx NL t p0 0 a hsplit.1
    simpa [hp0] using this

/-- A forward table that satisfies the Bellman conditions holds, at every entry, the least
Linear cost of an admissible label sequence ending there. -/
theorem bellman_least (lin mx : three_dimensional_variable_array) (NL : List Nat) (t : REAL)
    (d : List (List REAL)) (hb : IsBellman true lin mx NL t d) :
    ∀ n l, n < NL.length → l < NL.getD n 0 →
      IsLeastPathCost lin mx NL t n l (tableAt d (n, l)) := by
  obtain ⟨_, hsrc, hrel, hatt⟩ := hb
  intro n
  induction n with
  | zero =>
    intro l _ hl
    have h0 : tableAt d (0, l) = 0 := by
      have := hsrc l (by simpa [sourceRow] using hl)
      simpa [sourceRow] using this
    rw [h0]
    refine ⟨?_, Or.inl ⟨[l], ⟨rfl, rfl, by simpa [pathOK] using hl⟩, by simp [pathCost]⟩⟩
    intro p hp
    obtain ⟨p0, rfl, hp0⟩ := isLabelPath_snoc mx NL t 0 l p hp
    have : p0 = [] := List.length_eq_zero.1 hp0
    subst this
    simp [pathCost]
  | succ n ih =>
    intro l hn hl
    have hlow : ∀ q, IsLabelPath mx NL t (n + 1) l q → tableAt d (n + 1, l) ≤ pathCost lin 0 q := by
      intro q hq
      obtain ⟨p, a, rfl, hp, ha, hadm, _⟩ := isLabelPath_split mx NL t n l q hq
      rw [pathCost_extend lin mx NL t n a l p hp]
      have hr := hrel (edge.mk n a l) ⟨hn, ha, hl⟩ hadm
      unfold Relaxed at hr
      simp only [edgeDst, edgeSrc, if_true] at hr
      exact le_trans hr (add_le_add_right ((ih a (by omega) ha).1 p hp) _)
    refine ⟨hlow, ?_⟩
    by_cases hex : ∃ q, IsLabelPath mx NL t (n + 1) l q
    · left
      obtain ⟨q, hq⟩ := hex
      have viaTop : tableAt d (n + 1, l) = REAL_MAX →
          ∃ p, IsLabelPath mx NL t (n + 1) l p ∧ pathCost lin 0 p = tableAt d (n + 1, l) := by
        intro htop
        refine ⟨q, hq, ?_⟩
        have := hlow q hq
        rw [htop] at this ⊢
        exact top_le_iff.1 this
      rcases hatt (n + 1) l hn hl (by simp [sourceRow]) with htop | ⟨e, _, hv, hadm, hdst, hval⟩
      · exact viaTop htop
      · obtain ⟨en, el1, el2⟩ := e
        simp only [edgeDst, if_true, Prod.mk.injEq, Nat.add_right_cancel_iff] at hdst
        obtain ⟨rfl, rfl⟩ := hdst
        simp only [edgeSrc, if_true] at hval
        rcases (ih el1 (by omega) hv.2.1).2 with ⟨p, hp, hcost⟩ | ⟨htop, _⟩
        · refine ⟨p ++ [el2], isLabelPath_extend mx NL t en el1 el2 p hp hadm hl, ?_⟩
          rw [pathCost_extend lin mx NL t en el1 el2 p hp, hcost, hval]
        · apply viaTop
          rw [hval, htop]
          exact top_add _
    · right
      refine ⟨?_, fun q hq => hex ⟨q, hq⟩⟩
      rcases hatt (n + 1) l hn hl (by simp [sourceRow]) with htop | ⟨e, _, hv, hadm, hdst, hval⟩
      · exact htop
      · obtain ⟨en, el1, el2⟩ := e
        simp only [edgeDst, if_true, Prod.mk.injEq, Nat.add_right_cancel_iff] at hdst
        obtain ⟨rfl, rfl⟩ := hdst
        simp only [edgeSrc, if_true] at hval
        rcases (ih el1 (by omega) hv.2.1).2 with ⟨p, hp, _⟩ | ⟨htop, _⟩
        · exact absurd ⟨p ++ [el2], isLabelPath_extend mx NL t en el1 el2 p hp hadm hl⟩ hex
        · rw [hval, htop]
          exact top_add _


/-! ### Minimum over label sequences and threshold monotonicity -/

theorem mem_row_iff (row : List REAL) (x : REAL) :
    x ∈ row ↔ ∃ l, l < row.length ∧ row.getD l REAL_MAX = x := by
  constructor
  · intro hx
    obtain ⟨l, hl, rfl⟩ := List.getElem_of_mem hx
    exact ⟨l, hl, by simp [List.getD_eq_getElem?_getD, hl]⟩
  · rintro ⟨l, hl, rfl⟩
    simp only [List.getD_eq_getElem?_getD, hl, List.getElem?_eq_getElem, Option.getD_some]
    exact List.getElem_mem hl

theorem minElement_attained (row : List REAL) (h : 0 < row.length) :
    ∃ l, l < row.length ∧ minElement row = row.getD l REAL_MAX := by
  rcases minElement_mem row with htop | hmem
  · refine ⟨0, h, ?_⟩
    have h0 : row.getD 0 REAL_MAX ∈ row := (mem_row_iff row _).2 ⟨0, h, rfl⟩
    have := minElement_le row _ h0
    rw [htop] at this ⊢
    exact (top_le_iff.1 this).symm
  · obtain ⟨l, hl, hx⟩ := (mem_row_iff row _).1 hmem
    exact ⟨l, hl, hx.symm⟩

theorem minElement_mono (r1 r2 : List REAL) (hlen : r1.length = r2.length)
    (h : ∀ l, l < r1.length → r2.getD l REAL_MAX ≤ r1.getD l REAL_MAX) :
    minElement r2 ≤ minElement r1 := by
  rcases minElement_mem r1 with htop | hmem
  · rw [htop]; exact le_top
  · obtain ⟨l, hl, hx⟩ := (mem_row_iff r1 _).1 hmem
    rw [← hx]
    exact le_trans (minElement_le r2 _ ((mem_row_iff r2 _).2 ⟨l, by omega, rfl⟩)) (h l hl)

/-- C2: after `CalculateDistances(t)` with default start arguments on a freshly constructed
forward, unrestricted engine, every entry `distance[n][l]` is the minimum, over the label
sequences `l_0 .. l_n` ending in `l` whose every edge has Max cost at most `t`, of the sum
of the Linear costs of their edges (`REAL_MAX` when there is no such sequence), and
`ShortestDistance()` is the least entry of the last node's row. The last node is assumed to
have at least one label. -/
theorem C2_calculateDistances_least_cost (lin mx : three_dimensional_variable_array)
    (NL : List Nat) (t : REAL) (hlast : 0 < NL.getD (NL.length - 1) 0) :
    (∀ n l, n < NL.length → l < NL.getD n 0 →
      IsLeastPathCost lin mx NL t n l
        ((shortest_distance_calculator.CalculateDistances false t 0 0
          (shortest_distance_calculator.new true false false lin mx NL 0 0 0)).GetDistance n l)) ∧
    (∀ l, l < NL.getD (NL.length - 1) 0 →
      (shortest_distance_calculator.CalculateDistances false t 0 0
          (shortest_distance_calculator.new true false false lin mx NL 0 0 0)).ShortestDistance
        ≤ (shortest_distance_calculator.CalculateDistances false t 0 0
          (shortest_distance_calculator.new true false false lin mx NL 0 0 0)).GetDistance
            (NL.length - 1) l) ∧
    (∃ l, l < NL.getD (NL.length - 1) 0 ∧
      (shortest_distance_calculator.CalculateDistances false t 0 0
          (shortest_distance_calculator.new true false false lin mx NL 0 0 0)).ShortestDistance
        = (shortest_distance_calculator.CalculateDistances false t 0 0
          (shortest_distance_calculator.new true false false lin mx NL 0 0 0)).GetDistance
            (NL.length - 1) l) := by
  obtain ⟨hb, hspd⟩ := calculateDistances_bellman true lin mx NL t 0 0 0
  have hrow := shape_row hb.1 (NL.length - 1)
  simp only [sinkRow, if_true] at hspd
  unfold shortest_distance_calculator.ShortestDistance shortest_distance_calculator.GetDistance
  refine ⟨fun n l hn hl => bellman_least lin mx NL t _ hb n l hn hl, ?_, ?_⟩
  · intro l hl
    rw [hspd]
    exact minElement_le _ _ ((mem_row_iff _ _).2 ⟨l, by rw [hrow]; exact hl, rfl⟩)
  · obtain ⟨l, hl, hval⟩ := minElement_attained _ (by rw [hrow]; exact hlast)
    exact ⟨l, by rw [← hrow]; exact hl, by rw [hspd, hval]; rfl⟩

/-- Witness for C2 on the three-node example chain of the specification. -/
theorem C2_calculateDistances_least_cost_witness :
    0 < ([1, 2, 1] : List Nat).getD (([1, 2, 1] : List Nat).length - 1) 0 ∧
    ((∀ n l, n < ([1, 2, 1] : List Nat).length → l < ([1, 2, 1] : List Nat).getD n 0 →
      IsLeastPathCost exampleLinear exampleMax [1, 2, 1] 0 n l
        ((shortest_distance_calculator.CalculateDistances false 0 0 0
          (shortest_distance_calculator.new true false false exampleLinear exampleMax
            [1, 2, 1] 0 0 0)).GetDistance n l)) ∧
    (∀ l, l < ([1, 2, 1] : List Nat).getD (([1, 2, 1] : List Nat).length - 1) 0 →
      (shortest_distance_calculator.CalculateDistances false 0 0 0
          (shortest_distance_calculator.new true false false exampleLinear exampleMax
            [1, 2, 1] 0 0 0)).ShortestDistance
        ≤ (shortest_distance_calculator.CalculateDistances false 0 0 0
          (shortest_distance_calculator.new true false false exampleLinear exampleMax
            [1, 2, 1] 0 0 0)).GetDistance (([1, 2, 1] : List Nat).length - 1) l) ∧
    (∃ l, l < ([1, 2, 1] : List Nat).getD (([1, 2, 1] : List Nat).length - 1) 0 ∧
      (shortest_distance_calculator.CalculateDistances false 0 0 0
          (shortest_distance_calculator.new true false false exampleLinear exampleMax
            [1, 2, 1] 0 0 0)).ShortestDistance
        = (shortest_distance_calculator.CalculateDistances false 0 0 0
          (shortest_distance_calculator.new true false false exampleLinear exampleMax
            [1, 2, 1] 0 0 0)).GetDistance (([1, 2, 1] : List Nat).length - 1) l)) :=
  ⟨by decide, C2_calculateDistances_least_cost exampleLinear exampleMax [1, 2, 1] 0 (by decide)⟩

/-- C4: for thresholds `t1 ≤ t2`, `ShortestDistance()` after `CalculateDistances(t1)` is at
least its value after `CalculateDistances(t2)`, each on a freshly constructed unrestricted
engine (of either direction) over the same potentials. -/
theorem C4_threshold_monotone (fwd : Bool) (lin mx : three_dimensional_variable_array)
    (NL : List Nat) (t1 t2 : REAL) (ht : t1 ≤ t2) :
    (shortest_distance_calculator.CalculateDistances false t2 0 0
        (shortest_distance_calculator.new fwd false false lin mx NL 0 0 0)).ShortestDistance
      ≤ (shortest_distance_calculator.CalculateDistances false t1 0 0
        (shortest_distance_calculator.new fwd false false lin mx NL 0 0 0)).ShortestDistance := by
  obtain ⟨hb1, hspd1⟩ := calculateDistances_bellman fwd lin mx NL t1 0 0 0
  obtain ⟨hb2, hspd2⟩ := calculateDistances_bellman fwd lin mx NL t2 0 0 0
  unfold shortest_distance_calculator.ShortestDistance
  rw [hspd1, hspd2]
  have hr1 := shape_row hb1.1 (sinkRow fwd NL.length)
  have hr2 := shape_row hb2.1 (sinkRow fwd NL.length)
  apply minElement_mono _ _ (by rw [hr1, hr2])
  intro l hl
  rw [hr1] at hl
  have hn : sinkRow fwd NL.length < NL.length := by
    by_contra hcon
    have : NL.getD (sinkRow fwd NL.length) 0 = 0 := by
      simp [List.getD_eq_getElem?_getD, List.getElem?_eq_none (not_lt.mp hcon)]
    omega
  exact bellman_mono fwd lin mx NL t1 t2 _ _ ht hb1 hb2 _ _ l rfl hn hl

/-- Witness for C4 on the three-node example chain, thresholds `0 ≤ 1`, backward engine. -/
theorem C4_threshold_monotone_witness :
    (0 : REAL) ≤ 1 ∧
    (shortest_distance_calculator.CalculateDistances false 1 0 0
        (shortest_distance_calculator.new false false false exampleLinear exampleMax
          [1, 2, 1] 0 0 0)).ShortestDistance
      ≤ (shortest_distance_calculator.CalculateDistances false 0 0 0
        (shortest_distance_calculator.new false false false exampleLinear exampleMax
          [1, 2, 1] 0 0 0)).ShortestDistance :=
  ⟨by decide, C4_threshold_monotone false exampleLinear exampleMax [1, 2, 1] 0 1 (by decide)⟩


/-! ### One iteration of the worklist loop -/

theorem processEdge_cases (cu : Bool) (t : REAL) (e : edge) (s : shortest_distance_calculator) :
    (Relaxed s.DoForward s.LinearPairwisePotentials s.distance e ∧
      shortest_distance_calculator.processEdge cu t e s = (s, [], [])) ∨
    (¬ Relaxed s.DoForward s.LinearPairwisePotentials s.distance e ∧ reachesSink s e ∧
      shortest_distance_calculator.processEdge cu t e s =
        ({ s with
            distance := (relaxTable s.DoForward s.LinearPairwisePotentials e s.distance)
            shortestPathDistance := (min s.shortestPathDistance
              (tableAt s.distance (edgeSrc s.DoForward e)
                + s.LinearPairwisePotentials.get e.n1 e.l1 e.l2)) }, [], [])) ∨
    (¬ Relaxed s.DoForward s.LinearPairwisePotentials s.distance e ∧ ¬ reachesSink s e ∧
      shortest_distance_calculator.processEdge cu t e s =
        ({ s with distance := (relaxTable s.DoForward s.LinearPairwisePotentials e s.distance) },
          (if cu = true then [edgeDst s.DoForward e] else []),
          shortest_distance_calculator.pushChildren t (edgeDst s.DoForward e).1
            (edgeDst s.DoForward e).2 s)) := by
  unfold shortest_distance_calculator.processEdge Relaxed reachesSink relaxTable
  simp only [shortest_distance_calculator.GetDistance, shortest_distance_calculator.setDistance,
    tableAt, edgeSrc, edgeDst]
  cases hf : s.DoForward
  · simp only [Bool.false_eq_true, if_false, false_and, false_or, true_and]
    by_cases h1 : tableGet s.distance e.n1 e.l1
        ≤ tableGet s.distance (e.n1 + 1) e.l2 + s.LinearPairwisePotentials.get e.n1 e.l1 e.l2
    · left
      exact ⟨h1, by simp only [if_pos h1]⟩
    · right
      by_cases h2 : e.n1 = 0
      · left
        exact ⟨h1, h2, by simp only [if_neg h1, if_pos h2, hf]⟩
      · right
        exact ⟨h1, h2, by simp only [if_neg h1, if_neg h2, hf]⟩
  · simp only [if_true, Bool.true_eq_false, false_and, or_false, true_and]
    by_cases h1 : tableGet s.distance (e.n1 + 1) e.l2
        ≤ tableGet s.distance e.n1 e.l1 + s.LinearPairwisePotentials.get e.n1 e.l1 e.l2
    · left
      exact ⟨h1, by simp only [if_pos h1]⟩
    · right
      by_cases h2 : e.n1 + 1 = s.LinearPairwisePotentials.dim1
      · left
        exact ⟨h1, h2, by simp only [if_neg h1, if_pos h2, hf]⟩
      · right
        exact ⟨h1, h2, by simp only [if_neg h1, if_neg h2, hf]⟩

theorem getD_le_sum (NL : List Nat) (i : Nat) : NL.getD i 0 ≤ NL.sum := by
  induction NL generalizing i with
  | nil => simp
  | cons a NL ih =>
    cases i with
    | zero => simp
    | succ i =>
      have := ih i
      simp only [List.getD_cons_succ, List.sum_cons]
      omega

theorem pushChildren_length (t : REAL) (nn nl : Nat) (s : shortest_distance_calculator) :
    (shortest_distance_calculator.pushChildren t nn nl s).length ≤ s.NumLabels.sum := by
  unfold shortest_distance_calculator.pushChildren
  exact le_trans (List.length_filterMap_le _ _) (by simpa using getD_le_sum _ _)

theorem mem_pushChildren (t : REAL) (nn nl : Nat) (s : shortest_distance_calculator) (c : edge) :
    c ∈ shortest_distance_calculator.pushChildren t nn nl s ↔
      (s.DoForward = true ∧ c.n1 = nn ∧ c.l1 = nl ∧ c.l2 < s.NumLabels.getD (nn + 1) 0 ∧
        s.MaxPairwisePotentials.get c.n1 c.l1 c.l2 ≤ t ∧ s.ToAddEdge c.n1 c.l1 c.l2 = true) ∨
      (s.DoForward = false ∧ c.n1 = nn - 1 ∧ c.l2 = nl ∧ c.l1 < s.NumLabels.getD (nn - 1) 0 ∧
        s.MaxPairwisePotentials.get c.n1 c.l1 c.l2 ≤ t ∧ s.ToAddEdge c.n1 c.l1 c.l2 = true) := by
  unfold shortest_distance_calculator.pushChildren
  obtain ⟨c1, c2, c3⟩ := c
  cases hf : s.DoForward
  · simp only [Bool.false_eq_true, if_false, false_and, true_and, false_or, List.mem_filterMap,
      List.mem_range]
    constructor
    · rintro ⟨cl, hcl, h⟩
      split_ifs at h with hc
      cases h
      exact ⟨rfl, rfl, hcl, hc.1, hc.2⟩
    · rintro ⟨h1, h2, h3, h4, h5⟩
      subst h1 h2
      exact ⟨c2, h3, by rw [if_pos ⟨h4, h5⟩]⟩
  · simp only [if_true, true_and, Bool.true_eq_false, false_and, or_false, List.mem_filterMap,
      List.mem_range, if_false]
    constructor
    · rintro ⟨cl, hcl, h⟩
      split_ifs at h with hc
      cases h
      exact ⟨rfl, rfl, hcl, hc.1, hc.2⟩
    · rintro ⟨h1, h2, h3, h4, h5⟩
      subst h1 h2
      exact ⟨c3, h3, by rw [if_pos ⟨h4, h5⟩]⟩

theorem sum_map_le_mul (w : edge → Nat) (k b : Nat) (L : List edge) (hk : L.length ≤ k)
    (hw : ∀ c ∈ L, w c ≤ b) : (L.map w).sum ≤ k * b := by
  induction L generalizing k with
  | nil => simp
  | cons c L ih =>
    cases k with
    | zero => simp at hk
    | succ k =>
      have h1 := ih k (by simpa using hk) (fun c' hc' => hw c' (by simp [hc']))
      have h2 := hw c (by simp)
      simp only [List.map_cons, List.sum_cons]
      rw [Nat.succ_mul]
      omega

theorem pushChildren_weight (fwd : Bool) (NL : List Nat) (t : REAL) (e : edge)
    (s : shortest_distance_calculator) (hf : s.DoForward = fwd) (hNL : s.NumLabels = NL)
    (hsink : fwd = false → e.n1 ≠ 0) :
    queueWeight fwd NL (shortest_distance_calculator.pushChildren t (edgeDst fwd e).1
      (edgeDst fwd e).2 s) + 1 ≤ edgeWeight fwd NL e := by
  have hbase : 1 ≤ NL.sum + 1 := by omega
  have hlen := pushChildren_length t (edgeDst fwd e).1 (edgeDst fwd e).2 s
  rw [hNL] at hlen
  unfold queueWeight
  cases fwd
  · have hn : e.n1 ≠ 0 := hsink rfl
    have hw := sum_map_le_mul (edgeWeight false NL) NL.sum ((NL.sum + 1) ^ e.n1) _ hlen (by
      intro c hc
      rw [mem_pushChildren] at hc
      rcases hc with ⟨h, _⟩ | ⟨_, h, _⟩
      · rw [hf] at h; cases h
      · unfold edgeWeight
        simp only [Bool.false_eq_true, if_false]
        apply Nat.pow_le_pow_right hbase
        simp only [edgeDst, Bool.false_eq_true, if_false] at h
        omega)
    have hE : edgeWeight false NL e = (NL.sum + 1) ^ (e.n1 + 1) := by
      simp [edgeWeight]
    have hp : 1 ≤ (NL.sum + 1) ^ e.n1 := Nat.one_le_pow _ _ (by omega)
    have hpow : (NL.sum + 1) ^ (e.n1 + 1) = NL.sum * (NL.sum + 1) ^ e.n1 + (NL.sum + 1) ^ e.n1 := by
      ring
    rw [hE, hpow]
    omega
  · by_cases hc : e.n1 + 1 + 1 < NL.length
    · have hw := sum_map_le_mul (edgeWeight true NL) NL.sum
        ((NL.sum + 1) ^ (NL.length - e.n1 - 1)) _ hlen (by
        intro c hc
        rw [mem_pushChildren] at hc
        rcases hc with ⟨_, h, _⟩ | ⟨h, _⟩
        · unfold edgeWeight
          simp only [if_true]
          apply Nat.pow_le_pow_right hbase
          simp only [edgeDst, if_true] at h
          omega
        · rw [hf] at h; cases h)
      have hexp : NL.length - e.n1 = (NL.length - e.n1 - 1) + 1 := by omega
      have hE : edgeWeight true NL e = (NL.sum + 1) ^ ((NL.length - e.n1 - 1) + 1) := by
        rw [← hexp]
        simp [edgeWeight]
      have hp : 1 ≤ (NL.sum + 1) ^ (NL.length - e.n1 - 1) := Nat.one_le_pow _ _ (by omega)
      have hpow : (NL.sum + 1) ^ ((NL.length - e.n1 - 1) + 1)
          = NL.sum * (NL.sum + 1) ^ (NL.length - e.n1 - 1)
            + (NL.sum + 1) ^ (NL.length - e.n1 - 1) := by ring
      rw [hE, hpow]
      omega
    · have hnil : shortest_distance_calculator.pushChildren t (edgeDst true e).1
          (edgeDst true e).2 s = [] := by
        apply List.eq_nil_iff_forall_not_mem.2
        intro c hc
        rw [mem_pushChildren] at hc
        rcases hc with ⟨_, _, _, h, _⟩ | ⟨h, _⟩
        · simp only [edgeDst, if_true, hNL] at h
          have hz : NL.getD (e.n1 + 1 + 1) 0 = 0 := by
            simp [List.getD_eq_getElem?_getD, List.getElem?_eq_none (not_lt.mp hc)]
          omega
        · rw [hf] at h; cases h
      rw [hnil]
      simp only [List.map_nil, List.sum_nil, Nat.zero_add]
      unfold edgeWeight
      exact Nat.one_le_pow _ _ (by omega)

theorem lt_getD_length (NL : List Nat) (i l : Nat) (h : l < NL.getD i 0) : i < NL.length := by
  by_contra hcon
  have : NL.getD i 0 = 0 := by
    simp [List.getD_eq_getElem?_getD, List.getElem?_eq_none (not_lt.mp hcon)]
  omega

theorem minElement_eq_of (row : List REAL) (m : REAL) (hle : ∀ x ∈ row, m ≤ x)
    (hmem : m = REAL_MAX ∨ m ∈ row) : minElement row = m := by
  apply le_antisymm
  · rcases hmem with h | h
    · rw [h]; exact le_top
    · exact minElement_le row m h
  · rcases minElement_mem row with h | h
    · rw [h]; exact le_top
    · exact hle _ h

theorem mem_tableRow (d : List (List REAL)) (n : Nat) (x : REAL) :
    x ∈ d.getD n [] ↔ ∃ l, l < (d.getD n []).length ∧ tableAt d (n, l) = x :=
  mem_row_iff (d.getD n []) x

theorem relaxTable_row_ne (fwd : Bool) (lin : three_dimensional_variable_array) (e : edge)
    (d : List (List REAL)) (n : Nat) (h : n ≠ (edgeDst fwd e).1) :
    (relaxTable fwd lin e d).getD n [] = d.getD n [] := by
  unfold relaxTable
  split_ifs
  · rfl
  · unfold tableSet
    simp only [List.getD_eq_getElem?_getD]
    rw [List.getElem?_set_ne (Ne.symm h)]

theorem validEdge_src_ne_sink (fwd : Bool) (NL : List Nat) (e : edge) (he : validEdge NL e) :
    (edgeSrc fwd e).1 ≠ sinkRow fwd NL.length := by
  obtain ⟨h1, _, _⟩ := he
  unfold edgeSrc sinkRow
  cases fwd
  · simp only [Bool.false_eq_true, if_false]
    omega
  · simp only [if_true]
    omega

theorem reachesSink_iff (fwd : Bool) (NL : List Nat) (s : shortest_distance_calculator)
    (e : edge) (hf : s.DoForward = fwd) (hdim : s.LinearPairwisePotentials.dim1 + 1 = NL.length)
    (he : validEdge NL e) : reachesSink s e ↔ (edgeDst fwd e).1 = sinkRow fwd NL.length := by
  obtain ⟨h1, _, _⟩ := he
  unfold reachesSink edgeDst sinkRow
  rw [hf]
  cases fwd
  · simp
  · simp only [if_true, true_and, Bool.true_eq_false, false_and, or_false]
    omega

theorem relax_best_sink (fwd : Bool) (lin : three_dimensional_variable_array) (NL : List Nat)
    (e : edge) (d : List (List REAL)) (he : validEdge NL e) (hd : d.map List.length = NL)
    (hsink : (edgeDst fwd e).1 = sinkRow fwd NL.length) :
    minElement ((relaxTable fwd lin e d).getD (sinkRow fwd NL.length) [])
      = min (minElement (d.getD (sinkRow fwd NL.length) []))
          (tableAt d (edgeSrc fwd e) + lin.get e.n1 e.l1 e.l2) := by
  have hat := relaxTable_at fwd lin NL e d he hd
  have hshape' : (relaxTable fwd lin e d).map List.length = NL := by
    rw [shape_relaxTable]; exact hd
  have hlen' := shape_row hshape' (sinkRow fwd NL.length)
  have hlen := shape_row hd (sinkRow fwd NL.length)
  obtain ⟨_, _, _, _, hdl⟩ := level_edge fwd NL e he
  have hdst : edgeDst fwd e = (sinkRow fwd NL.length, (edgeDst fwd e).2) := by
    rw [← hsink]
  have hminle : ∀ l, l < NL.getD (sinkRow fwd NL.length) 0 →
      minElement (d.getD (sinkRow fwd NL.length) []) ≤ tableAt d (sinkRow fwd NL.length, l) := by
    intro l hl
    exact minElement_le _ _ ((mem_tableRow d _ _).2 ⟨l, by rw [hlen]; exact hl, rfl⟩)
  apply minElement_eq_of
  · intro x hx
    obtain ⟨l, hl, rfl⟩ := (mem_tableRow _ _ _).1 hx
    rw [hlen'] at hl
    rw [hat]
    split_ifs with hx
    · rw [← hx]
      exact min_le_min (hminle l hl) le_rfl
    · exact le_trans (min_le_left _ _) (hminle l hl)
  · rcases le_total (minElement (d.getD (sinkRow fwd NL.length) []))
        (tableAt d (edgeSrc fwd e) + lin.get e.n1 e.l1 e.l2) with hc | hc
    · rw [min_eq_left hc]
      rcases minElement_mem (d.getD (sinkRow fwd NL.length) []) with htop | hmem
      · exact Or.inl htop
      · right
        obtain ⟨l, hl, hval⟩ := (mem_tableRow _ _ _).1 hmem
        rw [hlen] at hl
        refine (mem_tableRow _ _ _).2 ⟨l, by rw [hlen']; exact hl, ?_⟩
        rw [hat]
        split_ifs with hx
        · rw [← hx, hval, min_eq_left hc]
        · exact hval
    · rw [min_eq_right hc]
      right
      rw [hsink] at hdl
      refine (mem_tableRow _ _ _).2 ⟨(edgeDst fwd e).2, by rw [hlen']; exact hdl, ?_⟩
      rw [← hdst, hat, if_pos rfl]
      apply min_eq_right
      rw [hdst]
      exact le_trans hc (hminle _ hdl)


theorem edgeWeight_pos (fwd : Bool) (NL : List Nat) (e : edge) : 1 ≤ edgeWeight fwd NL e := by
  unfold edgeWeight
  exact Nat.one_le_pow _ _ (by omega)

theorem queueWeight_append (fwd : Bool) (NL : List Nat) (q1 q2 : List edge) :
    queueWeight fwd NL (q1 ++ q2) = queueWeight fwd NL q1 + queueWeight fwd NL q2 := by
  simp [queueWeight]

theorem queueWeight_cons (fwd : Bool) (NL : List Nat) (e : edge) (q : List edge) :
    queueWeight fwd NL (e :: q) = edgeWeight fwd NL e + queueWeight fwd NL q := by
  simp [queueWeight]

/-- Relaxing an admissible edge of the chain keeps the worklist invariant, provided the
edges leaving the relaxed entry are queued afterwards. -/
theorem relax_keeps_inv (fwd : Bool) (lin mx : three_dimensional_variable_array)
    (NL : List Nat) (t : REAL) (Bref : List (List REAL)) (A q q' : List edge) (e : edge)
    (s s' : shortest_distance_calculator)
    (hB : IsBellman fwd lin mx NL t Bref)
    (hA : ∀ e ∈ A, validEdge NL e ∧ mx.get e.n1 e.l1 e.l2 ≤ t)
    (h : WorklistInv fwd lin mx NL t Bref A (e :: q) s)
    (hcfg : s'.DoForward = s.DoForward ∧ s'.LinearPairwisePotentials = s.LinearPairwisePotentials ∧
      s'.MaxPairwisePotentials = s.MaxPairwisePotentials ∧ s'.NumLabels = s.NumLabels ∧
      s'.useStartingNode = s.useStartingNode ∧ s'.useFixedLabel = s.useFixedLabel)
    (hdist : s'.distance = relaxTable fwd lin e s.distance)
    (hbest : s'.shortestPathDistance = minElement (s'.distance.getD (sinkRow fwd NL.length) []))
    (hq' : ∀ c ∈ q', validEdge NL c ∧ mx.get c.n1 c.l1 c.l2 ≤ t)
    (hchildren : ¬ Relaxed fwd lin s.distance e →
      ∀ e', validEdge NL e' → mx.get e'.n1 e'.l1 e'.l2 ≤ t → edgeSrc fwd e' = edgeDst fwd e →
        e' ∈ q') :
    WorklistInv fwd lin mx NL t Bref A (q ++ q') s' := by
  obtain ⟨he, hadm⟩ := h.queued e (by simp)
  have hat := relaxTable_at fwd lin NL e s.distance he h.shape
  have hself : edgeSrc fwd e ≠ edgeDst fwd e := sweepOrder_src_ne fwd e e (sweepOrder_refl fwd e)
  obtain ⟨_, hsn, hsl, hdn, hdl⟩ := level_edge fwd NL e he
  have hle : ∀ x, tableAt (relaxTable fwd lin e s.distance) x ≤ tableAt s.distance x := by
    intro x
    rw [hat]
    split_ifs with hx
    · rw [hx]; exact min_le_left _ _
    · exact le_rfl
  refine
    { dir := by rw [hcfg.1, h.dir]
      linEq := by rw [hcfg.2.1, h.linEq]
      maxEq := by rw [hcfg.2.2.1, h.maxEq]
      labels := by rw [hcfg.2.2.2.1, h.labels]
      mode := ⟨by rw [hcfg.2.2.2.2.1]; exact h.mode.1, by rw [hcfg.2.2.2.2.2]; exact h.mode.2⟩
      shape := by rw [hdist, shape_relaxTable]; exact h.shape
      source := ?_
      lower := ?_
      relaxed := ?_
      queued := ?_
      best := hbest }
  · intro l hl
    rw [hdist, hat, if_neg]
    · exact h.source l hl
    · intro hx
      exact edgeDst_ne_source fwd NL e he (by rw [← hx])
  · intro n l hn hl
    rw [hdist, hat]
    split_ifs with hx
    · rw [hx]
      apply le_min
      · have := h.lower (edgeDst fwd e).1 (edgeDst fwd e).2 hdn hdl
        exact this
      · have h1 := hB.2.2.1 e he hadm
        unfold Relaxed at h1
        have h2 := h.lower (edgeSrc fwd e).1 (edgeSrc fwd e).2 hsn hsl
        exact le_trans h1 (add_le_add_right h2 _)
    · exact h.lower n l hn hl
  · intro e' he'
    obtain ⟨hv', hadm'⟩ := hA e' he'
    by_cases hrel : Relaxed fwd lin s.distance e
    · have hsame : relaxTable fwd lin e s.distance = s.distance := by
        unfold relaxTable
        exact if_pos hrel
      rw [hdist, hsame]
      rcases h.relaxed e' he' with hr | hmem
      · exact Or.inl hr
      · rcases List.mem_cons.1 hmem with heq | hmem
        · rw [heq]; exact Or.inl hrel
        · exact Or.inr (List.mem_append_left _ hmem)
    · by_cases hsrc : edgeSrc fwd e' = edgeDst fwd e
      · exact Or.inr (List.mem_append_right _ (hchildren hrel e' hv' hadm' hsrc))
      · have hsv : tableAt (relaxTable fwd lin e s.distance) (edgeSrc fwd e')
            = tableAt s.distance (edgeSrc fwd e') := by
          rw [hat, if_neg hsrc]
        rcases h.relaxed e' he' with hr | hmem
        · left
          unfold Relaxed at hr ⊢
          rw [hdist, hsv]
          exact le_trans (hle _) hr
        · rcases List.mem_cons.1 hmem with heq | hmem
          · left
            subst heq
            unfold Relaxed
            rw [hdist, hsv, hat, if_pos rfl]
            exact min_le_right _ _
          · exact Or.inr (List.mem_append_left _ hmem)
  · intro c hc
    rcases List.mem_append.1 hc with hc | hc
    · exact h.queued c (by simp [hc])
    · exact hq' c hc

/-- One iteration of the worklist loop keeps the invariant and lowers the weight of the
queue. -/
theorem processEdge_keeps_inv (cu : Bool) (fwd : Bool)
    (lin mx : three_dimensional_variable_array) (NL : List Nat) (t : REAL)
    (Bref : List (List REAL)) (A q : List edge) (e : edge) (s : shortest_distance_calculator)
    (hB : IsBellman fwd lin mx NL t Bref) (hdim : lin.dim1 + 1 = NL.length)
    (hA : ∀ e ∈ A, validEdge NL e ∧ mx.get e.n1 e.l1 e.l2 ≤ t)
    (h : WorklistInv fwd lin mx NL t Bref A (e :: q) s) :
    WorklistInv fwd lin mx NL t Bref A
        (q ++ (shortest_distance_calculator.processEdge cu t e s).2.2)
        (shortest_distance_calculator.processEdge cu t e s).1 ∧
      queueWeight fwd NL (q ++ (shortest_distance_calculator.processEdge cu t e s).2.2) + 1
        ≤ queueWeight fwd NL (e :: q) := by
  obtain ⟨he, hadm⟩ := h.queued e (by simp)
  have hdir := h.dir
  have hlin := h.linEq
  have hsinkiff := reachesSink_iff fwd NL s e hdir (by rw [hlin]; exact hdim) he
  rw [queueWeight_append, queueWeight_cons]
  have hpos := edgeWeight_pos fwd NL e
  rcases processEdge_cases cu t e s with ⟨hrel, heq⟩ | ⟨hrel, hsink, heq⟩ | ⟨hrel, hsink, heq⟩
  · rw [heq]
    rw [hdir, hlin] at hrel
    refine ⟨?_, by simp [queueWeight]; omega⟩
    dsimp only
    apply relax_keeps_inv fwd lin mx NL t Bref A q [] e s s hB hA h ⟨rfl, rfl, rfl, rfl, rfl, rfl⟩
    · unfold relaxTable
      exact (if_pos hrel).symm
    · exact h.best
    · intro c hc; simp at hc
    · intro hn; exact absurd hrel hn
  · rw [heq]
    rw [hdir, hlin] at hrel
    refine ⟨?_, by simp [queueWeight]; omega⟩
    dsimp only
    apply relax_keeps_inv fwd lin mx NL t Bref A q [] e s _ hB hA h
        (by exact ⟨rfl, rfl, rfl, rfl, rfl, rfl⟩)
    · simp only [hdir, hlin]
    · simp only [hdir, hlin]
      rw [relax_best_sink fwd lin NL e s.distance he h.shape (hsinkiff.1 hsink), h.best]
    · intro c hc; simp at hc
    · intro _ e' hv' _ hsrc
      exfalso
      apply validEdge_src_ne_sink fwd NL e' hv'
      rw [hsrc]
      exact hsinkiff.1 hsink
  · rw [heq]
    rw [hdir, hlin] at hrel
    have hnotsink : (edgeDst fwd e).1 ≠ sinkRow fwd NL.length := fun hx => hsink (hsinkiff.2 hx)
    have hbwd : fwd = false → e.n1 ≠ 0 := by
      intro hf hz
      apply hnotsink
      rw [hf]
      simp [edgeDst, sinkRow, hz]
    dsimp only
    constructor
    · apply relax_keeps_inv fwd lin mx NL t Bref A q _ e s _ hB hA h
        (by exact ⟨rfl, rfl, rfl, rfl, rfl, rfl⟩)
      · simp only [hdir, hlin]
      · simp only [hdir, hlin]
        rw [relaxTable_row_ne fwd lin e s.distance _ (Ne.symm hnotsink)]
        exact h.best
      · intro c hc
        simp only [hdir] at hc
        rw [mem_pushChildren, hdir, h.labels, h.maxEq] at hc
        obtain ⟨h1, h2, h3⟩ := he
        rcases hc with ⟨hf, hc1, hc2, hc3, hc4, _⟩ | ⟨hf, hc1, hc2, hc3, hc4, _⟩
        · subst hf
          simp only [edgeDst, if_true] at hc1 hc2 hc3
          have := lt_getD_length NL _ _ hc3
          refine ⟨⟨by omega, ?_, ?_⟩, hc4⟩
          · rw [hc1, hc2]; exact h3
          · rw [hc1]; exact hc3
        · subst hf
          have hz := hbwd rfl
          simp only [edgeDst, Bool.false_eq_true, if_false] at hc1 hc2 hc3
          have e1 : c.n1 + 1 = e.n1 := by omega
          refine ⟨⟨by omega, ?_, ?_⟩, hc4⟩
          · rw [hc1]; exact hc3
          · rw [e1, hc2]; exact h2
      · intro _ e' hv' hadm' hsrc
        simp only [hdir]
        rw [mem_pushChildren, hdir, h.labels, h.maxEq]
        obtain ⟨h1', h2', h3'⟩ := hv'
        have hadd := toAddEdge_unrestricted s h.mode e'.n1 e'.l1 e'.l2
        cases fwd
        · right
          simp only [edgeSrc, edgeDst, Bool.false_eq_true, if_false, Prod.mk.injEq] at hsrc ⊢
          obtain ⟨hs1, hs2⟩ := hsrc
          have e1 : e'.n1 = e.n1 - 1 := by omega
          refine ⟨trivial, e1, hs2, ?_, hadm', hadd⟩
          rw [← e1]; exact h2'
        · left
          simp only [edgeSrc, edgeDst, if_true, Prod.mk.injEq] at hsrc ⊢
          obtain ⟨hs1, hs2⟩ := hsrc
          refine ⟨trivial, hs1, hs2, ?_, hadm', hadd⟩
          rw [← hs1]; exact h3'
    · have hw := pushChildren_weight fwd NL t e s hdir h.labels hbwd
      simp only [hdir]
      omega


/-! ### Incremental and batch computation agree -/

theorem queueWeight_zero (fwd : Bool) (NL : List Nat) (q : List edge)
    (h : queueWeight fwd NL q ≤ 0) : q = [] := by
  cases q with
  | nil => rfl
  | cons e q =>
    rw [queueWeight_cons] at h
    have := edgeWeight_pos fwd NL e
    omega

/-- With fuel at least the weight of the queue, the worklist loop runs to completion and
leaves the invariant with an empty queue. -/
theorem worklist_keeps_inv (cu : Bool) (fwd : Bool) (lin mx : three_dimensional_variable_array)
    (NL : List Nat) (t : REAL) (Bref : List (List REAL)) (A : List edge)
    (hB : IsBellman fwd lin mx NL t Bref) (hdim : lin.dim1 + 1 = NL.length)
    (hA : ∀ e ∈ A, validEdge NL e ∧ mx.get e.n1 e.l1 e.l2 ≤ t) (fuel : Nat) :
    ∀ (q : List edge) (s : shortest_distance_calculator) (upd : List (Nat × Nat)),
      WorklistInv fwd lin mx NL t Bref A q s → queueWeight fwd NL q ≤ fuel →
      ∃ s' upd', shortest_distance_calculator.worklist cu t fuel q s upd = some (s', upd') ∧
        WorklistInv fwd lin mx NL t Bref A [] s' := by
  induction fuel with
  | zero =>
    intro q s upd hinv hw
    have hq := queueWeight_zero fwd NL q hw
    subst hq
    exact ⟨s, upd, by simp [shortest_distance_calculator.worklist], hinv⟩
  | succ fuel ih =>
    intro q s upd hinv hw
    cases q with
    | nil => exact ⟨s, upd, by simp [shortest_distance_calculator.worklist], hinv⟩
    | cons e q =>
      obtain ⟨hinv', hw'⟩ := processEdge_keeps_inv cu fwd lin mx NL t Bref A q e s hB hdim hA hinv
      obtain ⟨s', upd', hrun, hfin⟩ := ih _ _
        (upd ++ (shortest_distance_calculator.processEdge cu t e s).2.1) hinv' (by omega)
      exact ⟨s', upd', by simpa [shortest_distance_calculator.worklist] using hrun, hfin⟩

theorem worklistBudget_enough (fwd : Bool) (NL : List Nat) (s : shortest_distance_calculator)
    (e : edge) (hNL : s.NumLabels = NL) :
    queueWeight fwd NL [e] ≤ shortest_distance_calculator.worklistBudget s e.n1 := by
  unfold shortest_distance_calculator.worklistBudget queueWeight edgeWeight
  rw [hNL]
  simp only [List.map_cons, List.map_nil, List.sum_cons, List.sum_nil, Nat.add_zero]
  apply Nat.pow_le_pow_right (by omega)
  split_ifs <;> omega

theorem addEdgeWithUpdate_keeps_inv (cu : Bool) (fwd : Bool)
    (lin mx : three_dimensional_variable_array) (NL : List Nat) (t : REAL)
    (Bref : List (List REAL)) (A : List edge) (e : edge) (s : shortest_distance_calculator)
    (hB : IsBellman fwd lin mx NL t Bref) (hdim : lin.dim1 + 1 = NL.length)
    (hA : ∀ e ∈ A, validEdge NL e ∧ mx.get e.n1 e.l1 e.l2 ≤ t)
    (he : validEdge NL e ∧ mx.get e.n1 e.l1 e.l2 ≤ t)
    (h : WorklistInv fwd lin mx NL t Bref A [] s) :
    ∃ s' upd', shortest_distance_calculator.AddEdgeWithUpdate cu e.n1 e.l1 e.l2 t s
        = some (s', upd') ∧ WorklistInv fwd lin mx NL t Bref (e :: A) [] s' := by
  unfold shortest_distance_calculator.AddEdgeWithUpdate
  rw [toAddEdge_unrestricted s h.mode, if_neg (by simp)]
  have hA' : ∀ e' ∈ e :: A, validEdge NL e' ∧ mx.get e'.n1 e'.l1 e'.l2 ≤ t := by
    intro e' he'
    rcases List.mem_cons.1 he' with rfl | he'
    · exact he
    · exact hA e' he'
  have hstart : WorklistInv fwd lin mx NL t Bref (e :: A) [e] s :=
    { dir := h.dir, linEq := h.linEq, maxEq := h.maxEq, labels := h.labels, mode := h.mode
      shape := h.shape, source := h.source, lower := h.lower
      relaxed := by
        intro e' he'
        rcases List.mem_cons.1 he' with rfl | he'
        · exact Or.inr (by simp)
        · rcases h.relaxed e' he' with hr | hm
          · exact Or.inl hr
          · simp at hm
      queued := by
        intro e' he'
        rw [List.mem_singleton] at he'
        subst he'
        exact he
      best := h.best }
  exact worklist_keeps_inv cu fwd lin mx NL t Bref (e :: A) hB hdim hA' _ [e] s [] hstart
    (worklistBudget_enough fwd NL s e h.labels)

theorem worklistInv_congr (fwd : Bool) (lin mx : three_dimensional_variable_array)
    (NL : List Nat) (t : REAL) (Bref : List (List REAL)) (A A' q : List edge)
    (s : shortest_distance_calculator) (hsub : ∀ e ∈ A', e ∈ A)
    (h : WorklistInv fwd lin mx NL t Bref A q s) : WorklistInv fwd lin mx NL t Bref A' q s :=
  { dir := h.dir, linEq := h.linEq, maxEq := h.maxEq, labels := h.labels, mode := h.mode
    shape := h.shape, source := h.source, lower := h.lower
    relaxed := fun e he => h.relaxed e (hsub e he)
    queued := h.queued, best := h.best }

theorem addEdgesWithUpdate_keeps_inv (cu : Bool) (fwd : Bool)
    (lin mx : three_dimensional_variable_array) (NL : List Nat) (t : REAL)
    (Bref : List (List REAL)) (hB : IsBellman fwd lin mx NL t Bref)
    (hdim : lin.dim1 + 1 = NL.length) (es : List edge) :
    ∀ (A : List edge) (s : shortest_distance_calculator),
      (∀ e ∈ A, validEdge NL e ∧ mx.get e.n1 e.l1 e.l2 ≤ t) →
      (∀ e ∈ es, validEdge NL e ∧ mx.get e.n1 e.l1 e.l2 ≤ t) →
      WorklistInv fwd lin mx NL t Bref A [] s →
      ∃ s', addEdgesWithUpdate cu t es s = some s' ∧
        WorklistInv fwd lin mx NL t Bref (es ++ A) [] s' := by
  induction es with
  | nil =>
    intro A s _ _ h
    exact ⟨s, rfl, by simpa using h⟩
  | cons e es ih =>
    intro A s hA hes h
    obtain ⟨s1, u1, hrun, h1⟩ := addEdgeWithUpdate_keeps_inv cu fwd lin mx NL t Bref A e s hB hdim
      hA (hes e (by simp)) h
    have hA1 : ∀ e' ∈ e :: A, validEdge NL e' ∧ mx.get e'.n1 e'.l1 e'.l2 ≤ t := by
      intro e' he'
      rcases List.mem_cons.1 he' with rfl | he'
      · exact hes _ (by simp)
      · exact hA e' he'
    obtain ⟨s2, hrun2, h2⟩ := ih (e :: A) s1 hA1 (fun e' he' => hes e' (by simp [he'])) h1
    refine ⟨s2, by simp [addEdgesWithUpdate, hrun, hrun2], ?_⟩
    apply worklistInv_congr fwd lin mx NL t Bref _ _ [] s2 _ h2
    intro e' he'
    simp only [List.mem_append, List.mem_cons] at he' ⊢
    tauto

theorem bellman_le (fwd : Bool) (lin mx : three_dimensional_variable_array)
    (NL : List Nat) (t : REAL) (d1 d2 : List (List REAL))
    (h1 : IsBellman fwd lin mx NL t d1)
    (hsrc : ∀ l, l < NL.getD (sourceRow fwd NL.length) 0 →
      tableAt d2 (sourceRow fwd NL.length, l) = 0)
    (hrel : ∀ e, validEdge NL e → mx.get e.n1 e.l1 e.l2 ≤ t → Relaxed fwd lin d2 e) :
    ∀ k n l, level fwd NL.length n = k → n < NL.length → l < NL.getD n 0 →
      tableAt d2 (n, l) ≤ tableAt d1 (n, l) := by
  intro k
  induction k with
  | zero =>
    intro n l hk hn hl
    have hs := level_source fwd NL.length n hn hk
    rw [hs] at hl ⊢
    rw [h1.2.1 l hl, hsrc l hl]
  | succ k ih =>
    intro n l hk hn hl
    have hns : n ≠ sourceRow fwd NL.length := by
      intro hs
      rw [hs] at hk
      unfold level sourceRow at hk
      cases fwd <;> simp at hk
    rcases h1.2.2.2 n l hn hl hns with htop | ⟨e, _, hv, hadm, hdst, hval⟩
    · rw [htop]; exact le_top
    · obtain ⟨hlev, hsn, hsl, _, _⟩ := level_edge fwd NL e hv
      have hcons := hrel e hv hadm
      unfold Relaxed at hcons
      rw [hdst] at hcons hlev
      simp only at hlev
      have hsrc' := ih (edgeSrc fwd e).1 (edgeSrc fwd e).2 (by omega) hsn hsl
      rw [hval]
      exact le_trans hcons (add_le_add_right hsrc' _)

theorem worklistInv_fresh (fwd : Bool) (lin mx : three_dimensional_variable_array)
    (NL : List Nat) (t : REAL) (Bref : List (List REAL)) (hB : IsBellman fwd lin mx NL t Bref)
    (hN : 2 ≤ NL.length) :
    WorklistInv fwd lin mx NL t Bref [] []
      (shortest_distance_calculator.new fwd false false lin mx NL 0 0 0) := by
  have hd := new_distance fwd false false lin mx NL 0 0 0
  have hsink : sinkRow fwd NL.length ≠ sourceRow fwd NL.length := by
    unfold sinkRow sourceRow
    cases fwd
    · simp only [Bool.false_eq_true, if_false]; omega
    · simp only [if_true]; omega
  have hsn : sinkRow fwd NL.length < NL.length := by
    unfold sinkRow
    split_ifs <;> omega
  refine
    { dir := rfl, linEq := rfl, maxEq := rfl, labels := rfl, mode := ⟨rfl, rfl⟩
      shape := by rw [hd]; exact shape_freshTable fwd NL
      source := (sweepInv_fresh fwd lin mx NL t).2.1 |> fun h => by rw [hd]; exact h
      lower := ?_
      relaxed := by intro e he; simp at he
      queued := by intro e he; simp at he
      best := ?_ }
  · intro n l hn hl
    rw [hd, freshTable_at fwd NL n l hn hl]
    split_ifs with h
    · rw [h] at hl ⊢
      rw [hB.2.1 l hl]
    · exact le_top
  · have hspd : (shortest_distance_calculator.new fwd false false lin mx NL 0 0 0).shortestPathDistance
        = REAL_MAX := rfl
    rw [hspd, hd]
    symm
    apply minElement_eq_of _ _ _ (Or.inl rfl)
    intro x hx
    obtain ⟨l, hl, rfl⟩ := (mem_tableRow _ _ _).1 hx
    rw [shape_row (shape_freshTable fwd NL)] at hl
    rw [freshTable_at fwd NL _ l hsn hl, if_neg hsink]

theorem mem_admissibleEdges (mx : three_dimensional_variable_array) (NL : List Nat) (t : REAL)
    (e : edge) : e ∈ admissibleEdges mx NL t ↔ validEdge NL e ∧ mx.get e.n1 e.l1 e.l2 ≤ t := by
  unfold admissibleEdges
  simp [List.mem_filter, mem_sweepEdges]

/-- C3: on a chain with at least two nodes, in unrestricted mode and for either direction,
calling `AddEdgeWithUpdate(n1, l1, l2, t)` once per edge with `Max(n1, l1, l2) ≤ t`, in any
order, on a freshly constructed engine runs to completion and leaves the same distance
table and the same `ShortestDistance()` as one call of `CalculateDistances(t)` on a freshly
constructed engine. -/
theorem C3_incremental_equals_batch (cu fwd : Bool) (lin mx : three_dimensional_variable_array)
    (NL : List Nat) (t : REAL) (es : List edge) (hN : 2 ≤ NL.length)
    (hdim : lin.dim1 + 1 = NL.length) (hes : es.Perm (admissibleEdges mx NL t)) :
    ∃ s, addEdgesWithUpdate cu t es
        (shortest_distance_calculator.new fwd false false lin mx NL 0 0 0) = some s ∧
      s.distance = (shortest_distance_calculator.CalculateDistances false t 0 0
        (shortest_distance_calculator.new fwd false false lin mx NL 0 0 0)).distance ∧
      s.ShortestDistance = (shortest_distance_calculator.CalculateDistances false t 0 0
        (shortest_distance_calculator.new fwd false false lin mx NL 0 0 0)).ShortestDistance := by
  obtain ⟨hB, hspd⟩ := calculateDistances_bellman fwd lin mx NL t 0 0 0
  have hmem : ∀ e, e ∈ es ↔ validEdge NL e ∧ mx.get e.n1 e.l1 e.l2 ≤ t := by
    intro e
    rw [hes.mem_iff, mem_admissibleEdges]
  obtain ⟨s, hrun, hinv⟩ := addEdgesWithUpdate_keeps_inv cu fwd lin mx NL t _ hB hdim es []
    (shortest_distance_calculator.new fwd false false lin mx NL 0 0 0)
    (by intro e he; simp at he) (fun e he => (hmem e).1 he)
    (worklistInv_fresh fwd lin mx NL t _ hB hN)
  have hrelaxed : ∀ e, validEdge NL e → mx.get e.n1 e.l1 e.l2 ≤ t → Relaxed fwd lin s.distance e := by
    intro e hv ha
    rcases hinv.relaxed e (by simp [(hmem e).2 ⟨hv, ha⟩]) with h | h
    · exact h
    · simp at h
  have hdist : s.distance = (shortest_distance_calculator.CalculateDistances false t 0 0
      (shortest_distance_calculator.new fwd false false lin mx NL 0 0 0)).distance := by
    apply table_ext _ _ NL hinv.shape hB.1
    intro n l hn hl
    exact le_antisymm (bellman_le fwd lin mx NL t _ _ hB hinv.source hrelaxed _ n l rfl hn hl)
      (hinv.lower n l hn hl)
  refine ⟨s, hrun, hdist, ?_⟩
  unfold shortest_distance_calculator.ShortestDistance
  rw [hinv.best, hspd, hdist]


/-- Witness for C3 on the three-node example chain: the four admissible edges are handed
to a backward engine in the reverse of their listing order. -/
theorem C3_incremental_equals_batch_witness :
    2 ≤ ([1, 2, 1] : List Nat).length ∧ exampleLinear.dim1 + 1 = ([1, 2, 1] : List Nat).length ∧
    ([edge.mk 1 1 0, edge.mk 1 0 0, edge.mk 0 0 1, edge.mk 0 0 0] : List edge).Perm
      (admissibleEdges exampleMax [1, 2, 1] 0) ∧
    ∃ s, addEdgesWithUpdate true 0 [edge.mk 1 1 0, edge.mk 1 0 0, edge.mk 0 0 1, edge.mk 0 0 0]
        (shortest_distance_calculator.new false false false exampleLinear exampleMax
          [1, 2, 1] 0 0 0) = some s ∧
      s.distance = (shortest_distance_calculator.CalculateDistances false 0 0 0
        (shortest_distance_calculator.new false false false exampleLinear exampleMax
          [1, 2, 1] 0 0 0)).distance ∧
      s.ShortestDistance = (shortest_distance_calculator.CalculateDistances false 0 0 0
        (shortest_distance_calculator.new false false false exampleLinear exampleMax
          [1, 2, 1] 0 0 0)).ShortestDistance :=
  ⟨by decide, by decide, by decide,
    C3_incremental_equals_batch true false exampleLinear exampleMax [1, 2, 1] 0 _
      (by decide) (by decide) (by decide)⟩


/-! ### The worklist loop runs to completion -/

theorem processEdge_weight (cu : Bool) (t : REAL) (e : edge) (s : shortest_distance_calculator) :
    (shortest_distance_calculator.processEdge cu t e s).1.DoForward = s.DoForward ∧
    (shortest_distance_calculator.processEdge cu t e s).1.NumLabels = s.NumLabels ∧
    queueWeight s.DoForward s.NumLabels (shortest_distance_calculator.processEdge cu t e s).2.2 + 1
      ≤ edgeWeight s.DoForward s.NumLabels e := by
  have hpos := edgeWeight_pos s.DoForward s.NumLabels e
  rcases processEdge_cases cu t e s with ⟨_, heq⟩ | ⟨_, _, heq⟩ | ⟨_, hsink, heq⟩
  · rw [heq]
    exact ⟨rfl, rfl, by simpa [queueWeight] using hpos⟩
  · rw [heq]
    exact ⟨rfl, rfl, by simpa [queueWeight] using hpos⟩
  · rw [heq]
    refine ⟨rfl, rfl, ?_⟩
    apply pushChildren_weight s.DoForward s.NumLabels t e s rfl rfl
    intro hf hz
    exact hsink (Or.inr ⟨hf, hz⟩)

/-- With fuel at least the weight of the queue, the worklist loop ends with an empty queue,
whatever the state of the engine. -/
theorem worklist_total (cu : Bool) (t : REAL) (fuel : Nat) :
    ∀ (q : List edge) (s : shortest_distance_calculator) (upd : List (Nat × Nat)),
      queueWeight s.DoForward s.NumLabels q ≤ fuel →
      ∃ r, shortest_distance_calculator.worklist cu t fuel q s upd = some r := by
  induction fuel with
  | zero =>
    intro q s upd hw
    have hq := queueWeight_zero _ _ q hw
    subst hq
    exact ⟨(s, upd), by simp [shortest_distance_calculator.worklist]⟩
  | succ fuel ih =>
    intro q s upd hw
    cases q with
    | nil => exact ⟨(s, upd), by simp [shortest_distance_calculator.worklist]⟩
    | cons e q =>
      obtain ⟨h1, h2, h3⟩ := processEdge_weight cu t e s
      rw [queueWeight_cons] at hw
      obtain ⟨r, hr⟩ := ih (q ++ (shortest_distance_calculator.processEdge cu t e s).2.2)
        (shortest_distance_calculator.processEdge cu t e s).1
        (upd ++ (shortest_distance_calculator.processEdge cu t e s).2.1) (by
          rw [h1, h2, queueWeight_append]
          omega)
      exact ⟨r, by simpa [shortest_distance_calculator.worklist] using hr⟩

/-- `AddEdgeWithUpdate` returns on every engine state and every edge: its budget is never
exhausted. -/
theorem addEdgeWithUpdate_total (cu : Bool) (n1 l1 l2 : Nat) (t : REAL)
    (s : shortest_distance_calculator) :
    ∃ r, shortest_distance_calculator.AddEdgeWithUpdate cu n1 l1 l2 t s = some r := by
  unfold shortest_distance_calculator.AddEdgeWithUpdate
  split_ifs
  · exact ⟨_, rfl⟩
  · exact worklist_total cu t _ _ s []
      (worklistBudget_enough s.DoForward s.NumLabels s (edge.mk n1 l1 l2) rfl)


/-! ### Backtracking a shortest path -/

theorem minElementIndex_spec (row : List REAL) (h : minElement row ≠ REAL_MAX) :
    minElementIndex row < row.length ∧ row.getD (minElementIndex row) REAL_MAX = minElement row := by
  rcases minElement_mem row with htop | hmem
  · exact absurd htop h
  · unfold minElementIndex
    have hlt : List.indexOf (minElement row) row < row.length := List.indexOf_lt_length.2 hmem
    refine ⟨hlt, ?_⟩
    simp only [List.getD_eq_getElem?_getD, hlt, List.getElem?_eq_getElem, Option.getD_some]
    exact List.getElem_indexOf hlt

theorem getD_append_cons (pre : List Nat) (a : Nat) (rest : List Nat) (dflt : Nat) :
    (pre ++ a :: rest).getD pre.length dflt = a := by
  rw [List.getD_eq_getElem?_getD, List.getElem?_append_right (le_refl _)]
  simp

theorem set_snoc_cons (pre : List Nat) (b a x : Nat) (rest : List Nat) :
    (pre ++ [b] ++ a :: rest).set pre.length x = pre ++ (x :: a :: rest) := by
  rw [List.append_assoc, List.set_append_right _ _ (le_refl _)]
  simp

/-- The state of the backtracking loop before the round for `n2 = k`: the labels of the
nodes `k, k+1, ...` are set, form an admissible label sequence, and the recorded distance
of the label of node `k` plus the Linear cost of the sequence is the value `v`. -/
theorem backtrack_ok (lin mx : three_dimensional_variable_array) (NL : List Nat) (t : REAL)
    (s : shortest_distance_calculator) (v : REAL) (hv : v ≠ REAL_MAX)
    (hNL : s.NumLabels = NL) (hmx : s.MaxPairwisePotentials = mx)
    (hlin : s.LinearPairwisePotentials = lin) (hB : IsBellman true lin mx NL t s.distance) :
    ∀ (k : Nat) (pre : List Nat) (a : Nat) (rest : List Nat),
      pre.length = k → (pre ++ a :: rest).length = NL.length →
      pathOK mx NL t k (a :: rest) →
      tableAt s.distance (k, a) + pathCost lin k (a :: rest) = v →
      ∃ path, shortest_distance_calculator.backtrack s t k (pre ++ a :: rest) = Except.ok path ∧
        path.length = NL.length ∧ pathOK mx NL t 0 path ∧ pathCost lin 0 path = v := by
  intro k
  induction k with
  | zero =>
    intro pre a rest hpre hlen hok hcost
    have : pre = [] := List.length_eq_zero.1 hpre
    subst this
    refine ⟨a :: rest, rfl, by simpa using hlen, hok, ?_⟩
    have ha : a < NL.getD 0 0 := by
      cases rest with
      | nil => simpa [pathOK] using hok
      | cons b r => exact hok.1
    have h0 := hB.2.1 a (by simpa [sourceRow] using ha)
    simp only [sourceRow, if_true] at h0
    rw [h0, zero_add] at hcost
    simpa using hcost
  | succ k ih =>
    intro pre a rest hpre hlen hok hcost
    rcases eq_nil_or_snoc pre with rfl | ⟨pre', b, rfl⟩
    · simp at hpre
    have hpre' : pre'.length = k := by simpa using hpre
    have ha : a < NL.getD (k + 1) 0 := by
      cases rest with
      | nil => simpa [pathOK] using hok
      | cons b r => exact hok.1
    have hk1 : k + 1 < NL.length := lt_getD_length NL _ _ ha
    have hda : tableAt s.distance (k + 1, a) ≠ REAL_MAX := by
      intro htop
      rw [htop] at hcost
      exact hv (by rw [← hcost]; exact top_add _)
    obtain ⟨e, _, hve, hadm, hdst, hval⟩ : ∃ e, True ∧ validEdge NL e ∧ mx.get e.n1 e.l1 e.l2 ≤ t ∧
        edgeDst true e = (k + 1, a) ∧ tableAt s.distance (k + 1, a)
          = tableAt s.distance (edgeSrc true e) + lin.get e.n1 e.l1 e.l2 := by
      rcases hB.2.2.2 (k + 1) a hk1 ha (by simp [sourceRow]) with htop | h
      · exact absurd htop hda
      · exact h
    obtain ⟨en, el1, el2⟩ := e
    simp only [edgeDst, if_true, Prod.mk.injEq, Nat.add_right_cancel_iff] at hdst
    obtain ⟨rfl, rfl⟩ := hdst
    simp only [edgeSrc, if_true] at hval
    have hget : (pre' ++ [b] ++ el2 :: rest).getD (en + 1) INDEX_MAX = el2 := by
      have := getD_append_cons (pre' ++ [b]) el2 rest INDEX_MAX
      simpa [hpre'] using this
    have hfind : ∃ l1, (List.range (NL.getD en 0)).find? (fun l1 =>
        decide (¬ mx.get en l1 el2 > t) &&
        decide (tableGet s.distance en l1 + lin.get en l1 el2 = tableGet s.distance (en + 1) el2))
          = some l1 := by
      apply Option.isSome_iff_exists.1
      rw [List.find?_isSome]
      refine ⟨el1, List.mem_range.2 hve.2.1, ?_⟩
      simp only [Bool.and_eq_true, decide_eq_true_eq]
      exact ⟨not_lt.2 hadm, hval.symm⟩
    obtain ⟨l1, hl1⟩ := hfind
    have hp := List.find?_some hl1
    have hm := List.mem_range.1 (List.mem_of_find?_eq_some hl1)
    simp only [Bool.and_eq_true, decide_eq_true_eq] at hp
    have hstep : shortest_distance_calculator.backtrackStep s t en (pre' ++ [b] ++ el2 :: rest)
        = Except.ok (pre' ++ (l1 :: el2 :: rest)) := by
      unfold shortest_distance_calculator.backtrackStep
      simp only [hget, hNL, hmx, hlin, shortest_distance_calculator.GetDistance]
      rw [if_neg (by intro hcon; exact hcon.2 ha), hl1]
      simp only
      rw [← hpre', set_snoc_cons]
    have hrec := ih pre' l1 (el2 :: rest) hpre' (by simpa using hlen)
      ⟨hm, not_lt.1 hp.1, hok⟩ (by
        simp only [pathCost]
        rw [← add_assoc]
        have : tableAt s.distance (en, l1) + lin.get en l1 el2
            = tableAt s.distance (en + 1, el2) := hp.2
        rw [this]
        exact hcost)
    obtain ⟨path, hrun, hrest⟩ := hrec
    refine ⟨path, ?_, hrest⟩
    simp only [shortest_distance_calculator.backtrack, hstep]
    exact hrun

theorem pathOK_lt (mx : three_dimensional_variable_array) (NL : List Nat) (t : REAL)
    (hword : ∀ k ∈ NL, k ≤ INDEX_MAX) (p : List Nat) :
    ∀ n, pathOK mx NL t n p → ∀ x ∈ p, x < INDEX_MAX := by
  have hget : ∀ i, NL.getD i 0 ≤ INDEX_MAX := by
    intro i
    by_cases hi : i < NL.length
    · have : NL.getD i 0 = NL[i] := by simp [List.getD_eq_getElem?_getD, hi]
      rw [this]
      exact hword _ (List.getElem_mem hi)
    · simp [List.getD_eq_getElem?_getD, List.getElem?_eq_none (not_lt.mp hi)]
  induction p with
  | nil => intro n _ x hx; simp at hx
  | cons a p ih =>
    intro n hok x hx
    cases p with
    | nil =>
      simp only [List.mem_singleton] at hx
      subst hx
      have := hget n
      simp only [pathOK] at hok
      omega
    | cons b r =>
      rcases List.mem_cons.1 hx with rfl | hx
      · have := hget n
        have := hok.1
        omega
      · exact ih (n + 1) hok.2.2 x hx

theorem foldl_max_lt (p : List Nat) (B : Nat) (h : ∀ x ∈ p, x < B) :
    ∀ acc, acc < B → p.foldl max acc < B := by
  induction p with
  | nil => intro acc hacc; simpa using hacc
  | cons a p ih =>
    intro acc hacc
    simp only [List.foldl_cons]
    apply ih (fun x hx => h x (by simp [hx]))
    have := h a (by simp)
    exact max_lt hacc this

theorem replicate_set_last (N x y : Nat) (hN : 0 < N) :
    (List.replicate N x).set (N - 1) y = List.replicate (N - 1) x ++ [y] := by
  obtain ⟨m, rfl⟩ : ∃ m, N = m + 1 := ⟨N - 1, by omega⟩
  simp only [Nat.add_sub_cancel]
  rw [List.replicate_succ', List.set_append_right _ _ (by simp)]
  simp


theorem calculateDistances_config (t : REAL) (s0 : shortest_distance_calculator)
    (h : Unrestricted s0) :
    (shortest_distance_calculator.CalculateDistances false t 0 0 s0).NumLabels = s0.NumLabels ∧
    (shortest_distance_calculator.CalculateDistances false t 0 0 s0).LinearPairwisePotentials
      = s0.LinearPairwisePotentials ∧
    (shortest_distance_calculator.CalculateDistances false t 0 0 s0).MaxPairwisePotentials
      = s0.MaxPairwisePotentials := by
  rw [calculateDistances_eq t s0 h]
  exact ⟨rfl, rfl, rfl⟩

/-- C5: when `ShortestDistance()` is finite after `CalculateDistances(t)` on a freshly
constructed forward, unrestricted engine, `ShortestPath(t)` returns one label per node, each
within its node's label count, every consecutive pair of labels being an edge with Max cost
at most `t`, and the Linear costs of these edges add up to `ShortestDistance()`. Label
counts are assumed to be representable index values. -/
theorem C5_shortestPath_attains (lin mx : three_dimensional_variable_array) (NL : List Nat)
    (t : REAL) (hword : ∀ k ∈ NL, k ≤ INDEX_MAX)
    (hfin : (shortest_distance_calculator.CalculateDistances false t 0 0
      (shortest_distance_calculator.new true false false lin mx NL 0 0 0)).ShortestDistance
        < REAL_MAX) :
    ∃ path, shortest_distance_calculator.ShortestPath false t 0 0
        (shortest_distance_calculator.CalculateDistances false t 0 0
          (shortest_distance_calculator.new true false false lin mx NL 0 0 0)) = Except.ok path ∧
      path.length = NL.length ∧ pathOK mx NL t 0 path ∧
      pathCost lin 0 path = (shortest_distance_calculator.CalculateDistances false t 0 0
        (shortest_distance_calculator.new true false false lin mx NL 0 0 0)).ShortestDistance := by
  obtain ⟨hB, hspd⟩ := calculateDistances_bellman true lin mx NL t 0 0 0
  obtain ⟨hNL, hlin, hmx⟩ := calculateDistances_config t
    (shortest_distance_calculator.new true false false lin mx NL 0 0 0) ⟨rfl, rfl⟩
  generalize shortest_distance_calculator.CalculateDistances false t 0 0
    (shortest_distance_calculator.new true false false lin mx NL 0 0 0) = s at *
  have hNL' : s.NumLabels = NL := hNL
  have hlin' : s.LinearPairwisePotentials = lin := hlin
  have hmx' : s.MaxPairwisePotentials = mx := hmx
  unfold shortest_distance_calculator.ShortestDistance at hfin ⊢
  simp only [sinkRow, if_true] at hspd
  have hne : minElement (s.distance.getD (NL.length - 1) []) ≠ REAL_MAX := by
    rw [← hspd]; exact ne_of_lt hfin
  obtain ⟨hidx, hval⟩ := minElementIndex_spec _ hne
  rw [shape_row hB.1] at hidx
  have hN := lt_getD_length NL _ _ hidx
  have hpos : 0 < NL.length := by omega
  have hcost : tableAt s.distance
      (NL.length - 1, minElementIndex (s.distance.getD (NL.length - 1) []))
      + pathCost lin (NL.length - 1) [minElementIndex (s.distance.getD (NL.length - 1) [])]
      = s.shortestPathDistance := by
    simp only [pathCost, add_zero]
    rw [hspd, ← hval]
    rfl
  obtain ⟨path, hrun, hlen, hok, hpc⟩ := backtrack_ok lin mx NL t s s.shortestPathDistance
    (ne_of_lt hfin) hNL' hmx' hlin' hB (NL.length - 1) (List.replicate (NL.length - 1) INDEX_MAX)
    (minElementIndex (s.distance.getD (NL.length - 1) [])) [] (by simp)
    (by simp; omega) (by simpa [pathOK] using hidx) hcost
  refine ⟨path, ?_, hlen, hok, hpc⟩
  unfold shortest_distance_calculator.ShortestPath
  simp only [Bool.false_eq_true, if_false, hNL']
  have hrep : (List.replicate (NL.length - 1 + 1) INDEX_MAX).set (NL.length - 1)
      (minElementIndex (s.distance.getD (NL.length - 1) []))
      = List.replicate (NL.length - 1) INDEX_MAX
        ++ [minElementIndex (s.distance.getD (NL.length - 1) [])] := by
    have := replicate_set_last (NL.length - 1 + 1) INDEX_MAX
      (minElementIndex (s.distance.getD (NL.length - 1) [])) (by omega)
    simpa using this
  rw [hrep, hrun]
  simp only
  rw [if_neg]
  exact ne_of_lt (foldl_max_lt path INDEX_MAX (pathOK_lt mx NL t hword path 0 hok) 0
    (by decide))

/-- Witness for C5 on the three-node example chain of the specification. -/
theorem C5_shortestPath_attains_witness :
    (∀ k ∈ ([1, 2, 1] : List Nat), k ≤ INDEX_MAX) ∧
    (shortest_distance_calculator.CalculateDistances false 0 0 0
      (shortest_distance_calculator.new true false false exampleLinear exampleMax
        [1, 2, 1] 0 0 0)).ShortestDistance < REAL_MAX ∧
    ∃ path, shortest_distance_calculator.ShortestPath false 0 0 0
        (shortest_distance_calculator.CalculateDistances false 0 0 0
          (shortest_distance_calculator.new true false false exampleLinear exampleMax
            [1, 2, 1] 0 0 0)) = Except.ok path ∧
      path.length = ([1, 2, 1] : List Nat).length ∧ pathOK exampleMax [1, 2, 1] 0 0 path ∧
      pathCost exampleLinear 0 path = (shortest_distance_calculator.CalculateDistances false 0 0 0
        (shortest_distance_calculator.new true false false exampleLinear exampleMax
          [1, 2, 1] 0 0 0)).ShortestDistance :=
  ⟨by decide, by decide,
    C5_shortestPath_attains exampleLinear exampleMax [1, 2, 1] 0 (by decide) (by decide)⟩


/-! ### The pair combiner on a frontier free of dominated points -/

/-- C6 (the code at the failing input): on the frontier `(0,5), (1,7)`, which
`insert<false>` builds from these two points, and the single-node cost `(10,0)`,
`ComputeBestIndexAndCost` called with `INDEX_MAX` returns index `1`, whose objective `17`
is above the objective `15` of index `0`. -/
theorem C6_scan_misses_minimum :
    Marginals.insertAll false [⟨0, 5⟩, ⟨1, 7⟩] Marginals.empty
      = some { M := [⟨0, 5⟩, ⟨1, 7⟩], i := 0, populated := false } ∧
    ComputeBestIndexAndCost { M := [⟨0, 5⟩, ⟨1, 7⟩], i := 0, populated := false } ⟨10, 0⟩ INDEX_MAX
      = some (1, ⟨10, 7⟩) ∧
    pairObjective ⟨0, 5⟩ ⟨10, 0⟩ = 15 ∧ pairObjective ⟨1, 7⟩ ⟨10, 0⟩ = 17 := by
  decide


/-! ### Grid topology: horizontal edges -/

theorem classifyLoop_spec (L : List (List Nat)) :
    ∀ (info : ChainsInfo), (∀ ch ∈ L, 2 ≤ ch.length) →
      ∃ info', ChainsInfo.classifyLoop L info = some info' ∧
        info'.IsHorizontalChain = info.IsHorizontalChain ++ L.map isHorizontal ∧
        info'.NumHorizontalChains = info.NumHorizontalChains + L.countP isHorizontal ∧
        info'.NumVerticalChains
          = info.NumVerticalChains + L.countP (fun ch => !isHorizontal ch) ∧
        info'.SizeH = sizeAfter isHorizontal info.SizeH L := by
  induction L with
  | nil =>
    intro info _
    exact ⟨info, rfl, by simp, by simp, by simp, rfl⟩
  | cons ch L ih =>
    intro info hlen
    have h2 : 2 ≤ ch.length := hlen ch (by simp)
    have h0 : ch[0]? = some ch[0] := List.getElem?_eq_getElem (by omega)
    have h1 : ch[1]? = some ch[1] := List.getElem?_eq_getElem (by omega)
    have hisH : isHorizontal ch = decide (ch[1] - ch[0] = 1) := by
      unfold isHorizontal
      simp [List.getD_eq_getElem?_getD, h0, h1]
    unfold ChainsInfo.classifyLoop
    rw [h0, h1]
    simp only
    by_cases hc : ch[1] - ch[0] = 1
    · rw [if_pos hc]
      have hH : isHorizontal ch = true := by rw [hisH]; simpa using hc
      obtain ⟨info', hrun, e1, e2, e3, e4⟩ := ih _ (fun c hcm => hlen c (by simp [hcm]))
      refine ⟨info', hrun, ?_, ?_, ?_, ?_⟩
      · rw [e1]; simp [hH]
      · rw [e2, List.countP_cons]; simp [hH]; omega
      · rw [e3, List.countP_cons]; simp [hH]
      · rw [e4]; simp [sizeAfter, hH]
    · rw [if_neg hc]
      have hH : isHorizontal ch = false := by rw [hisH]; simpa using hc
      obtain ⟨info', hrun, e1, e2, e3, e4⟩ := ih _ (fun c hcm => hlen c (by simp [hcm]))
      refine ⟨info', hrun, ?_, ?_, ?_, ?_⟩
      · rw [e1]; simp [hH]
      · rw [e2, List.countP_cons]; simp [hH]
      · rw [e3, List.countP_cons]; simp [hH]; omega
      · rw [e4]; simp [sizeAfter, hH]

theorem sizeAfter_spec (p : List Nat → Bool) (W : Nat) (L : List (List Nat))
    (hall : ∀ ch ∈ L, p ch = true → ch.length = W) :
    ∀ s0, sizeAfter p s0 L = W ∨ (sizeAfter p s0 L = s0 ∧ ∀ ch ∈ L, p ch = false) := by
  induction L with
  | nil => intro s0; exact Or.inr ⟨rfl, by simp⟩
  | cons ch L ih =>
    intro s0
    have hstep : sizeAfter p s0 (ch :: L)
        = sizeAfter p (if p ch = true then ch.length else s0) L := rfl
    rw [hstep]
    rcases ih (fun c hc => hall c (by simp [hc])) (if p ch = true then ch.length else s0)
      with h | ⟨h, hno⟩
    · exact Or.inl h
    · by_cases hp : p ch = true
      · left
        rw [h, if_pos hp]
        exact hall ch (by simp) hp
      · right
        rw [h, if_neg hp]
        refine ⟨rfl, ?_⟩
        intro c hc
        rcases List.mem_cons.1 hc with rfl | hc
        · simpa using hp
        · exact hno c hc

theorem fillLoop_spec (L : List (List Nat)) :
    ∀ (P : List (List Nat)) (info : ChainsInfo),
      info.IsHorizontalChain = (P ++ L).map isHorizontal →
      (∀ ch ∈ L, 0 < ch.length ∧
        (isHorizontal ch = true →
          ch.getD 0 0 / info.NumVerticalChains < info.HChainIndices.length) ∧
        (isHorizontal ch = false →
          ch.getD 0 0 % info.NumVerticalChains < info.VChainIndices.length)) →
      ∃ info', ChainsInfo.fillLoop P.length L info = some info' ∧
        info'.NumVerticalChains = info.NumVerticalChains ∧ info'.SizeH = info.SizeH ∧
        ∀ y, (info'.HChainIndices[y]? = info.HChainIndices[y]? ∧
            ∀ ch ∈ L, isHorizontal ch = true → ch.getD 0 0 / info.NumVerticalChains ≠ y) ∨
          (∃ k ch, info'.HChainIndices[y]? = some k ∧ (P ++ L)[k]? = some ch ∧
            isHorizontal ch = true ∧ ch.getD 0 0 / info.NumVerticalChains = y) := by
  induction L with
  | nil =>
    intro P info _ _
    exact ⟨info, rfl, rfl, rfl, fun y => Or.inl ⟨rfl, by simp⟩⟩
  | cons ch L ih =>
    intro P info hIs hkeys
    obtain ⟨hpos, hkH, hkV⟩ := hkeys ch (by simp)
    have h0 : ch[0]? = some ch[0] := List.getElem?_eq_getElem hpos
    have hget0 : ch.getD 0 0 = ch[0] := by simp [List.getD_eq_getElem?_getD, h0]
    have hIsc : info.IsHorizontalChain[P.length]? = some (isHorizontal ch) := by
      rw [hIs, List.getElem?_map, List.getElem?_append_right (le_refl _)]
      simp
    have hPL : (P ++ [ch]) ++ L = P ++ ch :: L := by simp
    have hat : (P ++ ch :: L)[P.length]? = some ch := by
      rw [List.getElem?_append_right (le_refl _)]
      simp
    unfold ChainsInfo.fillLoop
    rw [hIsc, h0]
    cases hH : isHorizontal ch
    · simp only
      have hlt := hkV hH
      rw [hget0] at hlt
      rw [if_pos hlt]
      obtain ⟨info', hrun, e1, e2, e3⟩ := ih (P ++ [ch])
        { info with VChainIndices :=
            (info.VChainIndices.set (ch[0] % info.NumVerticalChains) P.length) }
        (by rw [hPL]; exact hIs)
        (by
          intro c hc
          obtain ⟨a, b, d⟩ := hkeys c (by simp [hc])
          exact ⟨a, b, by simpa using d⟩)
      have hlen1 : (P ++ [ch]).length = P.length + 1 := by simp
      rw [hlen1] at hrun
      refine ⟨info', hrun, e1, e2, ?_⟩
      intro y
      rcases e3 y with ⟨h1, h2⟩ | ⟨k, c, h1, h2, h3, h4⟩
      · left
        refine ⟨h1, ?_⟩
        intro c hc hcH
        rcases List.mem_cons.1 hc with rfl | hc
        · rw [hH] at hcH; cases hcH
        · exact h2 c hc hcH
      · right
        exact ⟨k, c, h1, by rw [← hPL]; exact h2, h3, h4⟩
    · simp only
      have hlt := hkH hH
      rw [hget0] at hlt
      rw [if_pos hlt]
      obtain ⟨info', hrun, e1, e2, e3⟩ := ih (P ++ [ch])
        { info with HChainIndices :=
            (info.HChainIndices.set (ch[0] / info.NumVerticalChains) P.length) }
        (by rw [hPL]; exact hIs)
        (by
          intro c hc
          obtain ⟨a, b, d⟩ := hkeys c (by simp [hc])
          exact ⟨a, by simpa using b, d⟩)
      have hlen1 : (P ++ [ch]).length = P.length + 1 := by simp
      rw [hlen1] at hrun
      refine ⟨info', hrun, e1, e2, ?_⟩
      intro y
      rcases e3 y with ⟨h1, h2⟩ | ⟨k, c, h1, h2, h3, h4⟩
      · by_cases hy : ch[0] / info.NumVerticalChains = y
        · right
          refine ⟨P.length, ch, ?_, hat, hH, by rw [hget0]; exact hy⟩
          rw [h1]
          simp only
          rw [hy] at hlt ⊢
          exact List.getElem?_set_self hlt
        · left
          constructor
          · rw [h1]
            simp only
            exact List.getElem?_set_ne hy
          · intro c hc hcH
            rcases List.mem_cons.1 hc with rfl | hc
            · rw [hget0]; exact hy
            · exact h2 c hc hcH
      · right
        exact ⟨k, c, h1, by rw [← hPL]; exact h2, h3, h4⟩


theorem mem_grid (H W : Nat) (ch : List Nat) (h : ch ∈ gridRows H W ++ gridCols H W) :
    (∃ r, r < H ∧ ch = (List.range W).map (fun c => r * W + c)) ∨
    (∃ c, c < W ∧ ch = (List.range H).map (fun r => r * W + c)) := by
  unfold gridRows gridCols at h
  simp only [List.mem_append, List.mem_map, List.mem_range] at h
  rcases h with ⟨r, hr, rfl⟩ | ⟨c, hc, rfl⟩
  · exact Or.inl ⟨r, hr, rfl⟩
  · exact Or.inr ⟨c, hc, rfl⟩

theorem row_getElem? (W r p : Nat) (hp : p < W) :
    ((List.range W).map (fun c => r * W + c))[p]? = some (r * W + p) := by
  simp [List.getElem?_range hp]

theorem row_facts (W r : Nat) (hW : 2 ≤ W) :
    ((List.range W).map (fun c => r * W + c)).length = W ∧
    ((List.range W).map (fun c => r * W + c)).getD 0 0 = r * W ∧
    isHorizontal ((List.range W).map (fun c => r * W + c)) = true := by
  have h0 := row_getElem? W r 0 (by omega)
  have h1 := row_getElem? W r 1 (by omega)
  refine ⟨by simp, by simp [List.getD_eq_getElem?_getD, h0], ?_⟩
  unfold isHorizontal
  simp [List.getD_eq_getElem?_getD, h0, h1]

theorem col_facts (H W c : Nat) (hH : 2 ≤ H) (hW : 2 ≤ W) :
    ((List.range H).map (fun r => r * W + c)).length = H ∧
    ((List.range H).map (fun r => r * W + c)).getD 0 0 = c ∧
    isHorizontal ((List.range H).map (fun r => r * W + c)) = false := by
  have h0 : ((List.range H).map (fun r => r * W + c))[0]? = some (0 * W + c) := by
    simp [List.getElem?_range (show 0 < H by omega)]
  have h1 : ((List.range H).map (fun r => r * W + c))[1]? = some (1 * W + c) := by
    simp [List.getElem?_range (show 1 < H by omega)]
  refine ⟨by simp, by simp [List.getD_eq_getElem?_getD, h0], ?_⟩
  unfold isHorizontal
  simp only [List.getD_eq_getElem?_getD, h0, h1, Option.getD_some, decide_eq_false_iff_not]
  omega

/-- The constructor of `ChainsInfo` on the full decomposition of an `H x W` grid, in any
chain order: the vertical chain count and `SizeH` are `W`, and the row table maps every row
to the position of its horizontal chain. -/
theorem chainsInfo_grid (H W : Nat) (chains : List (List Nat)) (hH : 2 ≤ H) (hW : 2 ≤ W)
    (hperm : chains.Perm (gridRows H W ++ gridCols H W)) :
    ∃ info, ChainsInfo.new chains = some info ∧ info.NumVerticalChains = W ∧ info.SizeH = W ∧
      ∀ r, r < H → ∃ k, info.HChainIndices[r]? = some k ∧
        chains[k]? = some ((List.range W).map (fun c => r * W + c)) := by
  have hmem : ∀ ch ∈ chains, (∃ r, r < H ∧ ch = (List.range W).map (fun c => r * W + c)) ∨
      (∃ c, c < W ∧ ch = (List.range H).map (fun r => r * W + c)) :=
    fun ch hch => mem_grid H W ch (hperm.mem_iff.1 hch)
  have hlen2 : ∀ ch ∈ chains, 2 ≤ ch.length := by
    intro ch hch
    rcases hmem ch hch with ⟨r, _, rfl⟩ | ⟨c, _, rfl⟩
    · rw [(row_facts W r hW).1]; exact hW
    · rw [(col_facts H W c hH hW).1]; exact hH
  have hrowsH : ∀ ch ∈ gridRows H W, isHorizontal ch = true := by
    intro ch hch
    rcases mem_grid H W ch (List.mem_append_left _ hch) with ⟨r, _, rfl⟩ | ⟨c, _, rfl⟩
    · exact (row_facts W r hW).2.2
    · unfold gridRows at hch
      simp only [List.mem_map, List.mem_range] at hch
      obtain ⟨r, _, hr⟩ := hch
      rw [← hr]
      exact (row_facts W r hW).2.2
  have hcolsV : ∀ ch ∈ gridCols H W, isHorizontal ch = false := by
    intro ch hch
    unfold gridCols at hch
    simp only [List.mem_map, List.mem_range] at hch
    obtain ⟨c, _, hc⟩ := hch
    rw [← hc]
    exact (col_facts H W c hH hW).2.2
  have hcountH : chains.countP isHorizontal = H := by
    rw [hperm.countP_eq, List.countP_append, List.countP_eq_length.2 hrowsH,
      List.countP_eq_zero.2 (fun ch hch => by simp [hcolsV ch hch])]
    simp [gridRows]
  have hcountV : chains.countP (fun ch => !isHorizontal ch) = W := by
    rw [hperm.countP_eq, List.countP_append,
      List.countP_eq_zero.2 (fun ch hch => by simp [hrowsH ch hch]),
      List.countP_eq_length.2 (fun ch hch => by simp [hcolsV ch hch])]
    simp [gridCols]
  have hrow0 : (List.range W).map (fun c => 0 * W + c) ∈ chains := by
    apply hperm.mem_iff.2
    apply List.mem_append_left
    unfold gridRows
    exact List.mem_map.2 ⟨0, List.mem_range.2 (by omega), rfl⟩
  have hsize : sizeAfter isHorizontal 1 chains = W := by
    rcases sizeAfter_spec isHorizontal W chains (by
      intro ch hch hchH
      rcases hmem ch hch with ⟨r, _, rfl⟩ | ⟨c, _, rfl⟩
      · exact (row_facts W r hW).1
      · rw [(col_facts H W c hH hW).2.2] at hchH; cases hchH) 1 with h | ⟨_, hno⟩
    · exact h
    · have := hno _ hrow0
      rw [(row_facts W 0 hW).2.2] at this
      cases this
  obtain ⟨info1, hrun1, e1, e2, e3, e4⟩ := classifyLoop_spec chains
    { ChainNodeToOriginalNode := chains
      NumChains := chains.length
      IsHorizontalChain := []
      HChainIndices := []
      VChainIndices := []
      NumHorizontalChains := 0
      NumVerticalChains := 0
      SizeH := 1
      SizeV := 1 } hlen2
  simp only [List.nil_append, Nat.zero_add] at e1 e2 e3 e4
  rw [hcountH] at e2
  rw [hcountV] at e3
  rw [hsize] at e4
  obtain ⟨info2, hrun2, f1, f2, f3⟩ := fillLoop_spec chains []
    { info1 with
      HChainIndices := List.replicate info1.NumHorizontalChains 0
      VChainIndices := List.replicate info1.NumVerticalChains 0 }
    (by simpa using e1)
    (by
      intro ch hch
      simp only [List.length_replicate]
      rw [e2, e3]
      rcases hmem ch hch with ⟨r, hr, rfl⟩ | ⟨c, hc, rfl⟩
      · obtain ⟨a, b, d⟩ := row_facts W r hW
        refine ⟨by omega, ?_, ?_⟩
        · intro _
          rw [b, Nat.mul_div_cancel _ (by omega)]
          exact hr
        · intro hf; rw [d] at hf; cases hf
      · obtain ⟨a, b, d⟩ := col_facts H W c hH hW
        refine ⟨by omega, ?_, ?_⟩
        · intro hf; rw [d] at hf; cases hf
        · intro _
          rw [b]
          exact Nat.mod_lt _ (by omega))
  simp only [List.length_nil, List.nil_append] at hrun2 f1 f2 f3
  refine ⟨info2, ?_, by rw [f1, e3], by rw [f2, e4], ?_⟩
  · unfold ChainsInfo.new
    rw [hrun1]
    simp only
    rw [if_pos (by rw [e3]; omega)]
    exact hrun2
  · intro r hr
    have hrowr : (List.range W).map (fun c => r * W + c) ∈ chains := by
      apply hperm.mem_iff.2
      apply List.mem_append_left
      unfold gridRows
      exact List.mem_map.2 ⟨r, List.mem_range.2 hr, rfl⟩
    rcases f3 r with ⟨_, hno⟩ | ⟨k, ch, h1, h2, h3, h4⟩
    · exfalso
      obtain ⟨_, b, d⟩ := row_facts W r hW
      apply hno _ hrowr d
      rw [b, e3, Nat.mul_div_cancel _ (by omega)]
    · refine ⟨k, h1, ?_⟩
      rw [h2]
      rcases hmem ch (List.mem_iff_getElem?.2 ⟨k, h2⟩) with ⟨r', _, rfl⟩ | ⟨c, _, rfl⟩
      · obtain ⟨_, b, _⟩ := row_facts W r' hW
        rw [b, e3, Nat.mul_div_cancel _ (by omega)] at h4
        rw [h4]
      · rw [(col_facts H W c hH hW).2.2] at h3; cases h3

/-- C8: for the full decomposition of a row-major `H x W` grid (`H, W ≥ 2`) in any chain
order, the constructor succeeds and for every horizontally adjacent pair `(n, n+1)` lying in
one row `GetEdgeIndexFromGridEdge(n, n+1)` returns `(c, p)` such that chain `c` holds grid
node `n` at position `p` and grid node `n+1` at position `p+1`. -/
theorem C8_horizontal_edge_round_trip (H W : Nat) (chains : List (List Nat)) (n : Nat)
    (hH : 2 ≤ H) (hW : 2 ≤ W) (hperm : chains.Perm (gridRows H W ++ gridCols H W))
    (hrow : n / W < H) (hadj : n % W + 1 < W) :
    ∃ info e ch, ChainsInfo.new chains = some info ∧
      info.GetEdgeIndexFromGridEdge n (n + 1) = some e ∧
      chains[e.chainIndex]? = some ch ∧ ch[e.n1]? = some n ∧ ch[e.n1 + 1]? = some (n + 1) := by
  obtain ⟨info, hnew, hNV, hSH, htab⟩ := chainsInfo_grid H W chains hH hW hperm
  obtain ⟨k, hk, hch⟩ := htab (n / W) hrow
  refine ⟨info, { chainIndex := k, n1 := n % W }, _, hnew, ?_, hch, ?_, ?_⟩
  · unfold ChainsInfo.GetEdgeIndexFromGridEdge ChainsInfo.GetHorizontalChainIndexAtGridLoc
    rw [hSH, hNV]
    rw [if_neg (by omega), if_pos (by omega), if_neg (by omega), hk]
  · rw [row_getElem? W (n / W) (n % W) (by omega)]
    congr 1
    rw [Nat.mul_comm]
    exact Nat.div_add_mod n W
  · rw [row_getElem? W (n / W) (n % W + 1) hadj]
    congr 1
    rw [← Nat.add_assoc, Nat.mul_comm, Nat.div_add_mod n W]

/-- Witness for C8 on the `2 x 3` grid with the chains listed columns first, rows in
reverse order, at the pair `(4, 5)`. -/
theorem C8_horizontal_edge_round_trip_witness :
    2 ≤ 2 ∧ 2 ≤ 3 ∧
    ([[0, 3], [1, 4], [2, 5], [3, 4, 5], [0, 1, 2]] : List (List Nat)).Perm
      (gridRows 2 3 ++ gridCols 2 3) ∧
    4 / 3 < 2 ∧ 4 % 3 + 1 < 3 ∧
    ∃ info e ch, ChainsInfo.new [[0, 3], [1, 4], [2, 5], [3, 4, 5], [0, 1, 2]] = some info ∧
      info.GetEdgeIndexFromGridEdge 4 (4 + 1) = some e ∧
      ([[0, 3], [1, 4], [2, 5], [3, 4, 5], [0, 1, 2]] : List (List Nat))[e.chainIndex]? = some ch ∧
      ch[e.n1]? = some 4 ∧ ch[e.n1 + 1]? = some (4 + 1) :=
  ⟨by decide, by decide, by decide, by decide, by decide,
    C8_horizontal_edge_round_trip 2 3 _ 4 (by decide) (by decide) (by decide) (by decide)
      (by decide)⟩


/-! ### Grid topology: vertical edges -/

/-- C9 (the code at the failing inputs): on the `2 x 2` grid `GetEdgeIndexFromGridEdge(1, 3)`
returns chain `3` with position `1`, although chain `3 = [1, 3]` holds node `1` at position
`0`; and on the `3 x 2` grid `GetEdgeIndexFromGridEdge(2, 4)` reads the column table, which
has two entries, at index `2`. -/
theorem C9_vertical_edge_lookup_off :
    (ChainsInfo.new (gridRows 2 2 ++ gridCols 2 2)).bind
        (fun info => info.GetEdgeIndexFromGridEdge 1 3)
      = some { chainIndex := 3, n1 := 1 } ∧
    (gridRows 2 2 ++ gridCols 2 2)[3]? = some [1, 3] ∧
    (ChainsInfo.new (gridRows 3 2 ++ gridCols 3 2)).map (fun info => info.VChainIndices)
      = some [3, 4] ∧
    (ChainsInfo.new (gridRows 3 2 ++ gridCols 3 2)).bind
        (fun info => info.GetEdgeIndexFromGridEdge 2 4) = none := by
  decide

/-! ### The priority queue on entries of equal cost -/

/-- The order in which entries of equal cost leave the queue: pushed as `0, 1, 2, 3, 4`
with the same cost, they are popped as `0, 2, 4, 1, 3`; an entry of smaller cost pushed last
is popped first. -/
theorem pq_equal_cost_order :
    (GreedyRoundingChains.pqPop ((List.range 5).foldl
        (fun q n => GreedyRoundingChains.pqPush q ⟨n, 0, 1⟩) [])).map (fun x => x.N)
      = [2, 1, 4, 3] ∧
    (GreedyRoundingChains.pqPop (GreedyRoundingChains.pqPop ((List.range 5).foldl
        (fun q n => GreedyRoundingChains.pqPush q ⟨n, 0, 1⟩) []))).map (fun x => x.N)
      = [4, 1, 3] ∧
    (GreedyRoundingChains.pqPop (GreedyRoundingChains.pqPop (GreedyRoundingChains.pqPop
        ((List.range 5).foldl (fun q n => GreedyRoundingChains.pqPush q ⟨n, 0, 1⟩) [])))).map
        (fun x => x.N) = [1, 3] ∧
    (GreedyRoundingChains.pqTop (GreedyRoundingChains.pqPush
        ((List.range 5).foldl (fun q n => GreedyRoundingChains.pqPush q ⟨n, 0, 1⟩) [])
        ⟨5, 0, 0⟩)).map (fun x => x.N) = some 5 := by
  decide

/-! ### Greedy rounding -/

/-- C10 (the code at the failing input): on the single chain `0, 1, 2, 3` with label counts
`2, 3, 1, 2` the anchor is node `2`, and `ComputeSolution` returns the labels `2, 1, 0, 0`:
node `0`, which has two labels, receives label `2`. -/
theorem C10_rounding_label_out_of_range :
    (GreedyRoundingChains.new roundingExample [[0, 1, 2, 3]]).map (fun g => g.SeedNode) = some 2 ∧
    (GreedyRoundingChains.new roundingExample [[0, 1, 2, 3]]).bind
        (fun g => g.ComputeSolution) = some [[2, 1, 0, 0]] ∧
    (roundingExample.map (fun pot => pot.dim2 0)) = [2] := by
  decide

/-! ### The example chain of the specification, evaluated -/

/-- C11 (as amended): on the chain with label counts `[1,2,1]`, Linear costs
`(0,0,0)=2, (0,0,1)=5, (1,0,0)=1, (1,1,0)=3` and all Max costs `0`, `CalculateDistances(0)`
on a fresh forward unrestricted engine leaves the distance table `[[0],[2,5],[3]]` (one entry
per label of each node), `ShortestDistance()` is `3`, and `ShortestPath(0)` returns
`[0,0,0]`. -/
theorem C11_example_chain :
    (shortest_distance_calculator.CalculateDistances false 0 0 0 (exampleEngine true)).distance
      = [[0], [2, 5], [3]] ∧
    (shortest_distance_calculator.CalculateDistances false 0 0 0
      (exampleEngine true)).ShortestDistance = 3 ∧
    shortest_distance_calculator.ShortestPath false 0 0 0
      (shortest_distance_calculator.CalculateDistances false 0 0 0 (exampleEngine true))
      = Except.ok [0, 0, 0] := by
  refine ⟨by decide, by decide, ?_⟩
  rfl

/-- C11 as stated fails: the distance table after the sweep is not `[[0],[2,5],[3,7]]`; the
last node has one label, so its row has the single entry `3`. -/
theorem C11_example_chain_table_differs :
    ¬ ((shortest_distance_calculator.CalculateDistances false 0 0 0
          (exampleEngine true)).distance = [[0], [2, 5], [3, 7]] ∧
      (shortest_distance_calculator.CalculateDistances false 0 0 0
          (exampleEngine true)).ShortestDistance = 3 ∧
      shortest_distance_calculator.ShortestPath false 0 0 0
          (shortest_distance_calculator.CalculateDistances false 0 0 0 (exampleEngine true))
        = Except.ok [0, 0, 0]) := by
  intro h
  exact absurd h.1 (by decide)

/-! ### The restricted building phase -/

theorem insert_restricted_step (M rest : List max_linear_costs) (m : max_linear_costs)
    (i : Nat) (hinv : RestrictedInv M (m :: rest))
    (hm : ∀ q ∈ rest, m.MaxCost ≤ q.MaxCost) :
    ∃ M', Marginals.insert true m { M := M, i := i, populated := false }
        = some { M := M', i := i, populated := false } ∧ RestrictedInv M' rest := by
  obtain ⟨hsort, hlin, hbound⟩ := hinv
  unfold Marginals.insert
  rw [if_pos rfl]
  simp only []
  cases hb : M.getLast? with
  | none =>
    have hM : M = [] := by simpa using hb
    subst hM
    refine ⟨[m], by simp, by simp, by simp, ?_⟩
    intro e he q hq
    simp only [List.mem_singleton] at he
    subst he
    exact hm q hq
  | some b =>
    obtain ⟨hset, hMeq⟩ := set_last_eq M b { b with LinearCost := min b.LinearCost m.LinearCost } hb
    generalize M.dropLast = L at hset hMeq
    subst hMeq
    simp only [List.map_append, List.pairwise_append, List.map_cons, List.map_nil,
      List.mem_map, List.mem_singleton, forall_exists_index, and_imp,
      forall_apply_eq_imp_iff₂] at hsort hlin
    have hbm : b.MaxCost ≤ m.MaxCost := hbound b (by simp) m (by simp)
    by_cases heq : b.MaxCost = m.MaxCost
    · simp only [if_pos heq]
      refine ⟨_, rfl, ?_⟩
      rw [hset]
      refine ⟨?_, ?_, ?_⟩
      · simp only [List.map_append, List.pairwise_append, List.map_cons, List.map_nil,
          List.mem_map, List.mem_singleton, forall_exists_index, and_imp,
          forall_apply_eq_imp_iff₂]
        exact ⟨hsort.1, by simp, fun e he c hc => by subst hc; exact hsort.2.2 e he _ rfl⟩
      · simp only [List.map_append, List.pairwise_append, List.map_cons, List.map_nil,
          List.mem_map, List.mem_singleton, forall_exists_index, and_imp,
          forall_apply_eq_imp_iff₂]
        refine ⟨hlin.1, by simp, fun e he c hc => ?_⟩
        subst hc
        exact lt_of_le_of_lt (min_le_left _ _) (hlin.2.2 e he _ rfl)
      · intro e he q hq
        simp only [List.mem_append, List.mem_singleton] at he
        rcases he with he | he
        · exact hbound e (by simp [he]) q (by simp [hq])
        · subst he
          exact hbound b (by simp) q (by simp [hq])
    · simp only [if_neg heq]
      have hblt : b.MaxCost < m.MaxCost := lt_of_le_of_ne hbm heq
      by_cases hdrop : m.LinearCost ≥ b.LinearCost
      · rw [if_pos ⟨trivial, hdrop⟩]
        refine ⟨_, rfl, ?_⟩
        refine ⟨?_, ?_, ?_⟩
        · simp only [List.map_append, List.pairwise_append, List.map_cons, List.map_nil,
            List.mem_map, List.mem_singleton, forall_exists_index, and_imp,
            forall_apply_eq_imp_iff₂]
          exact hsort
        · simp only [List.map_append, List.pairwise_append, List.map_cons, List.map_nil,
            List.mem_map, List.mem_singleton, forall_exists_index, and_imp,
            forall_apply_eq_imp_iff₂]
          exact hlin
        · intro e he q hq
          exact hbound e he q (by simp [hq])
      · rw [if_neg (fun h => hdrop h.2)]
        refine ⟨_, rfl, ?_⟩
        have hlt : m.LinearCost < b.LinearCost := not_le.1 hdrop
        refine ⟨?_, ?_, ?_⟩
        · simp only [List.map_append, List.pairwise_append, List.map_cons, List.map_nil,
            List.mem_map, List.mem_singleton, forall_exists_index, and_imp,
            forall_apply_eq_imp_iff₂, List.mem_append]
          refine ⟨⟨hsort.1, by simp, hsort.2.2⟩, by simp, ?_⟩
          rintro c (⟨e, he, rfl⟩ | rfl) c' rfl
          · exact lt_trans (hsort.2.2 e he _ rfl) hblt
          · exact hblt
        · simp only [List.map_append, List.pairwise_append, List.map_cons, List.map_nil,
            List.mem_map, List.mem_singleton, forall_exists_index, and_imp,
            forall_apply_eq_imp_iff₂, List.mem_append]
          refine ⟨⟨hlin.1, by simp, hlin.2.2⟩, by simp, ?_⟩
          rintro c (⟨e, he, rfl⟩ | rfl) c' rfl
          · exact lt_trans hlt (hlin.2.2 e he _ rfl)
          · exact hlt
        · intro e he q hq
          simp only [List.mem_append, List.mem_singleton] at he
          rcases he with he | he
          · exact hbound e (by simp [he]) q (by simp [hq])
          · subst he
            exact hm q hq

theorem insertAll_restricted (rest : List max_linear_costs) :
    ∀ (M : List max_linear_costs) (i : Nat), RestrictedInv M rest →
      rest.Pairwise (fun a b => a.MaxCost ≤ b.MaxCost) →
      ∃ M', Marginals.insertAll true rest { M := M, i := i, populated := false }
          = some { M := M', i := i, populated := false } ∧ RestrictedInv M' [] := by
  induction rest with
  | nil =>
    intro M i hinv _
    exact ⟨M, rfl, hinv⟩
  | cons m rest ih =>
    intro M i hinv hsorted
    rw [List.pairwise_cons] at hsorted
    obtain ⟨M1, h1, hinv1⟩ := insert_restricted_step M rest m i hinv hsorted.1
    obtain ⟨M2, h2, hinv2⟩ := ih M1 i hinv1 hsorted.2
    exact ⟨M2, by simp [Marginals.insertAll, h1, h2], hinv2⟩

/-- C12: inserting points sorted by non-decreasing `MaxCost` into an empty `Marginals` in
the building phase with `storeRestricted = true` succeeds and yields a vector with strictly
increasing `MaxCost` and strictly decreasing `LinearCost`; in particular no stored point is
dominated by an earlier stored point. -/
theorem C12_restricted_build_dominance_free (pts : List max_linear_costs)
    (hsorted : pts.Pairwise (fun a b => a.MaxCost ≤ b.MaxCost)) :
    ∃ s, Marginals.insertAll true pts Marginals.empty = some s ∧
      (s.M.map max_linear_costs.MaxCost).Pairwise (· < ·) ∧
      (s.M.map max_linear_costs.LinearCost).Pairwise (· > ·) ∧
      s.M.Pairwise (fun a b => ¬ (a.MaxCost ≤ b.MaxCost ∧ a.LinearCost ≤ b.LinearCost)) := by
  obtain ⟨M', h, hinv⟩ := insertAll_restricted pts [] 0 (by simp [RestrictedInv]) hsorted
  refine ⟨_, h, hinv.1, hinv.2.1, ?_⟩
  have h2 := hinv.2.1
  rw [List.pairwise_map] at h2
  exact h2.imp (fun hab hdom => absurd hdom.2 (not_le.2 hab))

/-- Witness for C12 on the input `(1,5), (1,3), (2,7), (4,2), (4,9), (6,1)`. -/
theorem C12_restricted_build_dominance_free_witness :
    ([⟨1, 5⟩, ⟨1, 3⟩, ⟨2, 7⟩, ⟨4, 2⟩, ⟨4, 9⟩, ⟨6, 1⟩] : List max_linear_costs).Pairwise
      (fun a b => a.MaxCost ≤ b.MaxCost) ∧
    ∃ s, Marginals.insertAll true [⟨1, 5⟩, ⟨1, 3⟩, ⟨2, 7⟩, ⟨4, 2⟩, ⟨4, 9⟩, ⟨6, 1⟩]
        Marginals.empty = some s ∧
      (s.M.map max_linear_costs.MaxCost).Pairwise (· < ·) ∧
      (s.M.map max_linear_costs.LinearCost).Pairwise (· > ·) ∧
      s.M.Pairwise (fun a b => ¬ (a.MaxCost ≤ b.MaxCost ∧ a.LinearCost ≤ b.LinearCost)) :=
  ⟨by decide, C12_restricted_build_dominance_free _ (by decide)⟩

/-! ### Seed chains -/

theorem foldl_min_le (l : List Nat) : ∀ a, l.foldl min a ≤ a ∧ ∀ k ∈ l, l.foldl min a ≤ k := by
  induction l with
  | nil => intro a; simp
  | cons b l ih =>
    intro a
    obtain ⟨h1, h2⟩ := ih (min a b)
    refine ⟨le_trans h1 (min_le_left _ _), ?_⟩
    intro k hk
    simp only [List.mem_cons] at hk
    rcases hk with rfl | hk
    · exact le_trans h1 (min_le_right _ _)
    · exact h2 k hk

theorem foldl_min_mem (l : List Nat) : ∀ a, l.foldl min a = a ∨ l.foldl min a ∈ l := by
  induction l with
  | nil => intro a; simp
  | cons b l ih =>
    intro a
    simp only [List.foldl_cons, List.mem_cons]
    rcases ih (min a b) with h | h
    · rcases min_choice a b with h' | h'
      · left; rw [h, h']
      · right; left; rw [h, h']
    · exact Or.inr (Or.inr h)

/-- On a non-empty vector `minLabels` is an entry of the vector and a lower bound of it. -/
theorem minLabels_spec (row : List Nat) (h : row ≠ []) :
    minLabels row ∈ row ∧ ∀ k ∈ row, minLabels row ≤ k := by
  cases row with
  | nil => exact absurd rfl h
  | cons a r =>
    unfold minLabels
    simp only [List.headD_cons, List.foldl_cons, min_self]
    constructor
    · rcases foldl_min_mem r a with h1 | h1
      · rw [h1]; simp
      · exact List.mem_cons_of_mem _ h1
    · intro k hk
      simp only [List.mem_cons] at hk
      rcases hk with rfl | hk
      · exact (foldl_min_le r k).1
      · exact (foldl_min_le r a).2 k hk

theorem seedInv_skip (sel : Nat → Prop) (m : Nat → Nat) (k : Nat) (idx : Option Nat)
    (val : Nat) (h : SeedInv sel m k idx val) (hk : ¬ sel k) : SeedInv sel m (k + 1) idx val := by
  cases idx with
  | none =>
    refine ⟨h.1, fun c hc hs => ?_⟩
    rcases Nat.lt_succ_iff_lt_or_eq.1 hc with hc | rfl
    · exact h.2 c hc hs
    · exact absurd hs hk
  | some i =>
    obtain ⟨h1, h2, h3, h4, h5⟩ := h
    refine ⟨Nat.lt_succ_of_lt h1, h2, h3, fun c hc hs => ?_, h5⟩
    rcases Nat.lt_succ_iff_lt_or_eq.1 hc with hc | rfl
    · exact h4 c hc hs
    · exact absurd hs hk

theorem seedInv_visit (sel : Nat → Prop) (m : Nat → Nat) (k : Nat) (idx : Option Nat)
    (val : Nat) (h : SeedInv sel m k idx val) (hk : sel k) :
    SeedInv sel m (k + 1) (if val > m k then some k else idx)
      (if val > m k then m k else val) := by
  by_cases hgt : val > m k
  · rw [if_pos hgt, if_pos hgt]
    refine ⟨Nat.lt_succ_self k, hk, rfl, fun c hc _ => ?_, fun c hc hs => ?_⟩
    · rcases Nat.lt_succ_iff_lt_or_eq.1 hc with hc | rfl
      · cases idx with
        | none => exact le_trans (le_of_lt hgt) (h.1 ▸ h.2 c hc ‹_›)
        | some i =>
          obtain ⟨_, _, h3, h4, _⟩ := h
          exact le_trans (le_of_lt hgt) (h3 ▸ h4 c hc ‹_›)
      · exact le_refl _
    · cases idx with
      | none => exact lt_of_lt_of_le hgt (h.1 ▸ h.2 c hc hs)
      | some i =>
        obtain ⟨_, _, h3, h4, _⟩ := h
        exact lt_of_lt_of_le hgt (h3 ▸ h4 c hc hs)
  · rw [if_neg hgt, if_neg hgt]
    have hle : val ≤ m k := not_lt.1 hgt
    cases idx with
    | none =>
      refine ⟨h.1, fun c hc hs => ?_⟩
      rcases Nat.lt_succ_iff_lt_or_eq.1 hc with hc | rfl
      · exact h.2 c hc hs
      · exact h.1 ▸ hle
    | some i =>
      obtain ⟨h1, h2, h3, h4, h5⟩ := h
      refine ⟨Nat.lt_succ_of_lt h1, h2, h3, fun c hc hs => ?_, h5⟩
      rcases Nat.lt_succ_iff_lt_or_eq.1 hc with hc | rfl
      · exact h4 c hc hs
      · exact h3 ▸ hle

theorem seedLoop_spec (info : ChainsInfo) (numLabels : List (List Nat))
    (hne : ∀ row ∈ numLabels, row ≠ []) (k : Nat) (hk1 : k ≤ numLabels.length)
    (hk2 : k ≤ info.IsHorizontalChain.length) :
    ∃ st, (List.range k).foldl (info.seedStep numLabels)
        (some { minIndexH := none, minIndexV := none,
                minValueH := INDEX_MAX, minValueV := INDEX_MAX }) = some st ∧
      SeedInv (fun c => info.IsHorizontal c = some true)
        (fun c => minLabels (numLabels.getD c [])) k st.minIndexH st.minValueH ∧
      SeedInv (fun c => info.IsVertical c = some true)
        (fun c => minLabels (numLabels.getD c [])) k st.minIndexV st.minValueV := by
  induction k with
  | zero =>
    refine ⟨_, rfl, ?_, ?_⟩
    · exact ⟨rfl, fun c hc => absurd hc (Nat.not_lt_zero c)⟩
    · exact ⟨rfl, fun c hc => absurd hc (Nat.not_lt_zero c)⟩
  | succ k ih =>
    obtain ⟨st, hst, hH, hV⟩ := ih (by omega) (by omega)
    rw [List.range_succ, List.foldl_append, hst]
    have hrow : numLabels[k]? = some numLabels[k] := List.getElem?_eq_getElem (by omega)
    have hor : info.IsHorizontalChain[k]? = some info.IsHorizontalChain[k] :=
      List.getElem?_eq_getElem (by omega)
    have hrne : numLabels[k] ≠ [] := hne _ (List.getElem_mem _)
    have hemp : (numLabels[k]).isEmpty = false := by
      cases hr : numLabels[k] with
      | nil => exact absurd hr hrne
      | cons a r => rfl
    have hm : minLabels (numLabels.getD k []) = minLabels numLabels[k] := by
      rw [List.getD_eq_getElem?_getD, hrow]; rfl
    simp only [List.foldl_cons, List.foldl_nil, ChainsInfo.seedStep, hrow,
      ChainsInfo.IsVertical, ChainsInfo.IsHorizontal, hor, Option.map_some', hemp,
      Bool.false_eq_true, if_false]
    cases hb : info.IsHorizontalChain[k] with
    | true =>
      have hselH : info.IsHorizontal k = some true := by
        unfold ChainsInfo.IsHorizontal; rw [hor, hb]
      have hselV : ¬ info.IsVertical k = some true := by
        unfold ChainsInfo.IsVertical ChainsInfo.IsHorizontal; rw [hor, hb]; simp
      have h1 := seedInv_visit _ _ k _ _ hH hselH
      have h2 := seedInv_skip _ _ k _ _ hV hselV
      simp only [hm] at h1
      simp only [Bool.not_true, Bool.false_eq_true, if_false]
      by_cases hgt : st.minValueH > minLabels numLabels[k]
      · rw [if_pos hgt] at h1 ⊢
        rw [if_pos hgt] at h1
        exact ⟨_, rfl, h1, h2⟩
      · rw [if_neg hgt] at h1 ⊢
        rw [if_neg hgt] at h1
        exact ⟨_, rfl, h1, h2⟩
    | false =>
      have hselH : ¬ info.IsHorizontal k = some true := by
        unfold ChainsInfo.IsHorizontal; rw [hor, hb]; simp
      have hselV : info.IsVertical k = some true := by
        unfold ChainsInfo.IsVertical ChainsInfo.IsHorizontal; rw [hor, hb]; rfl
      have h1 := seedInv_visit _ _ k _ _ hV hselV
      have h2 := seedInv_skip _ _ k _ _ hH hselH
      simp only [hm] at h1
      simp only [Bool.not_false, if_true]
      by_cases hgt : st.minValueV > minLabels numLabels[k]
      · rw [if_pos hgt] at h1 ⊢
        rw [if_pos hgt] at h1
        exact ⟨_, rfl, h2, h1⟩
      · rw [if_neg hgt] at h1 ⊢
        rw [if_neg hgt] at h1
        exact ⟨_, rfl, h2, h1⟩

theorem classifyLoop_shape (L : List (List Nat)) :
    ∀ (info info' : ChainsInfo), ChainsInfo.classifyLoop L info = some info' →
      info'.NumChains = info.NumChains ∧
      info'.IsHorizontalChain.length = info.IsHorizontalChain.length + L.length := by
  induction L with
  | nil =>
    intro info info' h
    simp only [ChainsInfo.classifyLoop, Option.some.injEq] at h
    subst h
    exact ⟨rfl, rfl⟩
  | cons ch L ih =>
    intro info info' h
    unfold ChainsInfo.classifyLoop at h
    split at h
    · split_ifs at h
      · obtain ⟨h1, h2⟩ := ih _ _ h
        refine ⟨h1, ?_⟩
        rw [h2]; simp; omega
      · obtain ⟨h1, h2⟩ := ih _ _ h
        refine ⟨h1, ?_⟩
        rw [h2]; simp; omega
    · exact absurd h (by simp)

theorem fillLoop_shape (L : List (List Nat)) :
    ∀ (c : Nat) (info info' : ChainsInfo), ChainsInfo.fillLoop c L info = some info' →
      info'.NumChains = info.NumChains ∧ info'.IsHorizontalChain = info.IsHorizontalChain := by
  induction L with
  | nil =>
    intro c info info' h
    simp only [ChainsInfo.fillLoop, Option.some.injEq] at h
    subst h
    exact ⟨rfl, rfl⟩
  | cons ch L ih =>
    intro c info info' h
    unfold ChainsInfo.fillLoop at h
    split at h
    · dsimp only at h
      split_ifs at h
      have hrec := ih _ _ _ h
      exact hrec
    · dsimp only at h
      split_ifs at h
      have hrec := ih _ _ _ h
      exact hrec
    · exact absurd h (by simp)

/-- A constructed `ChainsInfo` has one orientation flag per chain. -/
theorem chainsInfo_shape (chains : List (List Nat)) (info : ChainsInfo)
    (h : ChainsInfo.new chains = some info) :
    info.NumChains = chains.length ∧ info.IsHorizontalChain.length = chains.length := by
  unfold ChainsInfo.new at h
  split at h
  · exact absurd h (by simp)
  · rename_i info0 hc
    obtain ⟨h1, h2⟩ := classifyLoop_shape _ _ _ hc
    simp only [List.length_nil, zero_add] at h1 h2
    dsimp only at h
    split_ifs at h
    · obtain ⟨h3, h4⟩ := fillLoop_shape _ _ _ _ h
      exact ⟨by rw [h3]; exact h1, by rw [h4]; exact h2⟩
    · simp only [Option.some.injEq] at h
      subst h
      exact ⟨h1, h2⟩

/-- C13: for a constructed `ChainsInfo` with at least one horizontal and at least one
vertical chain, and `numLabels` holding one non-empty list of label counts per chain,
`GetSeedChains` returns `(h, v)` where `h` is a horizontal chain whose minimum label count is
at most that of every horizontal chain and strictly below that of every horizontal chain of
lower index, and `v` is the same among the vertical chains. A label count is the size of a
label set, which is below `INDEX_MAX`, the largest index value. -/
theorem C13_seed_chains (chains : List (List Nat)) (info : ChainsInfo)
    (numLabels : List (List Nat)) (hnew : ChainsInfo.new chains = some info)
    (hlen : numLabels.length = chains.length) (hne : ∀ row ∈ numLabels, row ≠ [])
    (hword : ∀ row ∈ numLabels, ∀ k ∈ row, k < INDEX_MAX)
    (hH : ∃ c, info.IsHorizontal c = some true) (hV : ∃ c, info.IsVertical c = some true) :
    ∃ h v, info.GetSeedChains numLabels = some (h, v) ∧
      info.IsHorizontal h = some true ∧ info.IsVertical v = some true ∧
      (∀ c, info.IsHorizontal c = some true →
        minLabels (numLabels.getD h []) ≤ minLabels (numLabels.getD c [])) ∧
      (∀ c, c < h → info.IsHorizontal c = some true →
        minLabels (numLabels.getD h []) < minLabels (numLabels.getD c [])) ∧
      (∀ c, info.IsVertical c = some true →
        minLabels (numLabels.getD v []) ≤ minLabels (numLabels.getD c [])) ∧
      (∀ c, c < v → info.IsVertical c = some true →
        minLabels (numLabels.getD v []) < minLabels (numLabels.getD c [])) := by
  obtain ⟨hn, hor⟩ := chainsInfo_shape chains info hnew
  obtain ⟨st, hst, invH, invV⟩ := seedLoop_spec info numLabels hne info.NumChains
    (by omega) (by omega)
  have hrange : ∀ c b, info.IsHorizontalChain[c]? = some b → c < info.NumChains := by
    intro c b hc
    have := (List.getElem?_eq_some_iff.1 hc).1
    omega
  have hrangeH : ∀ c, info.IsHorizontal c = some true → c < info.NumChains :=
    fun c hc => hrange c true hc
  have hrangeV : ∀ c, info.IsVertical c = some true → c < info.NumChains := by
    intro c hc
    unfold ChainsInfo.IsVertical ChainsInfo.IsHorizontal at hc
    cases hb : info.IsHorizontalChain[c]? with
    | none => rw [hb] at hc; simp at hc
    | some b => exact hrange c b hb
  have hsmall : ∀ c, c < info.NumChains → minLabels (numLabels.getD c []) < INDEX_MAX := by
    intro c hc
    have hc' : c < numLabels.length := by omega
    have hrow : numLabels.getD c [] = numLabels[c] := by
      rw [List.getD_eq_getElem?_getD, List.getElem?_eq_getElem hc']; rfl
    rw [hrow]
    have hmem : numLabels[c] ∈ numLabels := List.getElem_mem _
    exact hword _ hmem _ (minLabels_spec _ (hne _ hmem)).1
  unfold ChainsInfo.GetSeedChains
  rw [hst]
  cases hiH : st.minIndexH with
  | none =>
    rw [hiH] at invH
    obtain ⟨c, hc⟩ := hH
    exact absurd (invH.2 c (hrangeH c hc) hc) (not_le.2 (hsmall c (hrangeH c hc)))
  | some h =>
    cases hiV : st.minIndexV with
    | none =>
      rw [hiV] at invV
      obtain ⟨c, hc⟩ := hV
      exact absurd (invV.2 c (hrangeV c hc) hc) (not_le.2 (hsmall c (hrangeV c hc)))
    | some v =>
      rw [hiH] at invH
      rw [hiV] at invV
      obtain ⟨_, a2, _, a4, a5⟩ := invH
      obtain ⟨_, b2, _, b4, b5⟩ := invV
      exact ⟨h, v, by simp only [hiH, hiV], a2, b2, fun c hc => a4 c (hrangeH c hc) hc, a5,
        fun c hc => b4 c (hrangeV c hc) hc, b5⟩

/-- Witness for C13 on the `2 x 2` grid with the label counts `3, 2, 2, 4` of the nodes
`0, 1, 2, 3`: the seed chains are the first row and the first column. -/
theorem C13_seed_chains_witness :
    ChainsInfo.new [[0, 1], [2, 3], [0, 2], [1, 3]] = some exampleGridInfo ∧
    exampleGridInfo.GetSeedChains [[3, 2], [2, 4], [3, 2], [2, 4]] = some (0, 2) ∧
    ∃ h v, exampleGridInfo.GetSeedChains [[3, 2], [2, 4], [3, 2], [2, 4]] = some (h, v) ∧
      exampleGridInfo.IsHorizontal h = some true ∧ exampleGridInfo.IsVertical v = some true ∧
      (∀ c, exampleGridInfo.IsHorizontal c = some true →
        minLabels (([[3, 2], [2, 4], [3, 2], [2, 4]] : List (List Nat)).getD h [])
          ≤ minLabels (([[3, 2], [2, 4], [3, 2], [2, 4]] : List (List Nat)).getD c [])) ∧
      (∀ c, c < h → exampleGridInfo.IsHorizontal c = some true →
        minLabels (([[3, 2], [2, 4], [3, 2], [2, 4]] : List (List Nat)).getD h [])
          < minLabels (([[3, 2], [2, 4], [3, 2], [2, 4]] : List (List Nat)).getD c [])) ∧
      (∀ c, exampleGridInfo.IsVertical c = some true →
        minLabels (([[3, 2], [2, 4], [3, 2], [2, 4]] : List (List Nat)).getD v [])
          ≤ minLabels (([[3, 2], [2, 4], [3, 2], [2, 4]] : List (List Nat)).getD c [])) ∧
      (∀ c, c < v → exampleGridInfo.IsVertical c = some true →
        minLabels (([[3, 2], [2, 4], [3, 2], [2, 4]] : List (List Nat)).getD v [])
          < minLabels (([[3, 2], [2, 4], [3, 2], [2, 4]] : List (List Nat)).getD c [])) :=
  ⟨by decide, by decide,
    C13_seed_chains [[0, 1], [2, 3], [0, 2], [1, 3]] exampleGridInfo
      [[3, 2], [2, 4], [3, 2], [2, 4]] (by decide) (by decide) (by decide) (by decide)
      ⟨0, by decide⟩ ⟨2, by decide⟩⟩

/-! ### What `init` resets -/

/-- The method `init` writes the best distance and the source row only: every other row of
the distance table is left as it was. -/
theorem init_other_rows (s : shortest_distance_calculator) (n : Nat)
    (hn : n ≠ (if s.DoForward = true then 0 else s.distance.length - 1)) :
    s.init.shortestPathDistance = REAL_MAX ∧ s.init.distance.getD n [] = s.distance.getD n [] := by
  refine ⟨rfl, ?_⟩
  unfold shortest_distance_calculator.init
  simp only [List.getD_eq_getElem?_getD]
  rw [List.getElem?_set_ne (Ne.symm hn)]

/-- C14 fails on the code: after `CalculateDistances(0)` on the fresh forward engine of the
three-node example, `init()` resets the best distance and the source row but leaves the rows
of the nodes `1` and `2` at `[2,5]` and `[3]`. A following `CalculateDistances(-1)`, under
which no edge is admissible, therefore reports the best distance `3`, where the same call on
a fresh engine reports `REAL_MAX`. -/
theorem C14_init_keeps_other_rows :
    (shortest_distance_calculator.CalculateDistances false 0 0 0
        (exampleEngine true)).init.distance = [[0], [2, 5], [3]] ∧
    (shortest_distance_calculator.CalculateDistances false 0 0 0
        (exampleEngine true)).init.shortestPathDistance = REAL_MAX ∧
    (shortest_distance_calculator.CalculateDistances false (-1) 0 0
        (shortest_distance_calculator.CalculateDistances false 0 0 0
          (exampleEngine true))).ShortestDistance = 3 ∧
    (shortest_distance_calculator.CalculateDistances false (-1) 0 0
        (exampleEngine true)).ShortestDistance = REAL_MAX := by
  decide

/-! ### Backtracking past an unresolved position -/

/-- C15 fails on the code: on the three-node example after `CalculateDistances(0)`,
`ShortestPath(-1)` finds no admissible predecessor at the step for node `1` and leaves
`path[1]` at `INDEX_MAX`; the loop goes on to the step for node `0`, which indexes the
potential tables with the label `path[1] = INDEX_MAX`, outside the two labels of node `1`,
before the closing check is reached. -/
theorem C15_shortestPath_reads_unset_label :
    shortest_distance_calculator.backtrackStep sweptExample (-1) 1 [INDEX_MAX, INDEX_MAX, 0]
      = Except.ok [INDEX_MAX, INDEX_MAX, 0] ∧
    shortest_distance_calculator.backtrackStep sweptExample (-1) 0 [INDEX_MAX, INDEX_MAX, 0]
      = Except.error shortest_distance_calculator.PathFailure.outOfRange ∧
    shortest_distance_calculator.ShortestPath false (-1) 0 0 sweptExample
      = Except.error shortest_distance_calculator.PathFailure.outOfRange := by
  refine ⟨?_, ?_, ?_⟩ <;> rfl

/-! ### The completeness check of the rounding -/

/-- C16 fails on the code: on two chains `0, 1` and `2, 3` that share no node, the queue
empties with the nodes `2` and `3` unassigned, the check after the loop passes, and
`ComputeSolution` returns a labeling in which both hold `INDEX_MAX`. -/
theorem C16_unassigned_nodes_pass_the_check :
    (GreedyRoundingChains.new disconnectedExample [[0, 1], [2, 3]]).map
        (fun g => (g.SeedNode, g.NumNodes)) = some (0, 4) ∧
    (GreedyRoundingChains.new disconnectedExample [[0, 1], [2, 3]]).bind
        (fun g => g.ComputeSolution) = some [[0, 0], [INDEX_MAX, INDEX_MAX]] := by
  decide

/-! ### The anchor of the rounding -/

/-- C20 fails on the code: on the single chain `0, 1` in which node `1` is the only node
with one label, no edge has that node as its left endpoint, the anchor is never set and the
construction fails; with the one-label node on the left instead, it is found. -/
theorem C20_seed_at_chain_end_not_found :
    lastNodeSeedExample.map (fun pot => (pot.dim2 0, pot.dim3 0)) = [(2, 1)] ∧
    (GreedyRoundingChains.new lastNodeSeedExample [[0, 1]]).map (fun g => g.SeedNode) = none ∧
    (GreedyRoundingChains.new [three_dimensional_variable_array.ofLists [[[0, 0]]]]
        [[0, 1]]).map (fun g => g.SeedNode) = some 0 := by
  decide

/-! ### Grid topology: a single chain -/

/-- C17 fails on the code: for a `ChainsInfo` built from the single horizontal chain
`0 .. n-1` with `n ≥ 2`, the constructor sets `NumVerticalChains = 0` and
`HChainIndices = [0]`, and both `GetHorizontalChainIndexAtGridLoc(i)` and
`GetEdgeIndexFromGridEdge(i, i+1)` divide by `NumVerticalChains`, that is by zero, for
every `i`. -/
theorem C17_single_chain_lookup_divides_by_zero (n i : Nat) (hn : 2 ≤ n) :
    ∃ info, ChainsInfo.new [List.range n] = some info ∧
      info.NumVerticalChains = 0 ∧ info.HChainIndices = [0] ∧
      info.GetHorizontalChainIndexAtGridLoc i = none ∧
      info.GetEdgeIndexFromGridEdge i (i + 1) = none := by
  have h0 : (List.range n)[0]? = some 0 := List.getElem?_range (by omega)
  have h1 : (List.range n)[1]? = some 1 := List.getElem?_range (by omega)
  have hnew : ChainsInfo.new [List.range n] = some
      { ChainNodeToOriginalNode := [List.range n]
        NumChains := 1
        IsHorizontalChain := [true]
        HChainIndices := [0]
        VChainIndices := []
        NumHorizontalChains := 1
        NumVerticalChains := 0
        SizeH := n
        SizeV := 1 } := by
    unfold ChainsInfo.new ChainsInfo.classifyLoop
    rw [h0, h1]
    simp [ChainsInfo.classifyLoop]
  refine ⟨_, hnew, rfl, rfl, rfl, ?_⟩
  unfold ChainsInfo.GetEdgeIndexFromGridEdge ChainsInfo.GetHorizontalChainIndexAtGridLoc
  simp

/-- Witness for C17 on the chain `0, 1, 2` at `i = 1`. -/
theorem C17_single_chain_lookup_divides_by_zero_witness :
    2 ≤ 3 ∧ ∃ info, ChainsInfo.new [List.range 3] = some info ∧
      info.NumVerticalChains = 0 ∧ info.HChainIndices = [0] ∧
      info.GetHorizontalChainIndexAtGridLoc 1 = none ∧
      info.GetEdgeIndexFromGridEdge 1 (1 + 1) = none :=
  ⟨by decide, C17_single_chain_lookup_divides_by_zero 3 1 (by decide)⟩

/-! ### The pinned label and the backward sweep -/

/-- C18 fails on the code in the backward direction: on the three-node example with node
`1` pinned to label `1`, the only labeling through the pinned label is `[0,1,0]`, of Linear
cost `8`, which the forward engine reports after `CalculateDistances(0)`; the backward
engine reports `3`, the cost of the labeling `[0,0,0]` that violates the pin. -/
theorem C18_backward_sweep_ignores_pinned_label :
    (∀ p : List Nat, p.length = 3 → pathOK exampleMax [1, 2, 1] 0 0 p → p.getD 1 0 = 1 →
      p = [0, 1, 0] ∧ pathCost exampleLinear 0 p = 8) ∧
    (shortest_distance_calculator.CalculateDistances false 0 0 0
      (pinnedExample true)).ShortestDistance = 8 ∧
    (shortest_distance_calculator.CalculateDistances false 0 0 0
      (pinnedExample false)).ShortestDistance = 3 ∧
    (shortest_distance_calculator.CalculateDistances false 0 0 0
      (pinnedExample false)).distance = [[3], [1, 3], [0]] := by
  refine ⟨?_, by decide, by decide, by decide⟩
  intro p hlen hok hpin
  match p, hlen with
  | [a, b, c], _ =>
    simp only [pathOK, List.getD_cons_succ, List.getD_cons_zero] at hok hpin
    have ha : a = 0 := by
      have := hok.1
      simp at this
      omega
    have hc : c = 0 := by
      have := hok.2.2.2.2
      simp at this
      omega
    subst ha; subst hc; subst hpin
    exact ⟨rfl, by decide⟩

/-! ### Replaying a frontier -/

/-- The two outcomes of an unrestricted insert in the building phase: the point is appended,
or it is merged into the last entry, which has its `MaxCost`. -/
theorem insert_building_cases (m : max_linear_costs) (b : Marginals)
    (hb : b.populated = false) :
    ((∀ bl, b.M.getLast? = some bl → bl.MaxCost ≠ m.MaxCost) ∧
      Marginals.insert false m b = some { b with M := b.M ++ [m] }) ∨
    (∃ L bl, b.M = L ++ [bl] ∧ bl.MaxCost = m.MaxCost ∧
      Marginals.insert false m b
        = some { b with M := L ++ [{ bl with LinearCost := min bl.LinearCost m.LinearCost }] }) := by
  unfold Marginals.insert
  rw [if_pos hb]
  cases hl : b.M.getLast? with
  | none =>
    left
    exact ⟨fun bl h => by simp at h, rfl⟩
  | some bl =>
    obtain ⟨hset, hMeq⟩ := set_last_eq b.M bl
      { bl with LinearCost := min bl.LinearCost m.LinearCost } hl
    by_cases heq : bl.MaxCost = m.MaxCost
    · right
      refine ⟨b.M.dropLast, bl, hMeq, heq, ?_⟩
      simp only [if_pos heq]
      rw [hset]
    · left
      refine ⟨fun bl' h => by cases h; exact heq, ?_⟩
      simp only [if_neg heq, Bool.false_eq_true, false_and, if_false]

theorem insert_building_prefix (m : max_linear_costs) (b b' : Marginals)
    (hb : b.populated = false) (h : Marginals.insert false m b = some b') :
    b'.populated = false ∧
    b.M.map max_linear_costs.MaxCost <+: b'.M.map max_linear_costs.MaxCost := by
  rcases insert_building_cases m b hb with ⟨_, h1⟩ | ⟨L, bl, hM, _, h1⟩
  · rw [h1] at h
    cases h
    exact ⟨hb, by simp⟩
  · rw [h1] at h
    cases h
    refine ⟨hb, ?_⟩
    rw [hM]
    simp

theorem insertAll_building_prefix (Q : List max_linear_costs) :
    ∀ (b B : Marginals), b.populated = false → Marginals.insertAll false Q b = some B →
      b.M.map max_linear_costs.MaxCost <+: B.M.map max_linear_costs.MaxCost := by
  induction Q with
  | nil =>
    intro b B _ h
    cases h
    exact List.prefix_refl _
  | cons m Q ih =>
    intro b B hb h
    simp only [Marginals.insertAll] at h
    cases h1 : Marginals.insert false m b with
    | none => rw [h1] at h; simp at h
    | some b' =>
      rw [h1] at h
      obtain ⟨hb', hp⟩ := insert_building_prefix m b b' hb h1
      exact hp.trans (ih b' B hb' h)

/-- Overwriting position `n` of a vector whose `MaxCost` column starts with that of
`B ++ [m]`, where `B` is its first `n` entries. -/
theorem replay_write_spec (M B : List max_linear_costs) (m : max_linear_costs)
    (htake : M.take B.length = B)
    (hpre : (B ++ [m]).map max_linear_costs.MaxCost <+: M.map max_linear_costs.MaxCost) :
    ∃ q, M[B.length]? = some q ∧ q.MaxCost = m.MaxCost ∧
      (M.set B.length { q with LinearCost := m.LinearCost }).take (B.length + 1) = B ++ [m] ∧
      (M.set B.length { q with LinearCost := m.LinearCost }).map max_linear_costs.MaxCost
        = M.map max_linear_costs.MaxCost := by
  obtain ⟨T, hT⟩ := hpre
  have hlen : B.length < M.length := by
    have := congrArg List.length hT
    simp at this
    omega
  have hq : (M.map max_linear_costs.MaxCost)[B.length]? = some m.MaxCost := by
    rw [← hT, List.map_append, List.append_assoc]
    rw [List.getElem?_append_right (by simp)]
    simp
  rw [List.getElem?_map] at hq
  have hMq : M[B.length]? = some M[B.length] := List.getElem?_eq_getElem hlen
  rw [hMq] at hq
  simp only [Option.map_some', Option.some.injEq] at hq
  refine ⟨M[B.length], hMq, hq, ?_, ?_⟩
  · have hm : ({ M[B.length] with LinearCost := m.LinearCost } : max_linear_costs) = m := by
      cases m
      simp only [max_linear_costs.mk.injEq, and_true]
      exact hq
    rw [hm, List.take_succ, List.set_take, htake, List.set_eq_of_length_le (le_refl _)]
    simp [List.getElem?_set_self hlen]
  · apply List.ext_getElem?
    intro k
    simp only [List.getElem?_map, List.getElem?_set]
    by_cases hk : B.length = k
    · subst hk
      simp [hlen, hMq]
    · simp [hk]

theorem map_set_same {α β : Type} (f : α → β) (M : List α) (k : Nat) (x y : α)
    (h : M[k]? = some y) (hf : f x = f y) : (M.set k x).map f = M.map f := by
  apply List.ext_getElem?
  intro j
  simp only [List.getElem?_map, List.getElem?_set]
  by_cases hk : k = j
  · subst hk
    have hlt : k < M.length := (List.getElem?_eq_some_iff.1 h).1
    simp [hlt, h, hf]
  · simp [hk]

/-- One replayed insert follows one building insert: if the replaying vector starts with
the vector built so far and has the `MaxCost` column the building is heading for, the same
holds after the point has been inserted on both sides. -/
theorem replay_step (m : max_linear_costs) (b b' r : Marginals)
    (hb : b.populated = false) (hr : r.populated = true) (hi : r.i = b.M.length)
    (htake : r.M.take r.i = b.M) (hins : Marginals.insert false m b = some b')
    (hpre : b'.M.map max_linear_costs.MaxCost <+: r.M.map max_linear_costs.MaxCost) :
    ∃ r', Marginals.insert false m r = some r' ∧ r'.populated = true ∧
      r'.i = b'.M.length ∧ r'.M.take r'.i = b'.M ∧
      r'.M.map max_linear_costs.MaxCost = r.M.map max_linear_costs.MaxCost := by
  have hpop : ¬ r.populated = false := by rw [hr]; simp
  have hprev : 0 < r.i → r.M[r.i - 1]? = b.M.getLast? := by
    intro hpos
    rw [List.getLast?_eq_getElem?, ← htake, List.getElem?_take_of_lt]
    · rw [htake, ← hi]
    · rw [htake, ← hi]; omega
  rcases insert_building_cases m b hb with ⟨hne, h1⟩ | ⟨L, bl, hM, heq, h1⟩
  · rw [h1] at hins
    cases hins
    rw [hi] at htake
    obtain ⟨q, hq, hqm, ht, hmap⟩ := replay_write_spec r.M b.M m htake hpre
    have hwrite : r.replayWrite m = some { r with
        M := r.M.set r.i { q with LinearCost := m.LinearCost }, i := r.i + 1 } := by
      unfold Marginals.replayWrite
      rw [hi, hq]
    have hres : Marginals.insert false m r = r.replayWrite m := by
      unfold Marginals.insert
      rw [if_neg hpop]
      by_cases hpos : 0 < r.i
      · rw [if_pos hpos]
        have hp := hprev hpos
        cases hl : b.M.getLast? with
        | none =>
          have : b.M = [] := by simpa using hl
          rw [this, List.length_nil] at hi
          omega
        | some bl =>
          rw [hl] at hp
          rw [hp]
          simp only [if_neg (hne bl hl), Bool.false_eq_true, false_and, if_false]
      · rw [if_neg hpos]
        simp
    refine ⟨_, hres.trans hwrite, hr, ?_, ?_, ?_⟩
    · simp [hi]
    · simp only [hi]
      exact ht
    · simp only [hi]
      exact hmap
  · rw [h1] at hins
    cases hins
    have hlen : b.M.length = L.length + 1 := by rw [hM]; simp
    have hpos : 0 < r.i := by omega
    have hp := hprev hpos
    have hlast : b.M.getLast? = some bl := by rw [hM]; simp
    rw [hlast] at hp
    have hres : Marginals.insert false m r = some { r with
        M := r.M.set (r.i - 1) { bl with LinearCost := min bl.LinearCost m.LinearCost } } := by
      unfold Marginals.insert
      rw [if_neg hpop, if_pos hpos, hp]
      simp only [if_pos heq]
    refine ⟨_, hres, hr, ?_, ?_, ?_⟩
    · simp [hi, hlen]
    · simp only
      rw [List.set_take, htake, hM, hi, hlen]
      simp [List.set_append]
    · exact map_set_same _ _ _ _ _ hp rfl

theorem replay_follows_building (Q : List max_linear_costs) :
    ∀ (b r B : Marginals), b.populated = false → r.populated = true → r.i = b.M.length →
      r.M.take r.i = b.M → Marginals.insertAll false Q b = some B →
      B.M.map max_linear_costs.MaxCost = r.M.map max_linear_costs.MaxCost →
      ∃ R, Marginals.insertAll false Q r = some R ∧ R.M = B.M := by
  induction Q with
  | nil =>
    intro b r B _ _ hi htake hB hcol
    cases hB
    refine ⟨r, rfl, ?_⟩
    have hlen : b.M.length = r.M.length := by
      have := congrArg List.length hcol
      simpa using this
    rw [← htake, hi, hlen, List.take_length]
  | cons m Q ih =>
    intro b r B hb hr hi htake hB hcol
    simp only [Marginals.insertAll] at hB
    cases h1 : Marginals.insert false m b with
    | none => rw [h1] at hB; simp at hB
    | some b' =>
      rw [h1] at hB
      have hB' : Marginals.insertAll false Q b' = some B := hB
      obtain ⟨hb', _⟩ := insert_building_prefix m b b' hb h1
      have hpre := insertAll_building_prefix Q b' B hb' hB'
      rw [hcol] at hpre
      obtain ⟨r', hr1, hr2, hr3, hr4, hr5⟩ := replay_step m b b' r hb hr hi htake h1 hpre
      obtain ⟨R, hR1, hR2⟩ := ih b' r' B hb' hr2 hr3 hr4 hB' (by rw [hr5]; exact hcol)
      exact ⟨R, by simp [Marginals.insertAll, hr1, hR1], hR2⟩

theorem insert_replay_length (sr : Bool) (m : max_linear_costs) (s s' : Marginals)
    (hs : s.populated = true) (h : Marginals.insert sr m s = some s') :
    s'.populated = true ∧ s'.M.length = s.M.length := by
  have hpop : ¬ s.populated = false := by rw [hs]; simp
  have hw : ∀ s'', s.replayWrite m = some s'' →
      s''.populated = true ∧ s''.M.length = s.M.length := by
    intro s'' h2
    unfold Marginals.replayWrite at h2
    split at h2
    · exact absurd h2 (by simp)
    · cases h2
      exact ⟨hs, by simp⟩
  unfold Marginals.insert at h
  rw [if_neg hpop] at h
  split_ifs at h with h0 h3
  · split at h
    · exact absurd h (by simp)
    · split_ifs at h
      · cases h
        exact ⟨hs, by simp⟩
      · cases h
        exact ⟨hs, rfl⟩
      · exact hw _ h
  · exact hw _ h

theorem insertAll_replay_length (sr : Bool) (P : List max_linear_costs) :
    ∀ (s s' : Marginals), s.populated = true → Marginals.insertAll sr P s = some s' →
      s'.populated = true ∧ s'.M.length = s.M.length := by
  induction P with
  | nil =>
    intro s s' hs h
    cases h
    exact ⟨hs, rfl⟩
  | cons m P ih =>
    intro s s' hs h
    simp only [Marginals.insertAll] at h
    cases h1 : Marginals.insert sr m s with
    | none => rw [h1] at h; simp at h
    | some s1 =>
      rw [h1] at h
      obtain ⟨a1, a2⟩ := insert_replay_length sr m s s1 hs h1
      obtain ⟨c1, c2⟩ := ih s1 s' a1 h
      exact ⟨c1, by rw [c2, a2]⟩

theorem insertAll_append (sr : Bool) (P Q : List max_linear_costs) :
    ∀ s, Marginals.insertAll sr (P ++ Q) s
      = (Marginals.insertAll sr P s).bind (Marginals.insertAll sr Q) := by
  induction P with
  | nil => intro s; rfl
  | cons m P ih =>
    intro s
    simp only [List.cons_append, Marginals.insertAll]
    cases Marginals.insert sr m s with
    | none => rfl
    | some s1 => exact ih s1

/-- Two strictly increasing lists with the same elements are equal. -/
theorem sorted_eq_of_mem_iff (l1 l2 : List REAL) (h1 : l1.Pairwise (· < ·))
    (h2 : l2.Pairwise (· < ·)) (h : ∀ c, c ∈ l1 ↔ c ∈ l2) : l1 = l2 := by
  have n1 : l1.Nodup := h1.imp (fun hab => ne_of_lt hab)
  have n2 : l2.Nodup := h2.imp (fun hab => ne_of_lt hab)
  exact List.eq_of_perm_of_sorted ((List.perm_ext_iff_of_nodup n1 n2).2 h) h1 h2

/-- C19: in unrestricted mode, for sequences `S` and `S'` sorted by non-decreasing `MaxCost`
with the same sequence of distinct `MaxCost` values, building a `Marginals` from `S`,
calling `Populated()` and inserting the points of `S'` in order succeeds and leaves exactly
the vector that building a fresh `Marginals` from `S'` yields; after every prefix of the
replay the vector has the length it had when the replay started. -/
theorem C19_replay_equals_rebuild (S S' : List max_linear_costs)
    (hS : S.Pairwise (fun a b => a.MaxCost ≤ b.MaxCost))
    (hS' : S'.Pairwise (fun a b => a.MaxCost ≤ b.MaxCost))
    (hsame : (S.map max_linear_costs.MaxCost).dedup = (S'.map max_linear_costs.MaxCost).dedup) :
    ∃ A B R, Marginals.insertAll false S Marginals.empty = some A ∧
      Marginals.insertAll false S' Marginals.empty = some B ∧
      Marginals.insertAll false S' A.Populated = some R ∧ R.M = B.M ∧
      ∀ P Q, S' = P ++ Q → ∃ r, Marginals.insertAll false P A.Populated = some r ∧
        r.M.length = A.M.length := by
  obtain ⟨MA, hA, invA⟩ := insertAll_building S [] [] 0 buildInv_nil (by simpa using hS)
  obtain ⟨MB, hB, invB⟩ := insertAll_building S' [] [] 0 buildInv_nil (by simpa using hS')
  simp only [List.nil_append] at invA invB
  have hcol : MB.map max_linear_costs.MaxCost = MA.map max_linear_costs.MaxCost := by
    apply sorted_eq_of_mem_iff _ _ invB.1 invA.1
    intro c
    rw [invB.2.1 c, invA.2.1 c, ← List.mem_dedup, ← hsame, List.mem_dedup]
  obtain ⟨R, hR, hRB⟩ := replay_follows_building S' Marginals.empty
    (Marginals.Populated { M := MA, i := 0, populated := false })
    { M := MB, i := 0, populated := false } rfl rfl rfl rfl hB hcol
  refine ⟨_, _, R, hA, hB, hR, hRB, ?_⟩
  intro P Q hPQ
  rw [hPQ, insertAll_append] at hR
  cases hP : Marginals.insertAll false P
      (Marginals.Populated { M := MA, i := 0, populated := false }) with
  | none => rw [hP] at hR; simp at hR
  | some r =>
    exact ⟨r, rfl, (insertAll_replay_length false P _ r rfl hP).2⟩

/-- Witness for C19: `S = (1,5), (1,3), (2,7)` and `S' = (1,4), (2,9), (2,6)`. -/
theorem C19_replay_equals_rebuild_witness :
    ([⟨1, 5⟩, ⟨1, 3⟩, ⟨2, 7⟩] : List max_linear_costs).Pairwise
      (fun a b => a.MaxCost ≤ b.MaxCost) ∧
    ([⟨1, 4⟩, ⟨2, 9⟩, ⟨2, 6⟩] : List max_linear_costs).Pairwise
      (fun a b => a.MaxCost ≤ b.MaxCost) ∧
    ∃ A B R, Marginals.insertAll false [⟨1, 5⟩, ⟨1, 3⟩, ⟨2, 7⟩] Marginals.empty = some A ∧
      Marginals.insertAll false [⟨1, 4⟩, ⟨2, 9⟩, ⟨2, 6⟩] Marginals.empty = some B ∧
      Marginals.insertAll false [⟨1, 4⟩, ⟨2, 9⟩, ⟨2, 6⟩] A.Populated = some R ∧ R.M = B.M ∧
      ∀ P Q, [⟨1, 4⟩, ⟨2, 9⟩, ⟨2, 6⟩] = P ++ Q →
        ∃ r, Marginals.insertAll false P A.Populated = some r ∧ r.M.length = A.M.length :=
  ⟨by decide, by decide, C19_replay_equals_rebuild _ _ (by decide) (by decide) (by decide)⟩

/-! ### The backward sweep and the restriction mode -/

theorem calculateDistances_backward_eq (t : REAL) (s0 : shortest_distance_calculator)
    (hf : s0.DoForward = false) :
    shortest_distance_calculator.CalculateDistances false t 0 0 s0 =
      { s0 with
        distance := ((sweepEdges false s0.NumLabels).foldl
          (fun d e => relaxTableIf false s0.LinearPairwisePotentials
            s0.MaxPairwisePotentials t e d) s0.init.distance)
        shortestPathDistance := (minElement
          (((sweepEdges false s0.NumLabels).foldl
            (fun d e => relaxTableIf false s0.LinearPairwisePotentials
              s0.MaxPairwisePotentials t e d) s0.init.distance).getD 0 [])) } := by
  unfold shortest_distance_calculator.CalculateDistances sweepEdges
  rw [hf]
  simp only [Bool.false_eq_true, if_false, Bool.false_and]
  have key := fold_backwardStep t
    ((List.range (s0.NumLabels.length - 1)).reverse.flatMap (fun n1 =>
      (shortest_distance_calculator.labelLoop false 0 (s0.NumLabels.getD n1 0)).flatMap
        (fun l1 => (List.range' 0 (s0.NumLabels.getD (n1 + 1) 0 - 0)).map
          (fun l2 => edge.mk n1 l1 l2)))) s0.init
  rw [foldl_flatMap_eq] at key
  simp only [foldl_flatMap_eq, List.foldl_map] at key
  rw [key]
  simp only [shortest_distance_calculator.init, foldl_flatMap_eq, List.foldl_map, hf]

/-- The backward sweep of `CalculateDistances` never consults `ToAddEdge`: on a fresh
backward engine the distance table and the best distance are those of the unrestricted
engine, whatever the restriction mode, boundary node and pinned label. -/
theorem backward_sweep_ignores_mode (us uf : Bool) (lin mx : three_dimensional_variable_array)
    (NL : List Nat) (t : REAL) (a b c : Nat) :
    (shortest_distance_calculator.CalculateDistances false t 0 0
        (shortest_distance_calculator.new false us uf lin mx NL a b c)).distance
      = (shortest_distance_calculator.CalculateDistances false t 0 0
        (shortest_distance_calculator.new false false false lin mx NL 0 0 0)).distance ∧
    (shortest_distance_calculator.CalculateDistances false t 0 0
        (shortest_distance_calculator.new false us uf lin mx NL a b c)).ShortestDistance
      = (shortest_distance_calculator.CalculateDistances false t 0 0
        (shortest_distance_calculator.new false false false lin mx NL 0 0 0)).ShortestDistance := by
  have h1 := init_freshTable (shortest_distance_calculator.new false us uf lin mx NL a b c)
    (new_distance false us uf lin mx NL a b c)
  have h2 := init_freshTable (shortest_distance_calculator.new false false false lin mx NL 0 0 0)
    (new_distance false false false lin mx NL 0 0 0)
  rw [calculateDistances_backward_eq t _ rfl, calculateDistances_backward_eq t _ rfl]
  unfold shortest_distance_calculator.ShortestDistance
  simp only [h1, h2]
  exact ⟨rfl, rfl⟩

/-! ### The best label of a neighbour -/

/-- C21 fails on the code when `root` is the right endpoint of the edge: on the single chain
`0, 1, 2, 3` with label counts `2, 3, 1, 2` and the costs `[[5,1,7],[9,9,0]]` on the edge
`(0,1)`, the call for `root = 1` with label `1` and neighbour `0` scans the three labels of
node `1` along the row of the left label `1` and returns label `2` with cost `0`, although
node `0` has the labels `0, 1` and the edge costs `1` and `9` against the right label `1`;
and the call for `root = 2` with label `0` and neighbour `1` reads the back-pointer `(0, 0)`
of the edge `(0,1)` instead of `(0, 1)` of the edge `(1,2)` and returns label `1` with
cost `1`, although every entry of the edge `(1,2)` is `0`. From the left endpoint, `root = 0`
with label `1` and neighbour `1`, the call returns label `2` with cost `0`, the least entry of
the row `[9,9,0]`. -/
theorem C21_neighbour_label_from_right_endpoint :
    (GreedyRoundingChains.new roundingExample [[0, 1, 2, 3]]).map
        (fun g => (g.nodeNeighbours, g.nodeNeighboursPotIndex))
      = some ([[1], [0, 2], [1, 3], [2]], [[(0, 0)], [(0, 0), (0, 1)], [(0, 1), (0, 2)], [(0, 2)]]) ∧
    (GreedyRoundingChains.new roundingExample [[0, 1, 2, 3]]).bind
        (fun g => g.ComputeNeighbourBestLabel 1 1 0) = some (2, 0) ∧
    roundingExample.map (fun pot => (pot.dim2 0, pot.get 0 0 1, pot.get 0 1 1)) = [(2, 1, 9)] ∧
    (GreedyRoundingChains.new roundingExample [[0, 1, 2, 3]]).bind
        (fun g => g.ComputeNeighbourBestLabel 2 0 1) = some (1, 1) ∧
    roundingExample.map (fun pot => (pot.dim2 1, pot.get 1 0 0, pot.get 1 1 0, pot.get 1 2 0))
      = [(3, 0, 0, 0)] ∧
    (GreedyRoundingChains.new roundingExample [[0, 1, 2, 3]]).bind
        (fun g => g.ComputeNeighbourBestLabel 0 1 1) = some (2, 0) := by
  decide

/-! ### Replaying a restricted frontier -/

/-- C26 fails on the code: in the replaying phase with the cursor at `0`, that is at the
first insert after `Populated()`, `insert<true>` evaluates `M[i - 1]` in its second test,
a position outside the stored vector; so does the replay of every non-empty sequence,
whatever was built before. -/
theorem C26_restricted_replay_reads_before_start (m : max_linear_costs)
    (rest : List max_linear_costs) (A : Marginals) :
    Marginals.insert true m A.Populated = none ∧
    Marginals.insertAll true (m :: rest) A.Populated = none ∧
    (Marginals.insertAll true [⟨1, 5⟩] Marginals.empty).bind
      (fun B => Marginals.insertAll true [⟨1, 5⟩] B.Populated) = none := by
  have h : Marginals.insert true m A.Populated = none := by
    unfold Marginals.insert Marginals.Populated
    simp
  exact ⟨h, by simp [Marginals.insertAll, h], by decide⟩

/-! ### Termination of the worklist loop -/

/-- More fuel does not change the outcome of a worklist run that ended. -/
theorem worklist_fuel_mono (cu : Bool) (t : REAL) (fuel : Nat) :
    ∀ (k : Nat) (q : List edge) (s : shortest_distance_calculator) (upd : List (Nat × Nat))
      (r : shortest_distance_calculator × List (Nat × Nat)),
      shortest_distance_calculator.worklist cu t fuel q s upd = some r →
      shortest_distance_calculator.worklist cu t (fuel + k) q s upd = some r := by
  induction fuel with
  | zero =>
    intro k q s upd r h
    cases q with
    | nil =>
      cases k <;> simpa [shortest_distance_calculator.worklist] using h
    | cons e q => simp [shortest_distance_calculator.worklist] at h
  | succ fuel ih =>
    intro k q s upd r h
    cases q with
    | nil => simpa [shortest_distance_calculator.worklist] using h
    | cons e q =>
      have hk : fuel + 1 + k = (fuel + k) + 1 := by omega
      rw [hk]
      simp only [shortest_distance_calculator.worklist] at h ⊢
      exact ih k _ _ _ r h

/-- C24: for every engine state, direction, restriction mode, threshold and edge,
`AddEdgeWithUpdate` returns, and its worklist loop ends from every queue within as many
iterations as the weight of the queue; every edge
pushed while an edge `e` is processed has as left node the node after `e.n1` when forward and
the node before `e.n1` when backward; and processing an edge that passes the sink test
pushes nothing. -/
theorem C24_worklist_terminates (cu : Bool) (t : REAL) (s : shortest_distance_calculator) :
    (∀ n1 l1 l2, ∃ r, shortest_distance_calculator.AddEdgeWithUpdate cu n1 l1 l2 t s = some r) ∧
    (∀ fuel q upd, queueWeight s.DoForward s.NumLabels q ≤ fuel →
      ∃ r, shortest_distance_calculator.worklist cu t fuel q s upd = some r) ∧
    (∀ e c, c ∈ (shortest_distance_calculator.processEdge cu t e s).2.2 →
      (s.DoForward = true → c.n1 = e.n1 + 1) ∧
      (s.DoForward = false → c.n1 + 1 = e.n1)) ∧
    (∀ e, reachesSink s e → (shortest_distance_calculator.processEdge cu t e s).2.2 = []) := by
  refine ⟨fun n1 l1 l2 => addEdgeWithUpdate_total cu n1 l1 l2 t s,
    fun fuel q upd h => worklist_total cu t fuel q s upd h, ?_, ?_⟩
  · intro e c hc
    rcases processEdge_cases cu t e s with ⟨_, heq⟩ | ⟨_, _, heq⟩ | ⟨_, hsink, heq⟩
    · rw [heq] at hc; simp at hc
    · rw [heq] at hc; simp at hc
    · rw [heq] at hc
      rw [mem_pushChildren] at hc
      rcases hc with ⟨hf, hn, _⟩ | ⟨hf, hn, _⟩
      · refine ⟨fun _ => ?_, fun h => ?_⟩
        · rw [hn]; simp [edgeDst, hf]
        · rw [hf] at h; simp at h
      · refine ⟨fun h => ?_, fun _ => ?_⟩
        · rw [hf] at h; simp at h
        · have hne : e.n1 ≠ 0 := fun h0 => hsink (Or.inr ⟨hf, h0⟩)
          rw [hn]
          simp only [edgeDst, hf, Bool.false_eq_true, if_false]
          omega
  · intro e hsink
    rcases processEdge_cases cu t e s with ⟨_, heq⟩ | ⟨_, _, heq⟩ | ⟨_, hns, _⟩
    · rw [heq]
    · rw [heq]
    · exact absurd hsink hns

/-! ### Restricted and unrestricted frontiers have the same optimum -/

theorem insert_covers (sr : Bool) (M seen : List max_linear_costs) (m : max_linear_costs)
    (i : Nat) (hC : Covers M seen) (hm : ∀ p ∈ seen, p.MaxCost ≤ m.MaxCost) :
    ∃ M', Marginals.insert sr m { M := M, i := i, populated := false }
        = some { M := M', i := i, populated := false } ∧ Covers M' (seen ++ [m]) := by
  obtain ⟨hsub, hdom⟩ := hC
  have hpush : Covers (M ++ [m]) (seen ++ [m]) := by
    constructor
    · intro e he
      simp only [List.mem_append, List.mem_singleton] at he
      rcases he with he | rfl
      · obtain ⟨p, hp, h1⟩ := hsub e he
        exact ⟨p, List.mem_append_left _ hp, h1⟩
      · exact ⟨e, by simp, rfl, rfl⟩
    · intro p hp
      simp only [List.mem_append, List.mem_singleton] at hp
      rcases hp with hp | rfl
      · obtain ⟨e, he, h1⟩ := hdom p hp
        exact ⟨e, List.mem_append_left _ he, h1⟩
      · exact ⟨p, by simp, le_refl _, le_refl _⟩
  unfold Marginals.insert
  rw [if_pos rfl]
  simp only []
  cases hb : M.getLast? with
  | none =>
    have hM : M = [] := by simpa using hb
    subst hM
    exact ⟨[m], by simp, by simpa using hpush⟩
  | some b =>
    obtain ⟨hset, hMeq⟩ := set_last_eq M b { b with LinearCost := min b.LinearCost m.LinearCost } hb
    have hbM : b ∈ M := by rw [hMeq]; simp
    by_cases heq : b.MaxCost = m.MaxCost
    · simp only [if_pos heq]
      refine ⟨_, rfl, ?_⟩
      rw [hset]
      have hold : ∀ e ∈ M, e ∈ M.dropLast ∨ e = b := by
        intro e he
        rw [hMeq] at he
        simpa using he
      constructor
      · intro e he
        simp only [List.mem_append, List.mem_singleton] at he
        rcases he with he | rfl
        · obtain ⟨p, hp, h1⟩ := hsub e (by rw [hMeq]; exact List.mem_append_left _ he)
          exact ⟨p, List.mem_append_left _ hp, h1⟩
        · rcases le_total b.LinearCost m.LinearCost with h | h
          · obtain ⟨p, hp, h1, h2⟩ := hsub b hbM
            exact ⟨p, List.mem_append_left _ hp, h1, by simpa [min_eq_left h] using h2⟩
          · exact ⟨m, by simp, by simp [heq], by simp [min_eq_right h]⟩
      · intro p hp
        simp only [List.mem_append, List.mem_singleton] at hp
        rcases hp with hp | rfl
        · obtain ⟨e, he, h1, h2⟩ := hdom p hp
          rcases hold e he with he' | he'
          · exact ⟨e, List.mem_append_left _ he', h1, h2⟩
          · rw [he'] at h1 h2
            exact ⟨{ b with LinearCost := min b.LinearCost m.LinearCost }, by simp, h1,
              le_trans (min_le_left _ _) h2⟩
        · exact ⟨{ b with LinearCost := min b.LinearCost p.LinearCost }, by simp,
            le_of_eq heq, min_le_right _ _⟩
    · simp only [if_neg heq]
      by_cases hdrop : sr = true ∧ m.LinearCost ≥ b.LinearCost
      · rw [if_pos hdrop]
        refine ⟨_, rfl, ?_⟩
        constructor
        · intro e he
          obtain ⟨p, hp, h1⟩ := hsub e he
          exact ⟨p, List.mem_append_left _ hp, h1⟩
        · intro p hp
          simp only [List.mem_append, List.mem_singleton] at hp
          rcases hp with hp | rfl
          · exact hdom p hp
          · obtain ⟨q, hq, h1, _⟩ := hsub b hbM
            exact ⟨b, hbM, h1 ▸ hm q hq, hdrop.2⟩
      · rw [if_neg hdrop]
        exact ⟨_, rfl, hpush⟩

theorem insertAll_covers (sr : Bool) (rest : List max_linear_costs) :
    ∀ (M seen : List max_linear_costs) (i : Nat), Covers M seen →
      (seen ++ rest).Pairwise (fun a b => a.MaxCost ≤ b.MaxCost) →
      ∃ M', Marginals.insertAll sr rest { M := M, i := i, populated := false }
          = some { M := M', i := i, populated := false } ∧ Covers M' (seen ++ rest) := by
  induction rest with
  | nil =>
    intro M seen i hC _
    exact ⟨M, rfl, by simpa using hC⟩
  | cons m rest ih =>
    intro M seen i hC hsorted
    have hm : ∀ p ∈ seen, p.MaxCost ≤ m.MaxCost := by
      intro p hp
      rw [List.pairwise_append] at hsorted
      exact hsorted.2.2 p hp m (by simp)
    obtain ⟨M1, h1, hC1⟩ := insert_covers sr M seen m i hC hm
    have hs : (seen ++ [m] ++ rest).Pairwise (fun a b => a.MaxCost ≤ b.MaxCost) := by
      simpa using hsorted
    obtain ⟨M2, h2, hC2⟩ := ih M1 (seen ++ [m]) i hC1 hs
    refine ⟨M2, ?_, by simpa using hC2⟩
    simp [Marginals.insertAll, h1, h2]

theorem minElement_le_of_forall (A B : List REAL) (h : ∀ b ∈ B, ∃ a ∈ A, a ≤ b) :
    minElement A ≤ minElement B := by
  rcases minElement_mem B with hB | hB
  · rw [hB]; exact le_top
  · obtain ⟨a, ha, hab⟩ := h _ hB
    exact le_trans (minElement_le A a ha) hab

/-- A vector that covers the points has the optimum of the points. -/
theorem bestGain_covers (M pts : List max_linear_costs) (c : max_linear_costs)
    (hC : Covers M pts) : bestGain M c = bestGain pts c := by
  unfold bestGain
  apply le_antisymm
  · apply minElement_le_of_forall
    intro x hx
    obtain ⟨p, hp, rfl⟩ := List.mem_map.1 hx
    obtain ⟨e, he, h1, h2⟩ := hC.2 p hp
    exact ⟨_, List.mem_map_of_mem _ he, add_le_add (max_le_max h1 (le_refl _)) h2⟩
  · apply minElement_le_of_forall
    intro x hx
    obtain ⟨e, he, rfl⟩ := List.mem_map.1 hx
    obtain ⟨p, hp, h1, h2⟩ := hC.1 e he
    refine ⟨_, List.mem_map_of_mem _ hp, ?_⟩
    unfold pairGain
    rw [h1, h2]

/-- C23: for every sequence of points sorted by non-decreasing `MaxCost` and every
single-node cost `c`, both building modes succeed and the minimum over the stored entries of
`max(entry.MaxCost, c.MaxCost) + entry.LinearCost` is the same for the vector built with
`storeRestricted = true` as for the one built with `storeRestricted = false` (and equal to the
minimum over the input points). -/
theorem C23_restricted_keeps_optimum (pts : List max_linear_costs) (c : max_linear_costs)
    (hsorted : pts.Pairwise (fun a b => a.MaxCost ≤ b.MaxCost)) :
    ∃ R U, Marginals.insertAll true pts Marginals.empty = some R ∧
      Marginals.insertAll false pts Marginals.empty = some U ∧
      bestGain R.M c = bestGain U.M c ∧ bestGain U.M c = bestGain pts c := by
  have h0 : Covers [] [] := ⟨by simp, by simp⟩
  obtain ⟨MR, hR, cR⟩ := insertAll_covers true pts [] [] 0 h0 (by simpa using hsorted)
  obtain ⟨MU, hU, cU⟩ := insertAll_covers false pts [] [] 0 h0 (by simpa using hsorted)
  simp only [List.nil_append] at cR cU
  refine ⟨_, _, hR, hU, ?_, bestGain_covers MU pts c cU⟩
  exact (bestGain_covers MR pts c cR).trans (bestGain_covers MU pts c cU).symm

/-- Witness for C23 on the input `(1,5), (1,3), (2,7), (4,2), (4,9), (6,1)` and the cost
`(3,10)`. -/
theorem C23_restricted_keeps_optimum_witness :
    ([⟨1, 5⟩, ⟨1, 3⟩, ⟨2, 7⟩, ⟨4, 2⟩, ⟨4, 9⟩, ⟨6, 1⟩] : List max_linear_costs).Pairwise
      (fun a b => a.MaxCost ≤ b.MaxCost) ∧
    ∃ R U, Marginals.insertAll true [⟨1, 5⟩, ⟨1, 3⟩, ⟨2, 7⟩, ⟨4, 2⟩, ⟨4, 9⟩, ⟨6, 1⟩]
        Marginals.empty = some R ∧
      Marginals.insertAll false [⟨1, 5⟩, ⟨1, 3⟩, ⟨2, 7⟩, ⟨4, 2⟩, ⟨4, 9⟩, ⟨6, 1⟩]
        Marginals.empty = some U ∧
      bestGain R.M ⟨3, 10⟩ = bestGain U.M ⟨3, 10⟩ ∧
      bestGain U.M ⟨3, 10⟩
        = bestGain [⟨1, 5⟩, ⟨1, 3⟩, ⟨2, 7⟩, ⟨4, 2⟩, ⟨4, 9⟩, ⟨6, 1⟩] ⟨3, 10⟩ :=
  ⟨by decide, C23_restricted_keeps_optimum _ _ (by decide)⟩

/-! ### The backward sweep as a forward sweep over the reversed chain -/

theorem getD_reverse {α : Type} (L : List α) (d : α) (k : Nat) (h : k < L.length) :
    L.reverse.getD k d = L.getD (L.length - 1 - k) d := by
  simp only [List.getD_eq_getElem?_getD]
  rw [List.getElem?_reverse h]

theorem tableAt_reverse (d : List (List REAL)) (k l : Nat) (h : k < d.length) :
    tableAt d.reverse (k, l) = tableAt d (d.length - 1 - k, l) := by
  unfold tableAt tableGet
  dsimp only
  rw [getD_reverse d [] k h]

theorem validEdge_reverse (NL : List Nat) (e : edge) (he : validEdge NL e) :
    validEdge NL.reverse (reverseEdge NL.length e) ∧
    (reverseEdge NL.length e).n1 + 1 = NL.length - 1 - e.n1 ∧
    NL.length - 2 - (reverseEdge NL.length e).n1 = e.n1 := by
  obtain ⟨h1, h2, h3⟩ := he
  unfold validEdge reverseEdge
  dsimp only
  rw [List.length_reverse, getD_reverse NL 0 _ (by omega), getD_reverse NL 0 _ (by omega)]
  have e1 : NL.length - 1 - (NL.length - 2 - e.n1) = e.n1 + 1 := by omega
  have e2 : NL.length - 1 - (NL.length - 2 - e.n1 + 1) = e.n1 := by omega
  rw [e1, e2]
  exact ⟨⟨by omega, h3, h2⟩, by omega, by omega⟩

/-- A table with the Bellman conditions of the forward direction over the reversed chain,
read in reverse node order, has the Bellman conditions of the backward direction over the
chain. -/
theorem bellman_reverse (lin mx : three_dimensional_variable_array) (NL : List Nat) (t : REAL)
    (d : List (List REAL)) (hN : 2 ≤ NL.length)
    (h : IsBellman true (reverseTable NL.length lin) (reverseTable NL.length mx) NL.reverse t d) :
    IsBellman false lin mx NL t d.reverse := by
  obtain ⟨hshape, hsrc, hrel, hatt⟩ := h
  have hlen : d.length = NL.length := by
    have := shape_length hshape
    simpa using this
  have hat : ∀ k l, k < NL.length →
      tableAt d.reverse (k, l) = tableAt d (NL.length - 1 - k, l) := by
    intro k l hk
    rw [tableAt_reverse d k l (by omega), hlen]
  have hNLr : ∀ k, k < NL.length → NL.reverse.getD k 0 = NL.getD (NL.length - 1 - k) 0 :=
    fun k hk => getD_reverse NL 0 k hk
  simp only [List.length_reverse, sourceRow, if_true] at hsrc hatt
  refine ⟨?_, ?_, ?_, ?_⟩
  · rw [List.map_reverse, hshape, List.reverse_reverse]
  · intro l hl
    simp only [sourceRow, Bool.false_eq_true, if_false] at hl ⊢
    rw [hat _ l (by omega)]
    have e0 : NL.length - 1 - (NL.length - 1) = 0 := by omega
    rw [e0]
    apply hsrc l
    rw [hNLr 0 (by omega)]
    exact hl
  · intro e he hmx
    obtain ⟨hv, hn, hback⟩ := validEdge_reverse NL e he
    have hr := hrel (reverseEdge NL.length e) hv (by
      show mx.get (NL.length - 2 - (reverseEdge NL.length e).n1) e.l1 e.l2 ≤ t
      rw [hback]; exact hmx)
    unfold Relaxed at hr ⊢
    simp only [edgeDst, edgeSrc, if_true, Bool.false_eq_true, if_false] at hr ⊢
    have h1 := he.1
    rw [hat e.n1 e.l1 (by omega), hat (e.n1 + 1) e.l2 h1]
    have ha : (reverseEdge NL.length e).n1 = NL.length - 1 - (e.n1 + 1) := by
      unfold reverseEdge; dsimp only; omega
    rw [hn, ha] at hr
    have hg : (reverseTable NL.length lin).get (NL.length - 1 - (e.n1 + 1))
        (reverseEdge NL.length e).l1 (reverseEdge NL.length e).l2 = lin.get e.n1 e.l1 e.l2 := by
      show lin.get (NL.length - 2 - (NL.length - 1 - (e.n1 + 1))) e.l1 e.l2 = _
      congr 1
      omega
    rw [hg] at hr
    exact hr
  · intro n l hn hl hns
    simp only [sourceRow, Bool.false_eq_true, if_false] at hns
    have hl' : l < NL.reverse.getD (NL.length - 1 - n) 0 := by
      rw [hNLr _ (by omega)]
      have : NL.length - 1 - (NL.length - 1 - n) = n := by omega
      rw [this]; exact hl
    rcases hatt (NL.length - 1 - n) l (by omega) hl' (by omega) with htop | ⟨e', _, hv, hmx, hdst, hval⟩
    · left
      rw [hat n l hn]
      exact htop
    · right
      obtain ⟨hv2, _, _⟩ := validEdge_reverse NL.reverse e' hv
      rw [List.reverse_reverse, List.length_reverse] at hv2
      simp only [edgeDst, edgeSrc, if_true, Prod.mk.injEq] at hdst hval
      obtain ⟨hd1, hd2⟩ := hdst
      have hn1 : (reverseEdge NL.length e').n1 = n := by
        unfold reverseEdge; dsimp only; omega
      refine ⟨reverseEdge NL.length e', trivial, hv2, hmx, ?_, ?_⟩
      · simp only [edgeDst, Bool.false_eq_true, if_false, Prod.mk.injEq]
        exact ⟨hn1, hd2⟩
      · simp only [edgeSrc, Bool.false_eq_true, if_false]
        rw [hn1, hat n l hn, hat (n + 1) _ (by omega), hval]
        have hb : NL.length - 1 - (n + 1) = e'.n1 := by omega
        rw [hb]
        have hn' : n = NL.length - 2 - e'.n1 := by omega
        rw [hn']
        rfl

/-- C25: for every chain with at least two nodes and every threshold `t`,
`CalculateDistances(t)` on a fresh backward unrestricted engine gives the table of
`CalculateDistances(t)` on a fresh forward unrestricted engine over the reversed chain, read in
reverse node order: backward `distance[n][l]` is forward `distance[N-1-n][l]` for every node
`n` and label `l`, and the two values of `ShortestDistance()` are equal. -/
theorem C25_backward_is_forward_on_reversed_chain (lin mx : three_dimensional_variable_array)
    (NL : List Nat) (t : REAL) (hN : 2 ≤ NL.length) :
    (∀ n l, n < NL.length → l < NL.getD n 0 →
      (shortest_distance_calculator.CalculateDistances false t 0 0
          (shortest_distance_calculator.new false false false lin mx NL 0 0 0)).GetDistance n l
        = (shortest_distance_calculator.CalculateDistances false t 0 0
          (shortest_distance_calculator.new true false false (reverseTable NL.length lin)
            (reverseTable NL.length mx) NL.reverse 0 0 0)).GetDistance (NL.length - 1 - n) l) ∧
    (shortest_distance_calculator.CalculateDistances false t 0 0
        (shortest_distance_calculator.new false false false lin mx NL 0 0 0)).distance
      = (shortest_distance_calculator.CalculateDistances false t 0 0
          (shortest_distance_calculator.new true false false (reverseTable NL.length lin)
            (reverseTable NL.length mx) NL.reverse 0 0 0)).distance.reverse ∧
    (shortest_distance_calculator.CalculateDistances false t 0 0
        (shortest_distance_calculator.new false false false lin mx NL 0 0 0)).ShortestDistance
      = (shortest_distance_calculator.CalculateDistances false t 0 0
          (shortest_distance_calculator.new true false false (reverseTable NL.length lin)
            (reverseTable NL.length mx) NL.reverse 0 0 0)).ShortestDistance := by
  obtain ⟨hB, hBs⟩ := calculateDistances_bellman false lin mx NL t 0 0 0
  obtain ⟨hF, hFs⟩ := calculateDistances_bellman true (reverseTable NL.length lin)
    (reverseTable NL.length mx) NL.reverse t 0 0 0
  generalize (shortest_distance_calculator.CalculateDistances false t 0 0
    (shortest_distance_calculator.new false false false lin mx NL 0 0 0)) = B at *
  generalize (shortest_distance_calculator.CalculateDistances false t 0 0
    (shortest_distance_calculator.new true false false (reverseTable NL.length lin)
      (reverseTable NL.length mx) NL.reverse 0 0 0)) = F at *
  have hlen : F.distance.length = NL.length := by
    have := shape_length hF.1
    simpa using this
  have heq : B.distance = F.distance.reverse :=
    bellman_unique false lin mx NL t _ _ hB (bellman_reverse lin mx NL t F.distance hN hF)
  refine ⟨?_, heq, ?_⟩
  · intro n l hn _
    unfold shortest_distance_calculator.GetDistance
    rw [heq]
    have := tableAt_reverse F.distance n l (by omega)
    unfold tableAt at this
    rw [this, hlen]
  · unfold shortest_distance_calculator.ShortestDistance
    rw [hBs, hFs, heq]
    simp only [sinkRow, Bool.false_eq_true, if_false, if_true, List.length_reverse]
    rw [getD_reverse F.distance [] 0 (by omega), hlen]
    rfl

/-- Witness for C25 on the three-node example chain of the specification. -/
theorem C25_backward_is_forward_on_reversed_chain_witness :
    2 ≤ ([1, 2, 1] : List Nat).length ∧
    (shortest_distance_calculator.CalculateDistances false 0 0 0
        (shortest_distance_calculator.new false false false exampleLinear exampleMax
          [1, 2, 1] 0 0 0)).distance = [[3], [1, 3], [0]] ∧
    ((∀ n l, n < ([1, 2, 1] : List Nat).length → l < ([1, 2, 1] : List Nat).getD n 0 →
      (shortest_distance_calculator.CalculateDistances false 0 0 0
          (shortest_distance_calculator.new false false false exampleLinear exampleMax
            [1, 2, 1] 0 0 0)).GetDistance n l
        = (shortest_distance_calculator.CalculateDistances false 0 0 0
          (shortest_distance_calculator.new true false false
            (reverseTable ([1, 2, 1] : List Nat).length exampleLinear)
            (reverseTable ([1, 2, 1] : List Nat).length exampleMax)
            ([1, 2, 1] : List Nat).reverse 0 0 0)).GetDistance
              (([1, 2, 1] : List Nat).length - 1 - n) l) ∧
    (shortest_distance_calculator.CalculateDistances false 0 0 0
        (shortest_distance_calculator.new false false false exampleLinear exampleMax
          [1, 2, 1] 0 0 0)).distance
      = (shortest_distance_calculator.CalculateDistances false 0 0 0
          (shortest_distance_calculator.new true false false
            (reverseTable ([1, 2, 1] : List Nat).length exampleLinear)
            (reverseTable ([1, 2, 1] : List Nat).length exampleMax)
            ([1, 2, 1] : List Nat).reverse 0 0 0)).distance.reverse ∧
    (shortest_distance_calculator.CalculateDistances false 0 0 0
        (shortest_distance_calculator.new false false false exampleLinear exampleMax
          [1, 2, 1] 0 0 0)).ShortestDistance
      = (shortest_distance_calculator.CalculateDistances false 0 0 0
          (shortest_distance_calculator.new true false false
            (reverseTable ([1, 2, 1] : List Nat).length exampleLinear)
            (reverseTable ([1, 2, 1] : List Nat).length exampleMax)
            ([1, 2, 1] : List Nat).reverse 0 0 0)).ShortestDistance) :=
  ⟨by decide, by decide,
    C25_backward_is_forward_on_reversed_chain exampleLinear exampleMax [1, 2, 1] 0 (by decide)⟩

/-! ### The updated nodes returned by `AddEdgeWithUpdate` -/

theorem relaxTable_le (fwd : Bool) (lin : three_dimensional_variable_array) (NL : List Nat)
    (e : edge) (d : List (List REAL)) (he : validEdge NL e) (hd : d.map List.length = NL)
    (x : Nat × Nat) : tableAt (relaxTable fwd lin e d) x ≤ tableAt d x := by
  rw [relaxTable_at fwd lin NL e d he hd x]
  split_ifs with hx
  · rw [hx]; exact min_le_left _ _
  · exact le_refl _

theorem processEdge_keeps_updated (t : REAL) (s0 s : shortest_distance_calculator)
    (q : List edge) (upd : List (Nat × Nat)) (e : edge)
    (hdim : s0.LinearPairwisePotentials.dim1 + 1 = s0.NumLabels.length)
    (h : UpdatedInv s0 s (e :: q) upd) :
    UpdatedInv s0 (shortest_distance_calculator.processEdge true t e s).1
      (q ++ (shortest_distance_calculator.processEdge true t e s).2.2)
      (upd ++ (shortest_distance_calculator.processEdge true t e s).2.1) := by
  have he : validEdge s0.NumLabels e := h.queued e (by simp)
  have hq : ∀ c ∈ q, validEdge s0.NumLabels c := fun c hc => h.queued c (by simp [hc])
  have hle := relaxTable_le s.DoForward s.LinearPairwisePotentials s0.NumLabels e s.distance
    he h.shape
  have hat := relaxTable_at s.DoForward s.LinearPairwisePotentials s0.NumLabels e s.distance
    he h.shape
  rcases processEdge_cases true t e s with ⟨_, heq⟩ | ⟨hnr, hsink, heq⟩ | ⟨hnr, hns, heq⟩
  · rw [heq]
    simp only [List.append_nil]
    exact { h with queued := hq }
  · rw [heq]
    simp only [List.append_nil]
    have hrow : (edgeDst s.DoForward e).1 = sinkRow s0.DoForward s0.NumLabels.length := by
      rcases hsink with ⟨hf, hn⟩ | ⟨hf, hn⟩
      · rw [h.linEq] at hn
        rw [← h.dir, hf]
        simp only [edgeDst, sinkRow, if_true]
        omega
      · rw [← h.dir, hf]
        simp only [edgeDst, sinkRow, Bool.false_eq_true, if_false]
        exact hn
    have hsame : ∀ x : Nat × Nat, x.1 ≠ sinkRow s0.DoForward s0.NumLabels.length →
        tableAt (relaxTable s.DoForward s.LinearPairwisePotentials e s.distance) x
          = tableAt s.distance x := by
      intro x hx
      rw [hat x, if_neg]
      intro hxe
      exact hx (by rw [hxe]; exact hrow)
    refine ⟨h.dir, h.linEq, h.labels, ?_, hq, ?_, ?_, ?_⟩
    · exact (shape_relaxTable _ _ _ _).trans h.shape
    · exact fun x => le_trans (hle x) (h.below x)
    · intro x hx
      obtain ⟨h1, h2⟩ := h.listed x hx
      exact ⟨h1, lt_of_le_of_lt (hle x) h2⟩
    · intro x hx hlt
      apply h.complete x hx
      have := hsame x hx
      dsimp only at hlt
      rw [this] at hlt
      exact hlt
  · rw [heq]
    simp only [if_true]
    have hnew : tableAt (relaxTable s.DoForward s.LinearPairwisePotentials e s.distance)
        (edgeDst s.DoForward e) < tableAt s.distance (edgeDst s.DoForward e) := by
      rw [hat, if_pos rfl]
      unfold Relaxed at hnr
      exact lt_of_le_of_lt (min_le_right _ _) (not_le.1 hnr)
    have hrow : (edgeDst s.DoForward e).1 ≠ sinkRow s0.DoForward s0.NumLabels.length := by
      intro hcon
      apply hns
      unfold reachesSink
      rw [h.linEq]
      cases hf : s.DoForward
      · right
        rw [← h.dir, hf] at hcon
        simp only [edgeDst, sinkRow, Bool.false_eq_true, if_false] at hcon
        exact ⟨rfl, hcon⟩
      · left
        rw [← h.dir, hf] at hcon
        simp only [edgeDst, sinkRow, if_true] at hcon
        exact ⟨rfl, by omega⟩
    refine ⟨h.dir, h.linEq, h.labels, ?_, ?_, ?_, ?_, ?_⟩
    · exact (shape_relaxTable _ _ _ _).trans h.shape
    · intro c hc
      rcases List.mem_append.1 hc with hc | hc
      · exact hq c hc
      · rw [mem_pushChildren, h.labels] at hc
        obtain ⟨e1, e2, e3⟩ := he
        rcases hc with ⟨hf, c1, c2, c3, _⟩ | ⟨hf, c1, c2, c3, _⟩
        · simp only [edgeDst, hf, if_true] at c1 c2 c3
          have := lt_getD_length _ _ _ c3
          refine ⟨by omega, ?_, ?_⟩
          · rw [c1, c2]; exact e3
          · rw [c1]; exact c3
        · simp only [edgeDst, hf, Bool.false_eq_true, if_false] at c1 c2 c3
          have hne : e.n1 ≠ 0 := fun h0 => hns (Or.inr ⟨hf, h0⟩)
          have hc1 : c.n1 + 1 = e.n1 := by omega
          refine ⟨by omega, ?_, ?_⟩
          · rw [c1]; exact c3
          · rw [hc1, c2]; exact e2
    · exact fun x => le_trans (hle x) (h.below x)
    · intro x hx
      rcases List.mem_append.1 hx with hx | hx
      · obtain ⟨h1, h2⟩ := h.listed x hx
        exact ⟨h1, lt_of_le_of_lt (hle x) h2⟩
      · simp only [List.mem_singleton] at hx
        subst hx
        exact ⟨hrow, lt_of_lt_of_le hnew (h.below _)⟩
    · intro x hx hlt
      by_cases hxe : x = edgeDst s.DoForward e
      · exact List.mem_append_right _ (by simp [hxe])
      · apply List.mem_append_left
        apply h.complete x hx
        dsimp only at hlt
        rw [hat x, if_neg hxe] at hlt
        exact hlt

theorem worklist_keeps_updated (t : REAL) (s0 : shortest_distance_calculator)
    (hdim : s0.LinearPairwisePotentials.dim1 + 1 = s0.NumLabels.length) (fuel : Nat) :
    ∀ (q : List edge) (s : shortest_distance_calculator) (upd : List (Nat × Nat))
      (r : shortest_distance_calculator × List (Nat × Nat)),
      UpdatedInv s0 s q upd →
      shortest_distance_calculator.worklist true t fuel q s upd = some r →
      UpdatedInv s0 r.1 [] r.2 := by
  induction fuel with
  | zero =>
    intro q s upd r hinv hrun
    cases q with
    | nil =>
      simp only [shortest_distance_calculator.worklist, Option.some.injEq] at hrun
      subst hrun
      exact hinv
    | cons e q => simp [shortest_distance_calculator.worklist] at hrun
  | succ fuel ih =>
    intro q s upd r hinv hrun
    cases q with
    | nil =>
      simp only [shortest_distance_calculator.worklist, Option.some.injEq] at hrun
      subst hrun
      exact hinv
    | cons e q =>
      simp only [shortest_distance_calculator.worklist] at hrun
      exact ih _ _ _ r (processEdge_keeps_updated t s0 s q upd e hdim hinv) hrun

/-- C22 (as amended): on an engine whose table has one row per node and one entry per
label, whose Linear table has one position per edge, and for an edge of the chain,
`AddEdgeWithUpdate<true>` returns, and the returned list contains, as a set, exactly the
pairs `(node, label)` outside the sink row whose distance entry after the call differs from
its value before the call. -/
theorem C22_updated_nodes_outside_sink_row (n1 l1 l2 : Nat) (t : REAL)
    (s : shortest_distance_calculator)
    (hshape : s.distance.map List.length = s.NumLabels)
    (hdim : s.LinearPairwisePotentials.dim1 + 1 = s.NumLabels.length)
    (he : validEdge s.NumLabels (edge.mk n1 l1 l2)) :
    ∃ s' upd, shortest_distance_calculator.AddEdgeWithUpdate true n1 l1 l2 t s
        = some (s', upd) ∧
      ∀ n l, (n, l) ∈ upd ↔
        (n ≠ sinkRow s.DoForward s.NumLabels.length ∧ s'.GetDistance n l ≠ s.GetDistance n l) := by
  have h0 : UpdatedInv s s [edge.mk n1 l1 l2] [] :=
    { dir := rfl, linEq := rfl, labels := rfl, shape := hshape
      queued := fun e h => by
        simp only [List.mem_singleton] at h
        subst h
        exact he
      below := fun _ => le_refl _
      listed := fun x hx => by simp at hx
      complete := fun x _ hlt => absurd hlt (lt_irrefl _) }
  have hfin : ∀ (r : shortest_distance_calculator × List (Nat × Nat)),
      UpdatedInv s r.1 [] r.2 → ∀ n l, (n, l) ∈ r.2 ↔
        (n ≠ sinkRow s.DoForward s.NumLabels.length ∧
          r.1.GetDistance n l ≠ s.GetDistance n l) := by
    intro r hr n l
    constructor
    · intro hx
      obtain ⟨h1, h2⟩ := hr.listed (n, l) hx
      exact ⟨h1, ne_of_lt h2⟩
    · rintro ⟨h1, h2⟩
      exact hr.complete (n, l) h1 (lt_of_le_of_ne (hr.below (n, l)) h2)
  obtain ⟨r, hr⟩ := addEdgeWithUpdate_total true n1 l1 l2 t s
  refine ⟨r.1, r.2, hr, ?_⟩
  unfold shortest_distance_calculator.AddEdgeWithUpdate at hr
  split_ifs at hr
  · simp only [Option.some.injEq] at hr
    subst hr
    exact hfin _ { h0 with queued := fun e h => by simp at h }
  · exact hfin r (worklist_keeps_updated t s hdim _ _ _ _ r h0 hr)

/-- Witness for C22 (as amended) on the fresh forward engine of the three-node example and
the edge `(0, 0, 0)`. -/
theorem C22_updated_nodes_outside_sink_row_witness :
    (exampleEngine true).distance.map List.length = (exampleEngine true).NumLabels ∧
    (exampleEngine true).LinearPairwisePotentials.dim1 + 1
      = (exampleEngine true).NumLabels.length ∧
    validEdge (exampleEngine true).NumLabels (edge.mk 0 0 0) ∧
    ∃ s' upd, shortest_distance_calculator.AddEdgeWithUpdate true 0 0 0 0 (exampleEngine true)
        = some (s', upd) ∧
      ∀ n l, (n, l) ∈ upd ↔
        (n ≠ sinkRow (exampleEngine true).DoForward (exampleEngine true).NumLabels.length ∧
          s'.GetDistance n l ≠ (exampleEngine true).GetDistance n l) :=
  ⟨by decide, by decide, by decide,
    C22_updated_nodes_outside_sink_row 0 0 0 0 (exampleEngine true) (by decide) (by decide)
      (by decide)⟩

/-- C22 as stated fails: on the fresh forward engine of the three-node example,
`AddEdgeWithUpdate<true>(0, 0, 0, 0)` lowers `distance[1][0]` to `2` and, through the edge
`(1, 0, 0)`, `distance[2][0]` from `REAL_MAX` to `3`, and returns the list `[(1, 0)]`: the
changed entry `(2, 0)` of the sink row is not in it. -/
theorem C22_sink_row_update_not_listed :
    exampleMax.get 0 0 0 ≤ 0 ∧
    (exampleEngine true).distance = [[0], [REAL_MAX, REAL_MAX], [REAL_MAX]] ∧
    (shortest_distance_calculator.AddEdgeWithUpdate true 0 0 0 0 (exampleEngine true)).map
        (fun r => (r.1.distance, r.2))
      = some ([[0], [2, REAL_MAX], [3]], [(1, 0)]) := by
  decide

end LPMP
